import Mathlib

/-!
# FMHA forward / split-KV combine pipelines: a shallow embedding

Sources embedded here:

* `include/ck_tile/ops/fmha/pipeline/block_fmha_fwd_splitkv_combine_pipeline.hpp`
  (`BlockFmhaFwdSplitKVCombinePipeline`)
* `include/ck/tile_program/block_tile_pipeline/block_fmha_pipeline_qr_ks_vs.hpp`
  (`BlockFmhaPipelineQRKSVS`)
* `example/65_grouped_conv_fwd_convscale/convnd_fwd_convscale_common.hpp`
  (`get_rtol`, `get_atol`, `GetFlops`, `run_grouped_conv_fwd`)
* `include/ck/host_utility/kernel_launch_flush_cache.hpp`
  (`launch_and_time_kernel_with_preprocess`)

Scalars are an arbitrary linearly ordered field `α` together with the
transcendental functions the code calls (`exp`, `exp2`), passed as parameters, so
every definition is computable; the theorems about exact real arithmetic
instantiate `α := ℝ` and `exp := Real.exp`.

Distributed tensors are modelled by the logical tile they hold (a function of
the logical tile coordinates): a sweep over the distributed spans of all lanes
visits every logical coordinate of the tile exactly once.
-/

namespace CK

/-! ## Shared infrastructure -/

/-- Modelled from the spec: the row reduction `block_tile_reduce(t, sequence<1>, f, init)`
followed by `block_tile_reduce_sync` (the library code is not among the sources):
the per-lane partial reductions and their cross-lane combination give, for every
row, the identity `init` combined by `f` with the `n` elements `g 0 .. g (n-1)`
of the row. -/
def reduceRange {β : Type} (f : β → β → β) (init : β) (g : Nat → β) : Nat → β
  | 0 => init
  | n + 1 => f (reduceRange f init g n) (g n)

/-! ## Floating-point values with infinities and NaN (LSEDataType) -/

/-- A value of `LSEDataType`: a finite number, one of the infinities, or NaN. -/
inductive Fp (α : Type) where
  | fin : α → Fp α
  | negInf : Fp α
  | posInf : Fp α
  | nan : Fp α
  deriving DecidableEq

namespace Fp

variable {α : Type} [LinearOrderedField α]

/-- Unary minus. -/
def neg : Fp α → Fp α
  | fin x => fin (-x)
  | negInf => posInf
  | posInf => negInf
  | nan => nan

/-- Addition `e0 + e1` (`inf + -inf` is NaN, NaN propagates). -/
def add : Fp α → Fp α → Fp α
  | nan, _ => nan
  | _, nan => nan
  | fin x, fin y => fin (x + y)
  | fin _, negInf => negInf
  | fin _, posInf => posInf
  | negInf, fin _ => negInf
  | posInf, fin _ => posInf
  | negInf, negInf => negInf
  | posInf, posInf => posInf
  | negInf, posInf => nan
  | posInf, negInf => nan

/-- Subtraction `a - b`. -/
def sub (a b : Fp α) : Fp α := add a (neg b)

/-- Comparison `a > b`; false as soon as one side is NaN. -/
def gt : Fp α → Fp α → Bool
  | nan, _ => false
  | _, nan => false
  | fin x, fin y => decide (y < x)
  | fin _, negInf => true
  | fin _, posInf => false
  | negInf, _ => false
  | posInf, posInf => false
  | posInf, _ => true

/-- Comparison `a == b`; NaN is equal to nothing. -/
def eqb : Fp α → Fp α → Bool
  | fin x, fin y => decide (x = y)
  | negInf, negInf => true
  | posInf, posInf => true
  | _, _ => false

/-- Modelled from the spec: the helper `ck_tile::max` used for the "row-wise max
across splits" (its definition is not among the sources), taken as the generic
two-argument maximum `x > y ? x : y`. -/
def max (x y : Fp α) : Fp α := if gt x y then x else y

/-- Modelled from the spec: the helper `ck_tile::exp` (its definition is not among
the sources): `e` on finite values, `exp(-inf) = 0`, `exp(+inf) = +inf`, and NaN
propagates "through the exponential". -/
def exp (e : α → α) : Fp α → Fp α
  | fin x => fin (e x)
  | negInf => fin 0
  | posInf => posInf
  | nan => nan

/-- The value is NaN. -/
def isNaN : Fp α → Bool
  | nan => true
  | _ => false

/-- The value is a finite number. -/
def isFinite : Fp α → Bool
  | fin _ => true
  | _ => false

/-- The order `a <= b` of the extended number line; false with a NaN operand. -/
def le : Fp α → Fp α → Bool
  | nan, _ => false
  | _, nan => false
  | negInf, _ => true
  | _, posInf => true
  | fin x, fin y => decide (x ≤ y)
  | fin _, negInf => false
  | posInf, _ => false

end Fp

/-! ## BlockFmhaFwdSplitKVCombinePipeline -/

/-- The compile-time `Problem` of the combine pipeline (the members its code
reads). `isMasking` is `FmhaMask::IsMasking`. -/
structure CombineProblem where
  kM0 : Nat
  kMaxSplits : Nat
  kK0BlockLength : Nat
  kHasBias : Bool
  isMasking : Bool
  kStoreLSE : Bool
  kBlockPerCu : Int

namespace Combine

variable {α : Type} [LinearOrderedField α]

/-- LDS element offset used by the store sweep: `row + col * kMaxSplits`, where
`(row, col)` is the coordinate in `lse_acc`, of shape `[kMaxSplits, kM0]`. -/
def storeOffset (P : CombineProblem) (row col : Nat) : Nat := row + col * P.kMaxSplits

/-- LDS element offset used by the load sweep: `col + row * kMaxSplits`, where
`(row, col)` is the coordinate in `lse_accum`, of shape `[kM0, kMaxSplits]`. -/
def loadOffset (P : CombineProblem) (row col : Nat) : Nat := col + row * P.kMaxSplits

/-- The block "copy lse_acc to LDS": the two nested sweeps over the spans of
`lse_acc`, each element written to `lse_acc_lds_ptr[row + col * kMaxSplits]`. -/
def copy_lse_acc_to_lds (P : CombineProblem) (lse_acc : Nat → Nat → Fp α)
    (lds : Nat → Fp α) : Nat → Fp α :=
  (List.range P.kMaxSplits).foldl
    (fun mem row =>
      (List.range P.kM0).foldl
        (fun mem1 col => Function.update mem1 (storeOffset P row col) (lse_acc row col))
        mem)
    lds

/-- The block "copy LDS to lse_accum": element `(row, col)` of `lse_accum` is read
from `lse_acc_lds_ptr[col + row * kMaxSplits]`. -/
def lse_accum (P : CombineProblem) (lse_acc : Nat → Nat → Fp α) (lds : Nat → Fp α)
    (row col : Nat) : Fp α :=
  copy_lse_acc_to_lds P lse_acc lds (loadOffset P row col)

/-- The local `lse_max`: row maximum of `lse_accum` with identity `-infinity`. -/
def lse_max (P : CombineProblem) (lse_acc : Nat → Nat → Fp α) (lds : Nat → Fp α)
    (row : Nat) : Fp α :=
  reduceRange Fp.max Fp.negInf (fun col => lse_accum P lse_acc lds row col) P.kMaxSplits

/-- The lambda `get_validated_m`. -/
def get_validated_m (P : CombineProblem) (raw_m : Fp α) : Fp α :=
  if P.kHasBias || P.isMasking then
    (if Fp.eqb raw_m Fp.negInf then Fp.fin 0 else raw_m)
  else raw_m

/-- The local `p_compute`: `exp(lse_accum - get_validated_m(lse_max))`. -/
def p_compute (e : α → α) (P : CombineProblem) (lse_acc : Nat → Nat → Fp α)
    (lds : Nat → Fp α) (row col : Nat) : Fp α :=
  Fp.exp e (Fp.sub (lse_accum P lse_acc lds row col)
    (get_validated_m P (lse_max P lse_acc lds row)))

/-- The local `lse_sum`: row sum of `p_compute` with identity `0`. -/
def lse_sum (e : α → α) (P : CombineProblem) (lse_acc : Nat → Nat → Fp α)
    (lds : Nat → Fp α) (row : Nat) : Fp α :=
  reduceRange Fp.add (Fp.fin 0) (fun col => p_compute e P lse_acc lds row col) P.kMaxSplits

/-- What a call of `operator()` leaves behind: the returned tile, the contents of
the LSE output window `lse_dram_window_tmp`, and shared memory. -/
structure Result (α : Type) where
  o_acc : Nat → Nat → Fp α
  lse_dram : Nat → Fp α
  lds : Nat → Fp α

/-- The element-function overload of `operator()`. `o_acc_dram` is the partial output
window (split, row, column) and `lse_dram` the LSE output window on entry.
The body computes `lse_max`, `p_compute` and `lse_sum` as locals, never stores
to `lse_dram_window_tmp`, never loads `o_acc_dram_block_window_tmp`, and returns
the value-initialised `OaccBlockTileType{}`. -/
def run (_e : α → α) (P : CombineProblem) (lse_acc : Nat → Nat → Fp α)
    (_o_acc_dram : Nat → Nat → Nat → Fp α) (lse_dram : Nat → Fp α)
    (_lse_element_func _o_acc_element_func : Fp α → Fp α) (lds : Nat → Fp α) : Result α :=
  { o_acc := fun _ _ => Fp.fin 0
    lse_dram := lse_dram
    lds := copy_lse_acc_to_lds P lse_acc lds }

/-- The overload of `operator()` without element functions (`identity{}` twice). -/
def runDefault (e : α → α) (P : CombineProblem) (lse_acc : Nat → Nat → Fp α)
    (o_acc_dram : Nat → Nat → Nat → Fp α) (lse_dram : Nat → Fp α)
    (lds : Nat → Fp α) : Result α :=
  run e P lse_acc o_acc_dram lse_dram id id lds

end Combine

/-! ## BlockFmhaPipelineQRKSVS (forward pipeline) -/

/-- The static tile shape (`BlockFmhaShape`) and the policy constants read by
`operator()`. `vRowMajor` says that `VLayout` is `RowMajor`; `LdsSeq i` is
`Policy::GetLdsBufferSequence().At(i)`. -/
structure FwdShape where
  kM0 : Nat
  kN0 : Nat
  kK0 : Nat
  kN1 : Nat
  kK1 : Nat
  kK0BlockLength : Nat
  vRowMajor : Bool
  LdsSeq : Nat → Nat

/-- The arithmetic the pipeline is compiled against: `math::exp`, `math::exp2`,
`NumericLimits<SMPLComputeDataType>::Lowest()` and the build switch
`CK_FMHA_FWD_FAST_EXP2`. -/
structure Arith (α : Type) where
  exp : α → α
  exp2 : α → α
  lowest : α
  fastExp2 : Bool

namespace Fwd

variable {α : Type} [LinearOrderedField α]

/-- The constant `k0_loops = kK0BlockLength / kK0`. -/
def k0_loops (sh : FwdShape) : Nat := sh.kK0BlockLength / sh.kK0

/-- The constant `k1_loops = kN0 / kK1`. -/
def k1_loops (sh : FwdShape) : Nat := sh.kN0 / sh.kK1

/-- Modelled from the spec: `move_tile_window(w, off)`, which "rebinds origin by
`offset`; no bounds check at runtime", on a window origin. -/
def move_tile_window (origin off : Nat × Nat) : Nat × Nat :=
  (origin.1 + off.1, origin.2 + off.2)

/-- Modelled from the spec: `load_tile(w)` (also `load_tile_raw`, `async_load_tile_raw`),
the tile seen through a window ("an addressable logical sub-rectangle over a
larger tensor") at `origin` over the tensor `view`. -/
def load_tile (view : Nat → Nat → α) (origin : Nat × Nat) : Nat → Nat → α :=
  fun r c => view (origin.1 + r) (origin.2 + c)

/-- Modelled from the spec: `get_slice_tile(t, Sequence<r0, c0>, Sequence<r1, c1>)`, the
sub-rectangle of `t` that starts at `(r0, c0)`. -/
def get_slice_tile (t : Nat → Nat → α) (r0 c0 : Nat) : Nat → Nat → α :=
  fun r c => t (r0 + r) (c0 + c)

/-- Modelled from the spec: `tile_elementwise_in(f, t)`, which applies `f` to every
element of the tile. -/
def tile_elementwise_in (f : α → α) (t : Nat → Nat → α) : Nat → Nat → α :=
  fun r c => f (t r c)

/-- Modelled from the spec: the block-GEMM primitive supplied by the policy
(`gemm_0`, `gemm_1`), which "computes a tile-level matrix product accumulating
into a distributed tensor": `c(i, j) += sum over t < kdim of a(i, t) * b(j, t)`,
with `a` of shape M x K and `b` of shape N x K. -/
def blockGemm (kdim : Nat) (c a b : Nat → Nat → α) : Nat → Nat → α :=
  fun i j => c i j + reduceRange (fun x y => x + y) 0 (fun t => a i t * b j t) kdim

/-- The loop-carried variables of `operator()`: the three DRAM window origins,
the LDS staging slots (slot index, row, column), the accumulator, the running
max and sum, and the loop counter (`index_t`; it never exceeds
`max 1 num_total_loop`, so it does not wrap). The K views and the V view are
laid over the same `smem_ptr`: slot `s` of one and slot `s` of the other are the
same memory, and a store into a slot replaces the sub-tile it held. -/
structure FwdState (α : Type) where
  k_dram_block_window : Nat × Nat
  k_dram_window : Nat × Nat
  v_dram_window : Nat × Nat
  lds : Nat → Nat → Nat → α
  o_acc : Nat → Nat → α
  m : Nat → α
  l : Nat → α
  i_total_loops : Int

/-- Variables threaded through the `static_for` of STAGE 1. -/
structure QKState (α : Type) where
  lds : Nat → Nat → Nat → α
  k_dram_window : Nat × Nat
  s_acc : Nat → Nat → α

/-- Variables threaded through the `static_for` of STAGE 3. -/
structure KVState (α : Type) where
  lds : Nat → Nat → Nat → α
  v_dram_window : Nat × Nat
  v_buf : Nat → Nat → α
  o_acc : Nat → Nat → α

/-- One pass `i_k0` of the `static_for` of STAGE 1: stage K sub-tile `i_k0 + 1`,
advance the K load window, multiply Q slice `i_k0` with slot `LdsSeq[i_k0]`. -/
def qk_step (sh : FwdShape) (K q_tile : Nat → Nat → α) (x : QKState α) (i_k0 : Nat) :
    QKState α :=
  let lds1 := Function.update x.lds (sh.LdsSeq (i_k0 + 1)) (load_tile K x.k_dram_window)
  let kw1 := if i_k0 < k0_loops sh - 1 then move_tile_window x.k_dram_window (0, sh.kK0)
    else x.k_dram_window
  { lds := lds1
    k_dram_window := kw1
    s_acc := blockGemm sh.kK0 x.s_acc (get_slice_tile q_tile 0 (i_k0 * sh.kK0))
      (lds1 (sh.LdsSeq i_k0)) }

/-- The LDS slot written by a V store whose sliced destination is slot `LdsSeq[idx]`:
the `RowMajor` branch stores to that slice, the other branch stores to
`v_lds_window` itself, whose origin is the first slot. -/
def vStoreSlot (sh : FwdShape) (idx : Nat) : Nat :=
  if sh.vRowMajor then sh.LdsSeq idx else 0

/-- One pass `i_k1` of the `static_for` of STAGE 3. -/
def kv_step (sh : FwdShape) (V : Nat → Nat → α) (v_element_func : α → α)
    (p : Nat → Nat → α) (x : KVState α) (i_k1 : Nat) : KVState α :=
  let v_buf1 := if i_k1 ≠ 0 ∧ i_k1 < k1_loops sh - 1 then load_tile V x.v_dram_window
    else x.v_buf
  let o1 := blockGemm sh.kK1 x.o_acc (get_slice_tile p 0 (i_k1 * sh.kK1))
    (x.lds (sh.LdsSeq (k0_loops sh + i_k1)))
  let lds1 := Function.update x.lds (vStoreSlot sh (k0_loops sh + i_k1 + 1))
    (tile_elementwise_in v_element_func v_buf1)
  let vw1 := if i_k1 < k1_loops sh - 1 then move_tile_window x.v_dram_window (0, sh.kK1)
    else x.v_dram_window
  { lds := lds1, v_dram_window := vw1, v_buf := v_buf1, o_acc := o1 }

/-- STAGE 1 up to the tail GEMM: the `static_for` over `i_k0 < k0_loops - 1`. -/
def qk_loop (sh : FwdShape) (K q_tile : Nat → Nat → α) (st : FwdState α) : QKState α :=
  let x0 : QKState α :=
    { lds := st.lds, k_dram_window := st.k_dram_window, s_acc := fun _ _ => 0 }
  if k0_loops sh > 1 then (List.range (k0_loops sh - 1)).foldl (qk_step sh K q_tile) x0
  else x0

/-- STAGE 3 up to the tail GEMM: the `static_for` over `i_k1 < k1_loops - 1`. -/
def kv_loop (sh : FwdShape) (V : Nat → Nat → α) (v_element_func : α → α)
    (p : Nat → Nat → α) (x0 : KVState α) : KVState α :=
  if k1_loops sh > 1 then (List.range (k1_loops sh - 1)).foldl (kv_step sh V v_element_func p) x0
  else x0

/-- The score tile after the tail GEMM of STAGE 1 and the scaling of STAGE 2
(`x = x * scale` unless `CK_FMHA_FWD_FAST_EXP2`). -/
def scoreTile (A : Arith α) (sh : FwdShape) (K q_tile : Nat → Nat → α) (scale : α)
    (st : FwdState α) : Nat → Nat → α :=
  let qk := qk_loop sh K q_tile st
  let s_acc1 := blockGemm sh.kK0 qk.s_acc
    (get_slice_tile q_tile 0 ((k0_loops sh - 1) * sh.kK0))
    (qk.lds (sh.LdsSeq (k0_loops sh - 1)))
  if A.fastExp2 then s_acc1 else fun i j => s_acc1 i j * scale

/-- The local `m_local = rowmax(S)` with identity `Lowest()`. -/
def rowMax (A : Arith α) (sh : FwdShape) (s : Nat → Nat → α) : Nat → α :=
  fun i => reduceRange max A.lowest (fun j => s i j) sh.kN0

/-- The local `p_compute`. -/
def pCompute (A : Arith α) (scale : α) (s : Nat → Nat → α) (m : Nat → α) : Nat → Nat → α :=
  fun i j => if A.fastExp2 then A.exp2 (scale * s i j - scale * m i) else A.exp (s i j - m i)

/-- The local `tmp` of the `l`, `o_acc` update. -/
def rescale (A : Arith α) (scale : α) (m_old m : Nat → α) : Nat → α :=
  fun i => if A.fastExp2 then A.exp2 (scale * m_old i - scale * m i)
    else A.exp (m_old i - m i)

/-- The body of the `do ... while` loop of `operator()`, statement by statement. -/
def fwd_body (A : Arith α) (sh : FwdShape) (K V q_tile : Nat → Nat → α)
    (v_element_func : α → α) (scale : α) (num_total_loop : Int) (st : FwdState α) :
    FwdState α :=
  -- STAGE 1, QK gemm
  let qk := qk_loop sh K q_tile st
  let v_buf := load_tile V st.v_dram_window
  let s := scoreTile A sh K q_tile scale st
  -- STAGE 2, scale softmax
  let m_local := rowMax A sh s
  let m_old := st.m
  let m : Nat → α := fun i => max (m_old i) (m_local i)
  -- store & prefetch next v, after the max reduction
  let lds1 := Function.update qk.lds (vStoreSlot sh (k0_loops sh))
    (tile_elementwise_in v_element_func v_buf)
  let vw1 := if k1_loops sh > 1 then move_tile_window st.v_dram_window (0, sh.kK1)
    else st.v_dram_window
  let v_buf1 := if k1_loops sh > 1 then load_tile V vw1 else v_buf
  let p_compute := pCompute A scale s m
  let rowsum_p : Nat → α :=
    fun i => reduceRange (fun x y => x + y) 0 (fun j => p_compute i j) sh.kN0
  let tmp := rescale A scale m_old m
  let l : Nat → α := fun i => tmp i * st.l i + rowsum_p i
  let o_acc1 : Nat → Nat → α := fun i j => st.o_acc i j * tmp i
  let p := p_compute
  -- STAGE 3, KV gemm
  let kv0 : KVState α := { lds := lds1, v_dram_window := vw1, v_buf := v_buf1, o_acc := o_acc1 }
  let kv := kv_loop sh V v_element_func p kv0
  let i1 := st.i_total_loops + 1
  -- move K tile windows
  let kbw := if i1 < num_total_loop then move_tile_window st.k_dram_block_window (sh.kN0, 0)
    else st.k_dram_block_window
  let lds2 := if i1 < num_total_loop then Function.update kv.lds (sh.LdsSeq 0) (load_tile K kbw)
    else kv.lds
  let kw2 := if i1 < num_total_loop then move_tile_window kbw (0, sh.kK0)
    else qk.k_dram_window
  -- tail
  let o_acc2 := blockGemm sh.kK1 kv.o_acc
    (get_slice_tile p 0 ((k1_loops sh - 1) * sh.kK1))
    (lds2 (sh.LdsSeq (k0_loops sh + k1_loops sh - 1)))
  { k_dram_block_window := kbw
    k_dram_window := kw2
    v_dram_window := kv.v_dram_window
    lds := lds2
    o_acc := o_acc2
    m := m
    l := l
    i_total_loops := st.i_total_loops + 1 }

/-- The loop `do { body } while(i_total_loops < num_total_loop)`. -/
def fwd_loop (A : Arith α) (sh : FwdShape) (K V q_tile : Nat → Nat → α)
    (v_element_func : α → α) (scale : α) (num_total_loop : Int) (st : FwdState α) :
    FwdState α :=
  if (fwd_body A sh K V q_tile v_element_func scale num_total_loop st).i_total_loops
      < num_total_loop then
    fwd_loop A sh K V q_tile v_element_func scale num_total_loop
      (fwd_body A sh K V q_tile v_element_func scale num_total_loop st)
  else fwd_body A sh K V q_tile v_element_func scale num_total_loop st
termination_by (num_total_loop - st.i_total_loops).toNat
decreasing_by
  all_goals simp_wf
  all_goals
    have h1 : (fwd_body A sh K V q_tile v_element_func scale num_total_loop st).i_total_loops
        = st.i_total_loops + 1 := rfl
    omega

/-- The state on entry to the loop: `o_acc = 0`, `m = Lowest()`, `l = 0`, the
windows at the origins passed by the caller, K sub-tile 0 prefetched into
slot `LdsSeq[0]` and the K load window advanced by `kK0`. -/
def fwd_init (A : Arith α) (sh : FwdShape) (K : Nat → Nat → α) (k_origin v_origin : Nat × Nat)
    (lds : Nat → Nat → Nat → α) : FwdState α :=
  { k_dram_block_window := k_origin
    k_dram_window := move_tile_window k_origin (0, sh.kK0)
    v_dram_window := v_origin
    lds := Function.update lds (sh.LdsSeq 0) (load_tile K k_origin)
    o_acc := fun _ _ => 0
    m := fun _ => A.lowest
    l := fun _ => 0
    i_total_loops := 0 }

/-- The element-function overload of `operator()`. Each window is given by its
bottom tensor view and its origin; `lds` is shared memory on entry. The
parameter `k_element_func` is unnamed in the source and never applied. -/
def run (A : Arith α) (sh : FwdShape) (Q : Nat → Nat → α) (q_origin : Nat × Nat)
    (q_element_func : α → α) (K : Nat → Nat → α) (k_origin : Nat × Nat)
    (_k_element_func : α → α) (V : Nat → Nat → α) (v_origin : Nat × Nat)
    (v_element_func : α → α) (scale : α) (num_total_loop : Int) (_num_sub_loop_qk : Int)
    (lds : Nat → Nat → Nat → α) : Nat → Nat → α :=
  let q := load_tile Q q_origin
  let st0 := fwd_init A sh K k_origin v_origin lds
  let q_tile := tile_elementwise_in q_element_func q
  let st := fwd_loop A sh K V q_tile v_element_func scale num_total_loop st0
  -- finally, O
  fun i j => st.o_acc i j * (1 / st.l i)

/-- The overload of `operator()` without element functions: three identity lambdas. -/
def runDefault (A : Arith α) (sh : FwdShape) (Q : Nat → Nat → α) (q_origin : Nat × Nat)
    (K : Nat → Nat → α) (k_origin : Nat × Nat) (V : Nat → Nat → α) (v_origin : Nat × Nat)
    (scale : α) (num_total_loop : Int) (num_sub_loop_qk : Int)
    (lds : Nat → Nat → Nat → α) : Nat → Nat → α :=
  run A sh Q q_origin (fun x => x) K k_origin (fun x => x) V v_origin (fun x => x)
    scale num_total_loop num_sub_loop_qk lds

end Fwd

/-! ## Reference values stated by the specification, and sample inputs -/

namespace Fp

variable {α : Type} [LinearOrderedField α]

/-- Logarithm on `LSEDataType`: `lg` on positive finite values, `log 0 = -inf`,
`log(+inf) = +inf`, NaN otherwise. -/
def log (lg : α → α) : Fp α → Fp α
  | fin x => if 0 < x then fin (lg x) else if x = 0 then negInf else nan
  | posInf => posInf
  | negInf => nan
  | nan => nan

end Fp

namespace Combine

variable {α : Type} [LinearOrderedField α]

/-- The combined output the specification asks for, for one row and column:
`sum_s exp(lse s - LSE) * o s` with `LSE = log(sum_s exp(lse s))`, over finite
partial results. -/
def combinedOutputSpec (e lg : α → α) (kMaxSplits : Nat) (lse o : Nat → α) : α :=
  reduceRange (fun x y => x + y) 0
    (fun s => e (lse s - lg (reduceRange (fun x y => x + y) 0 (fun t => e (lse t)) kMaxSplits))
      * o s)
    kMaxSplits

/-- The combined log-sum-exp the specification asks for in the LSE output
window: `lse_max + log(lse_sum)` of the row. -/
def combinedLSESpec (e lg : α → α) (P : CombineProblem) (lse_acc : Nat → Nat → Fp α)
    (lds : Nat → Fp α) (row : Nat) : Fp α :=
  Fp.add (lse_max P lse_acc lds row) (Fp.log lg (lse_sum e P lse_acc lds row))

/-- A problem with two rows and two splits, masking enabled. -/
def sampleMasked : CombineProblem :=
  { kM0 := 2, kMaxSplits := 2, kK0BlockLength := 32, kHasBias := false, isMasking := true,
    kStoreLSE := true, kBlockPerCu := -1 }

/-- A problem with one row and one split, neither bias nor masking, `kStoreLSE` on. -/
def sampleSingle : CombineProblem :=
  { kM0 := 1, kMaxSplits := 1, kK0BlockLength := 32, kHasBias := false, isMasking := false,
    kStoreLSE := true, kBlockPerCu := -1 }

/-- Partial LSE values `[split, row]`: row 0 is fully masked, row 1 holds `3` and `5`. -/
def sampleLse : Nat → Nat → Fp ℚ :=
  fun split row => if row = 0 then Fp.negInf else if split = 0 then Fp.fin 3 else Fp.fin 5

end Combine

namespace Fwd

/-- A minimal shape: one key per tile, `k0_loops = k1_loops = 1`, two LDS slots. -/
def sampleShape : FwdShape :=
  { kM0 := 1, kN0 := 1, kK0 := 1, kN1 := 1, kK1 := 1, kK0BlockLength := 1,
    vRowMajor := true, LdsSeq := fun i => i % 2 }

/-- A shape with two keys per tile consumed by a single P*V sub-GEMM
(`kN0 = kK1 = 2`, `k0_loops = k1_loops = 1`). -/
def sampleShape2 : FwdShape :=
  { kM0 := 1, kN0 := 2, kK0 := 1, kN1 := 1, kK1 := 2, kK0BlockLength := 1,
    vRowMajor := true, LdsSeq := fun i => i % 2 }

/-- A shape with two keys per tile consumed by two P*V sub-GEMMs
(`kN0 = 2`, `kK1 = 1`, `k0_loops = 1`, `k1_loops = 2`) and three LDS slots. -/
def sampleShape3 : FwdShape :=
  { kM0 := 1, kN0 := 2, kK0 := 1, kN1 := 1, kK1 := 1, kK0BlockLength := 1,
    vRowMajor := true, LdsSeq := fun i => i % 3 }

/-- A stand-in arithmetic over the rationals, for statements that do not depend
on the values of the exponential. -/
def sampleArith : Arith ℚ :=
  { exp := fun _ => 1, exp2 := fun _ => 1, lowest := -1, fastExp2 := false }

end Fwd

namespace Fwd

variable {α : Type} [LinearOrderedField α]

/-- The conditions on the shape and the buffer sequence under which, executed in
program order, every sub-GEMM finds in its LDS slot the sub-tile staged for it. -/
structure Staged (sh : FwdShape) : Prop where
  k0_pos : 1 ≤ k0_loops sh
  k1_pos : 1 ≤ k1_loops sh
  k_rot : ∀ i, i + 1 < k0_loops sh → sh.LdsSeq i ≠ sh.LdsSeq (i + 1)
  tail_free : sh.LdsSeq 0 ≠ sh.LdsSeq (k0_loops sh + k1_loops sh - 1)
  v_slot : ∀ i, i < k1_loops sh → vStoreSlot sh (k0_loops sh + i) = sh.LdsSeq (k0_loops sh + i)

/-- The condition at the loop head: K sub-tile 0 of the current key tile is staged in
slot `LdsSeq[0]` and the K load window stands at sub-tile 1. -/
def KStaged (sh : FwdShape) (K : Nat → Nat → α) (st : FwdState α) : Prop :=
  st.lds (sh.LdsSeq 0) = load_tile K st.k_dram_block_window ∧
  st.k_dram_window = move_tile_window st.k_dram_block_window (0, sh.kK0)

/-- The product accumulated by the `k0_loops` sub-GEMMs of STAGE 1 for the key
tile whose K window origin is `kbw`: entry (query row `i`, key `j` of the tile). -/
def qkScore (sh : FwdShape) (K q_tile : Nat → Nat → α) (kbw : Nat × Nat) (i j : Nat) : α :=
  ∑ t ∈ Finset.range (k0_loops sh), ∑ c ∈ Finset.range sh.kK0,
    q_tile i (t * sh.kK0 + c) * K (kbw.1 + j) (kbw.2 + (t * sh.kK0 + c))

/-- The score tile `s` of an iteration: `qkScore`, scaled in the standard mode. -/
def sTile (A : Arith α) (sh : FwdShape) (K q_tile : Nat → Nat → α) (scale : α)
    (kbw : Nat × Nat) (i j : Nat) : α :=
  if A.fastExp2 then qkScore sh K q_tile kbw i j else qkScore sh K q_tile kbw i j * scale

/-- The product accumulated by the `k1_loops` sub-GEMMs of STAGE 3 when the V load
window stands at `vw` at the start of the iteration: entry (query row `i`,
output column `d`). -/
def pvProduct (sh : FwdShape) (V : Nat → Nat → α) (fv : α → α) (p : Nat → Nat → α)
    (vw : Nat × Nat) (i d : Nat) : α :=
  ∑ t ∈ Finset.range (k1_loops sh), ∑ c ∈ Finset.range sh.kK1,
    p i (t * sh.kK1 + c) * fv (V (vw.1 + d) (vw.2 + (t * sh.kK1 + c)))

/-- The running maximum after an iteration with score tile `s`. -/
def mNext (A : Arith α) (sh : FwdShape) (s : Nat → Nat → α) (m_old : Nat → α) : Nat → α :=
  fun i => max (m_old i) (rowMax A sh s i)

/-- The score tile of outer iteration `t`: the K block window stands `t * kN0` rows
below the origin `ko` passed by the caller. -/
def sIter (A : Arith α) (sh : FwdShape) (K q_tile : Nat → Nat → α) (scale : α)
    (ko : Nat × Nat) (t : Nat) : Nat → Nat → α :=
  sTile A sh K q_tile scale (ko.1 + t * sh.kN0, ko.2)

/-- The running maximum after `j` iterations with score tiles `S 0 .. S (j-1)`. -/
def runMax (A : Arith α) (sh : FwdShape) (S : Nat → Nat → Nat → α) : Nat → Nat → α
  | 0 => fun _ => A.lowest
  | j + 1 => mNext A sh (S j) (runMax A sh S j)

/-- Direct (non-streaming) softmax attention over `nkeys` keys, as the specification
words it: output row `i` is `sum_k exp(scale * s_ik) * V_k / sum_k exp(scale * s_ik)`
with `s = Q * K^T` over a head dimension `hdim`; the three tensors are read
through windows at `qo`, `ko`, `vo`. -/
def attentionRef (e : α → α) (scale : α) (Q : Nat → Nat → α) (qo : Nat × Nat)
    (K : Nat → Nat → α) (ko : Nat × Nat) (V : Nat → Nat → α) (vo : Nat × Nat)
    (hdim nkeys : Nat) (i d : Nat) : α :=
  (∑ k ∈ Finset.range nkeys,
      e (scale * ∑ c ∈ Finset.range hdim, Q (qo.1 + i) (qo.2 + c) * K (ko.1 + k) (ko.2 + c))
        * V (vo.1 + d) (vo.2 + k))
    / (∑ k ∈ Finset.range nkeys,
      e (scale * ∑ c ∈ Finset.range hdim, Q (qo.1 + i) (qo.2 + c) * K (ko.1 + k) (ko.2 + c)))

/-- The streaming-softmax state of one query row: running max `m`, running sum `l`
and the row of the accumulator `o_acc`. -/
structure RowState (α : Type) where
  m : α
  l : α
  o_acc : Nat → α

/-- The streaming update of one outer iteration, for one query row and a key tile of
`w` keys with (scaled, unless `CK_FMHA_FWD_FAST_EXP2`) scores `s` and V columns
`v d k`: `m_local`, `m`, `p_compute`, `rowsum_p`, `tmp`, `l`, the rescaling of
`o_acc` and the accumulation of `P * V`. -/
def rowStep (A : Arith α) (scale : α) (w : Nat) (s : Nat → α) (v : Nat → Nat → α)
    (st : RowState α) : RowState α :=
  let m_local := reduceRange max A.lowest s w
  let m_old := st.m
  let m := max m_old m_local
  let p_compute : Nat → α := fun j =>
    if A.fastExp2 then A.exp2 (scale * s j - scale * m) else A.exp (s j - m)
  let rowsum_p := reduceRange (fun x y => x + y) 0 p_compute w
  let tmp := if A.fastExp2 then A.exp2 (scale * m_old - scale * m) else A.exp (m_old - m)
  { m := m
    l := tmp * st.l + rowsum_p
    o_acc := fun d => st.o_acc d * tmp
      + reduceRange (fun x y => x + y) 0 (fun j => p_compute j * v d j) w }

/-- The row state on entry to the loop: `m = Lowest()`, `l = 0`, `o_acc = 0`. -/
def rowInit (A : Arith α) : RowState α :=
  { m := A.lowest, l := 0, o_acc := fun _ => 0 }

/-- The stabilised exponential of a value `x` against a row max `m`, as computed for
`p_compute` and for `tmp`: `exp(x - m)`, or `exp2(scale * x - scale * m)` under
`CK_FMHA_FWD_FAST_EXP2`. -/
def weight (A : Arith α) (scale x m : α) : α :=
  if A.fastExp2 then A.exp2 (scale * x - scale * m) else A.exp (x - m)

/-- The exponential in use turns sums into products: rescaling by the weight of the
old max against the new one converts weights against the old max into weights
against the new max. -/
def WeightMul (A : Arith α) (scale : α) : Prop :=
  ∀ x m0 m1, weight A scale m0 m1 * weight A scale x m0 = weight A scale x m1

/-- The row state after the first `a` keys of the sequence have been consumed,
whatever the cut: `m` is the running max over them, `l` and `o_acc` are the sums
of `exp(s - m)` and of `exp(s - m) * V` (with the exponential of the mode). -/
def RowInv (A : Arith α) (scale : α) (s : Nat → α) (v : Nat → Nat → α) (a : Nat)
    (st : RowState α) : Prop :=
  st.m = reduceRange max A.lowest s a ∧
  st.l = ∑ k ∈ Finset.range a, weight A scale (s k) st.m ∧
  ∀ d, st.o_acc d = ∑ k ∈ Finset.range a, weight A scale (s k) st.m * v d k

/-- The query row `i` of a loop state, as a row state. -/
def rowOf (st : FwdState α) (i : Nat) : RowState α :=
  { m := st.m i, l := st.l i, o_acc := st.o_acc i }

/-- The distance the V load window moves along the key axis in one iteration. -/
def vAdvance (sh : FwdShape) : Nat :=
  if k1_loops sh > 1 then k1_loops sh * sh.kK1 else 0

end Fwd

/-! ## The grouped-convolution example (`convnd_fwd_convscale_common.hpp`) -/

namespace ConvScale

/-- The element types the tolerance functions distinguish; `other` stands for any
type that is none of the eight named ones. -/
inductive DataType where
  | float
  | double
  | half_t
  | bhalf_t
  | int32_t
  | int8_t
  | f8_t
  | bf8_t
  | other
  deriving DecidableEq

/-- The function template `get_rtol<DataType>()`; each `double` literal is taken at
its decimal value. -/
def get_rtol : DataType → ℚ
  | .float => 1e-3
  | .double => 1e-6
  | .half_t => 1e-3
  | .bhalf_t => 5e-2
  | .int32_t => 1e-1
  | .int8_t => 1e-1
  | .f8_t => 1e-1
  | .bf8_t => 1.5e-1
  | .other => 1e-3

/-- The function template `get_atol<DataType>()`; each `double` literal is taken at
its decimal value. -/
def get_atol : DataType → ℚ
  | .float => 1e-3
  | .double => 1e-6
  | .half_t => 1e-3
  | .bhalf_t => 5e-2
  | .int32_t => 1e-1
  | .int8_t => 1e-1
  | .f8_t => 16.1
  | .bf8_t => 8192.1
  | .other => 1e-3

/-- A product or sum of `ck::index_t` (32-bit signed) values: signed overflow is
undefined in the language; the value kept is the two's-complement one. -/
def wrapInt32 (x : Int) : Int := (x + 2 ^ 31) % 2 ^ 32 - 2 ^ 31

/-- The conversion of a signed value to `std::size_t` (64 bits). -/
def toSizeT (x : Int) : Nat := (x % 2 ^ 64).toNat

/-- Multiplication in `std::size_t`. -/
def mulSizeT (a b : Nat) : Nat := (a * b) % 2 ^ 64

/-- Addition in `std::size_t`. -/
def addSizeT (a b : Nat) : Nat := (a + b) % 2 ^ 64

/-- The call `std::accumulate(first, last, static_cast<std::size_t>(1), std::multiplies<>())`
over `index_t` elements: the accumulator is a `std::size_t`. -/
def accumulateMul (xs : List Int) : Nat :=
  xs.foldl (fun acc x => mulSizeT acc (toSizeT x)) 1

/-- The function `GetFlops<NumDimSpatial, NumNonSpatialDim>`: the two arrays hold
`NumDimSpatial + NumNonSpatialDim` values of `index_t`. `G * N * C` is a product of
three `index_t` and is converted to `std::size_t` only when multiplied with the
first accumulated product. -/
def GetFlops (NumNonSpatialDim : Nat) (output_lengths weights_lengths : List Int)
    (ds_size : Nat) : Nat :=
  let G := weights_lengths.getD 0 0
  let N := output_lengths.getD 1 0
  let K := weights_lengths.getD 1 0
  let C := weights_lengths.getD 2 0
  mulSizeT
    (mulSizeT (toSizeT (wrapInt32 (wrapInt32 (G * N) * C)))
      (accumulateMul (output_lengths.drop NumNonSpatialDim)))
    (addSizeT
      (mulSizeT (mulSizeT 2 (toSizeT K)) (accumulateMul (weights_lengths.drop NumNonSpatialDim)))
      ds_size)

/-- The value the comment in `GetFlops` describes, as a natural number:
`G * N * C * <output spatial lengths product> * (2 * K * <filter spatial lengths
product> + <number of scale factors>)`. -/
def flopsSpec (NumNonSpatialDim : Nat) (output_lengths weights_lengths : List Int)
    (ds_size : Nat) : Int :=
  weights_lengths.getD 0 0 * output_lengths.getD 1 0 * weights_lengths.getD 2 0
    * (output_lengths.drop NumNonSpatialDim).prod
    * (2 * weights_lengths.getD 1 0 * (weights_lengths.drop NumNonSpatialDim).prod + ds_size)

/-- What `run_grouped_conv_fwd` does with the device operation, in program order. -/
inductive HostEvent where
  | makeInvoker
  | makeArgument
  | isSupportedArgument
  | invokerRun
  | referenceRun
  | checkErr
  deriving DecidableEq

/-- The outcome of a call: the exception thrown or the value returned, and the
calls made on the way. -/
structure HostOutcome where
  result : Except String Bool
  events : List HostEvent

/-- The function `run_grouped_conv_fwd` from `// do Conv` on. The device operation
is given by what it answers: `supported` is the value of
`conv.IsSupportedArgument(argument)`, and `check` the value of
`ck::utils::check_err(..)` on the two output tensors. -/
def run_grouped_conv_fwd (do_verification : Bool) (supported : Bool) (check : Bool) :
    HostOutcome :=
  let ev0 := [HostEvent.makeInvoker, HostEvent.makeArgument, HostEvent.isSupportedArgument]
  if !supported then
    { result := Except.error
        "wrong! device_conv with the specified compilation parameters does not support this Conv problem"
      events := ev0 }
  else
    let ev1 := ev0 ++ [HostEvent.invokerRun]
    if do_verification then
      { result := Except.ok check
        events := ev1 ++ [HostEvent.referenceRun, HostEvent.checkErr] }
    else
      { result := Except.ok true, events := ev1 }

end ConvScale

/-! ## Forward pipeline: the static assertions of `operator()` -/

namespace Fwd

/-- What the static assertions read of a window type: its element type and its
two window lengths. -/
structure WindowType (T : Type) where
  dataType : T
  lengths : Nat × Nat

/-- The two `static_assert`s at the head of `operator()`: the three element types,
then `kM0 == Q[0] && kN0 == K[0] && kK0 == K[1] && kN1 == V[0] && kK1 == V[1]`. -/
def static_assert_ok {T : Type} [DecidableEq T] (QDataType KDataType VDataType : T)
    (sh : FwdShape) (q k v : WindowType T) : Bool :=
  (decide (QDataType = q.dataType) && decide (KDataType = k.dataType)
    && decide (VDataType = v.dataType))
  && (decide (sh.kM0 = q.lengths.1) && decide (sh.kN0 = k.lengths.1)
    && decide (sh.kK0 = k.lengths.2) && decide (sh.kN1 = v.lengths.1)
    && decide (sh.kK1 = v.lengths.2))

end Fwd

/-! ## Forward pipeline: the LDS accesses of `operator()` in program order -/

namespace Fwd

/-- The operand a staged sub-tile belongs to. -/
inductive Operand where
  | K
  | V
  deriving DecidableEq

/-- One access to an LDS staging slot. `stage op tile sub slot origin`: sub-tile `sub`
of the tile of outer iteration `tile` is written into `slot`, its data loaded
through a DRAM window at `origin` (`async_load_tile_raw` for K, `load_tile`
followed by `store_tile` for V). `read op tile sub slot col`: sub-GEMM `sub` of
outer iteration `tile` (`gemm_0` for K, `gemm_1` for V) reads `slot` and the
columns of Q, respectively P, that start at `col`. -/
inductive LdsEvent where
  | stage (op : Operand) (tile sub slot : Nat) (origin : Nat × Nat)
  | read (op : Operand) (tile sub slot col : Nat)
  deriving DecidableEq

/-- The loop-carried variables that decide which slot and which window an access
uses, and the accesses made so far. -/
structure TraceState where
  k_dram_block_window : Nat × Nat
  k_dram_window : Nat × Nat
  v_dram_window : Nat × Nat
  i_total_loops : Int
  events : List LdsEvent

/-- Variables threaded through the `static_for` of STAGE 1. -/
structure QKTrace where
  k_dram_window : Nat × Nat
  events : List LdsEvent

/-- Variables threaded through the `static_for` of STAGE 3; `v_buf` is the origin
of the window the register tile `v_buf` was loaded through. -/
structure KVTrace where
  v_dram_window : Nat × Nat
  v_buf : Nat × Nat
  events : List LdsEvent

/-- One pass `i_k0` of the `static_for` of STAGE 1: the load into
`k_lds_store(LdsSeq[i_k0 + 1])`, the window move, then `gemm_0` on slot
`LdsSeq[i_k0]`. -/
def qk_step_trace (sh : FwdShape) (tile : Nat) (x : QKTrace) (i_k0 : Nat) : QKTrace :=
  { k_dram_window :=
      if i_k0 < k0_loops sh - 1 then move_tile_window x.k_dram_window (0, sh.kK0)
      else x.k_dram_window
    events := x.events ++
      [LdsEvent.stage Operand.K tile (i_k0 + 1) (sh.LdsSeq (i_k0 + 1)) x.k_dram_window,
        LdsEvent.read Operand.K tile i_k0 (sh.LdsSeq i_k0) (i_k0 * sh.kK0)] }

/-- One pass `i_k1` of the `static_for` of STAGE 3: the optional load of the next
`v_buf`, `gemm_1` on slot `LdsSeq[k0_loops + i_k1]`, the store of `v_buf`, the
window move. -/
def kv_step_trace (sh : FwdShape) (tile : Nat) (x : KVTrace) (i_k1 : Nat) : KVTrace :=
  let v_buf1 := if i_k1 ≠ 0 ∧ i_k1 < k1_loops sh - 1 then x.v_dram_window else x.v_buf
  { v_dram_window :=
      if i_k1 < k1_loops sh - 1 then move_tile_window x.v_dram_window (0, sh.kK1)
      else x.v_dram_window
    v_buf := v_buf1
    events := x.events ++
      [LdsEvent.read Operand.V tile i_k1 (sh.LdsSeq (k0_loops sh + i_k1)) (i_k1 * sh.kK1),
        LdsEvent.stage Operand.V tile (i_k1 + 1) (vStoreSlot sh (k0_loops sh + i_k1 + 1))
          v_buf1] }

/-- The body of the `do ... while` loop, reduced to its windows and LDS accesses. -/
def trace_body (sh : FwdShape) (num_total_loop : Int) (ts : TraceState) : TraceState :=
  let tile := ts.i_total_loops.toNat
  -- STAGE 1, QK gemm
  let qk0 : QKTrace := { k_dram_window := ts.k_dram_window, events := ts.events }
  let qk := if k0_loops sh > 1 then
      (List.range (k0_loops sh - 1)).foldl (qk_step_trace sh tile) qk0
    else qk0
  let v_buf := ts.v_dram_window
  let ev1 := qk.events ++
    [LdsEvent.read Operand.K tile (k0_loops sh - 1) (sh.LdsSeq (k0_loops sh - 1))
      ((k0_loops sh - 1) * sh.kK0)]
  -- store & prefetch next v, after the max reduction
  let ev2 := ev1 ++ [LdsEvent.stage Operand.V tile 0 (vStoreSlot sh (k0_loops sh)) v_buf]
  let vw1 := if k1_loops sh > 1 then move_tile_window ts.v_dram_window (0, sh.kK1)
    else ts.v_dram_window
  let v_buf1 := if k1_loops sh > 1 then vw1 else v_buf
  -- STAGE 3, KV gemm
  let kv0 : KVTrace := { v_dram_window := vw1, v_buf := v_buf1, events := ev2 }
  let kv := if k1_loops sh > 1 then
      (List.range (k1_loops sh - 1)).foldl (kv_step_trace sh tile) kv0
    else kv0
  let i1 := ts.i_total_loops + 1
  -- move K tile windows
  let kbw := if i1 < num_total_loop then move_tile_window ts.k_dram_block_window (sh.kN0, 0)
    else ts.k_dram_block_window
  let ev3 := if i1 < num_total_loop then
      kv.events ++ [LdsEvent.stage Operand.K i1.toNat 0 (sh.LdsSeq 0) kbw]
    else kv.events
  let kw2 := if i1 < num_total_loop then move_tile_window kbw (0, sh.kK0)
    else qk.k_dram_window
  -- tail
  let ev4 := ev3 ++
    [LdsEvent.read Operand.V tile (k1_loops sh - 1)
      (sh.LdsSeq (k0_loops sh + k1_loops sh - 1)) ((k1_loops sh - 1) * sh.kK1)]
  { k_dram_block_window := kbw
    k_dram_window := kw2
    v_dram_window := kv.v_dram_window
    i_total_loops := ts.i_total_loops + 1
    events := ev4 }

/-- The loop `do { body } while(i_total_loops < num_total_loop)` on the trace state. -/
def trace_loop (sh : FwdShape) (num_total_loop : Int) (ts : TraceState) : TraceState :=
  if (trace_body sh num_total_loop ts).i_total_loops < num_total_loop then
    trace_loop sh num_total_loop (trace_body sh num_total_loop ts)
  else trace_body sh num_total_loop ts
termination_by (num_total_loop - ts.i_total_loops).toNat
decreasing_by
  all_goals simp_wf
  all_goals
    have h1 : (trace_body sh num_total_loop ts).i_total_loops = ts.i_total_loops + 1 := rfl
    omega

/-- The trace state on entry to the loop: K sub-tile 0 of tile 0 has been loaded
into slot `LdsSeq[0]` through the window at the caller's K origin. -/
def trace_init (sh : FwdShape) (k_origin v_origin : Nat × Nat) : TraceState :=
  { k_dram_block_window := k_origin
    k_dram_window := move_tile_window k_origin (0, sh.kK0)
    v_dram_window := v_origin
    i_total_loops := 0
    events := [LdsEvent.stage Operand.K 0 0 (sh.LdsSeq 0) k_origin] }

/-- The LDS accesses of one call of `operator()`, in program order. -/
def lds_trace (sh : FwdShape) (k_origin v_origin : Nat × Nat) (num_total_loop : Int) :
    List LdsEvent :=
  (trace_loop sh num_total_loop (trace_init sh k_origin v_origin)).events

/-- The accesses of the first `n` passes of STAGE 1 in outer iteration `j`, the K
block window standing at `B`. -/
def stage1Events (sh : FwdShape) (B : Nat × Nat) (j : Nat) : Nat → List LdsEvent
  | 0 => []
  | n + 1 => stage1Events sh B j n ++
      [LdsEvent.stage Operand.K j (n + 1) (sh.LdsSeq (n + 1)) (B.1, B.2 + (n + 1) * sh.kK0),
        LdsEvent.read Operand.K j n (sh.LdsSeq n) (n * sh.kK0)]

/-- The accesses of the first `n` passes of STAGE 3 in outer iteration `j`, the V
load window standing at `W` at the start of the iteration. -/
def stage3Events (sh : FwdShape) (W : Nat × Nat) (j : Nat) : Nat → List LdsEvent
  | 0 => []
  | n + 1 => stage3Events sh W j n ++
      [LdsEvent.read Operand.V j n (sh.LdsSeq (k0_loops sh + n)) (n * sh.kK1),
        LdsEvent.stage Operand.V j (n + 1) (vStoreSlot sh (k0_loops sh + n + 1))
          (W.1, W.2 + (n + 1) * sh.kK1)]

/-- The accesses of outer iteration `j`, the K block window standing at `B` and the
V load window at `W`; `more` says that another iteration follows. -/
def iterEvents (sh : FwdShape) (B W : Nat × Nat) (j : Nat) (more : Bool) : List LdsEvent :=
  stage1Events sh B j (k0_loops sh - 1)
  ++ [LdsEvent.read Operand.K j (k0_loops sh - 1) (sh.LdsSeq (k0_loops sh - 1))
      ((k0_loops sh - 1) * sh.kK0)]
  ++ [LdsEvent.stage Operand.V j 0 (vStoreSlot sh (k0_loops sh)) W]
  ++ stage3Events sh W j (k1_loops sh - 1)
  ++ (if more then [LdsEvent.stage Operand.K (j + 1) 0 (sh.LdsSeq 0) (B.1 + sh.kN0, B.2)]
      else [])
  ++ [LdsEvent.read Operand.V j (k1_loops sh - 1)
      (sh.LdsSeq (k0_loops sh + k1_loops sh - 1)) ((k1_loops sh - 1) * sh.kK1)]

/-- The accesses up to the end of the first `j` outer iterations of a call with
`num_total_loop = n`. -/
def traceUpTo (sh : FwdShape) (ko vo : Nat × Nat) (n : Int) : Nat → List LdsEvent
  | 0 => [LdsEvent.stage Operand.K 0 0 (sh.LdsSeq 0) ko]
  | j + 1 => traceUpTo sh ko vo n j ++
      iterEvents sh (ko.1 + j * sh.kN0, ko.2) (vo.1, vo.2 + j * vAdvance sh) j
        (decide ((j : Int) + 1 < n))

/-- The contents of the staging slots after a sequence of accesses: for each slot,
the sub-tile (operand, tile, sub) staged into it last. -/
def slotsAfter (tags : Nat → Option (Operand × Nat × Nat)) :
    List LdsEvent → Nat → Option (Operand × Nat × Nat)
  | [] => tags
  | LdsEvent.stage op tile sub slot _ :: rest =>
    slotsAfter (Function.update tags slot (some (op, tile, sub))) rest
  | LdsEvent.read _ _ _ _ _ :: rest => slotsAfter tags rest

/-- Every sub-GEMM of the sequence reads a slot whose last staged sub-tile is the
one the sub-GEMM is to consume, the slots holding `tags` at the start. -/
def Fresh (tags : Nat → Option (Operand × Nat × Nat)) : List LdsEvent → Prop
  | [] => True
  | LdsEvent.stage op tile sub slot _ :: rest =>
    Fresh (Function.update tags slot (some (op, tile, sub))) rest
  | LdsEvent.read op tile sub slot _ :: rest =>
    tags slot = some (op, tile, sub) ∧ Fresh tags rest

/-- The K stagings among a sequence of accesses. -/
def kStages (evs : List LdsEvent) : List LdsEvent :=
  evs.filter (fun e => match e with
    | LdsEvent.stage Operand.K _ _ _ _ => true
    | _ => false)

/-- The reads of `gemm_0` among a sequence of accesses. -/
def kReads (evs : List LdsEvent) : List LdsEvent :=
  evs.filter (fun e => match e with
    | LdsEvent.read Operand.K _ _ _ _ => true
    | _ => false)

/-- The V stagings among a sequence of accesses. -/
def vStages (evs : List LdsEvent) : List LdsEvent :=
  evs.filter (fun e => match e with
    | LdsEvent.stage Operand.V _ _ _ _ => true
    | _ => false)

/-- The reads of `gemm_1` among a sequence of accesses. -/
def vReads (evs : List LdsEvent) : List LdsEvent :=
  evs.filter (fun e => match e with
    | LdsEvent.read Operand.V _ _ _ _ => true
    | _ => false)

end Fwd

namespace Fwd

/-- The sub-tiles of operand `op` staged so far, each as (tile, sub-tile, slot), after
a sequence of accesses that starts with `seen` already staged. -/
def stagedAfter (op : Operand) (seen : List (Nat × Nat × Nat)) :
    List LdsEvent → List (Nat × Nat × Nat)
  | [] => seen
  | LdsEvent.stage o tile sub slot _ :: rest =>
    stagedAfter op (if o = op then (tile, sub, slot) :: seen else seen) rest
  | LdsEvent.read _ _ _ _ _ :: rest => stagedAfter op seen rest

/-- Every sub-GEMM on operand `op` in the sequence reads a slot into which its
sub-tile has been staged earlier in the sequence, or is among `seen`. -/
def Preceded (op : Operand) (seen : List (Nat × Nat × Nat)) : List LdsEvent → Prop
  | [] => True
  | LdsEvent.stage o tile sub slot _ :: rest =>
    Preceded op (if o = op then (tile, sub, slot) :: seen else seen) rest
  | LdsEvent.read o tile sub slot _ :: rest =>
    (o = op → (tile, sub, slot) ∈ seen) ∧ Preceded op seen rest

end Fwd

namespace Fwd

/-- A shape with two sub-GEMMs in each stage (`k0_loops = k1_loops = 2`) and four
LDS slots. -/
def sampleShape4 : FwdShape :=
  { kM0 := 1, kN0 := 2, kK0 := 1, kN1 := 1, kK1 := 1, kK0BlockLength := 2,
    vRowMajor := true, LdsSeq := fun i => i % 4 }

end Fwd

namespace Combine

/-- The constant `kBlockPerCu`: the value returned by the immediately invoked lambda,
`none` when no `return` statement is reached (the lambda then returns `void`, and
the initialisation of the `index_t` constant does not compile). -/
def kBlockPerCu (P : CombineProblem) : Option Int :=
  if P.kBlockPerCu ≠ -1 then some P.kBlockPerCu
  else if P.kK0BlockLength ≤ 32 then some 2
  else if P.kK0BlockLength ≤ 64 then some 3
  else if P.kK0BlockLength ≤ 128 then some 2
  else if P.kK0BlockLength ≤ 256 then some 1
  else none

/-- The function `GetSmemSize()`: `kMaxSplits * (kM0 + 1)`. -/
def GetSmemSize (P : CombineProblem) : Nat := P.kMaxSplits * (P.kM0 + 1)

end Combine

namespace Fwd

/-- The Q columns consumed by the `gemm_0` call of sub-step `i_k0`: the slice
`get_slice_tile(q_tile, Sequence<0, i_k0 * kK0>, Sequence<kM0, (i_k0 + 1) * kK0>)`
(the `static_for` passes, and the tail with `i_k0 = k0_loops - 1`). -/
def qSliceCols (sh : FwdShape) (i_k0 : Nat) : Finset Nat :=
  Finset.Ico (i_k0 * sh.kK0) ((i_k0 + 1) * sh.kK0)

end Fwd

/-! ## The kernel launch helper (`kernel_launch_flush_cache.hpp`) -/

namespace Launch

/-- The members of `StreamConfig` read by the launch helpers. -/
structure StreamConfig where
  time_kernel_ : Bool
  cold_niters_ : Int
  nrepeat_ : Int

/-- What a launch helper does that is visible outside it: calls of the caller's
`preprocess`, kernel launches, and the two `hipEventRecord` calls around the
timed loop. -/
inductive LaunchEvent where
  | preprocess
  | kernel
  | recordStart
  | recordStop
  deriving DecidableEq

/-- The function `launch_and_time_kernel_with_preprocess`, as the sequence of its
calls; `CK_TIME_KERNEL` is the build switch of the same name. Every HIP call is
taken to succeed (`hip_check_error` does not throw). -/
def launch_and_time_kernel_with_preprocess (CK_TIME_KERNEL : Bool)
    (stream_config : StreamConfig) : List LaunchEvent :=
  if CK_TIME_KERNEL then
    if stream_config.time_kernel_ then
      -- warm up
      [LaunchEvent.preprocess]
      ++ List.replicate stream_config.cold_niters_.toNat LaunchEvent.kernel
      ++ [LaunchEvent.recordStart]
      ++ (List.replicate stream_config.nrepeat_.toNat
          [LaunchEvent.preprocess, LaunchEvent.kernel]).flatten
      ++ [LaunchEvent.recordStop]
    else
      [LaunchEvent.preprocess, LaunchEvent.kernel]
  else
    [LaunchEvent.kernel]

/-- Every kernel launch of the sequence is preceded by a call of `preprocess` made
after the previous kernel launch; `ready` says that such a call has been made
before the sequence starts. -/
def preprocessedLaunches (ready : Bool) : List LaunchEvent → Bool
  | [] => true
  | LaunchEvent.preprocess :: rest => preprocessedLaunches true rest
  | LaunchEvent.kernel :: rest => ready && preprocessedLaunches false rest
  | _ :: rest => preprocessedLaunches ready rest

end Launch

namespace Fwd

variable {α : Type} [LinearOrderedField α]

/-- Two STAGE 3 states that agree on shared memory, the V window and `v_buf`, the
accumulator of the first being that of the second with row `i` multiplied by
`c i`. -/
def KVScaled (c : Nat → α) (xf xs : KVState α) : Prop :=
  xf.lds = xs.lds ∧ xf.v_dram_window = xs.v_dram_window ∧ xf.v_buf = xs.v_buf ∧
  ∀ i d, xf.o_acc i d = c i * xs.o_acc i d

/-- Two loop states that agree on the windows, shared memory and the counter, `o_acc`
and `l` of the first being those of the second with row `i` multiplied by `c i`. -/
def ScaledBy (c : Nat → α) (sf ss : FwdState α) : Prop :=
  sf.k_dram_block_window = ss.k_dram_block_window ∧
  sf.k_dram_window = ss.k_dram_window ∧
  sf.v_dram_window = ss.v_dram_window ∧
  sf.lds = ss.lds ∧
  sf.i_total_loops = ss.i_total_loops ∧
  (∀ i d, sf.o_acc i d = c i * ss.o_acc i d) ∧
  (∀ i, sf.l i = c i * ss.l i)

/-- The state entering the `static_for` of STAGE 3 in an iteration started from
`st`: the first V sub-tile stored, the next one loaded, `o_acc` rescaled by
`tmp`. -/
def kvInit (A : Arith α) (sh : FwdShape) (K V q_tile : Nat → Nat → α)
    (v_element_func : α → α) (scale : α) (st : FwdState α) : KVState α :=
  { lds := Function.update (qk_loop sh K q_tile st).lds (vStoreSlot sh (k0_loops sh))
      (tile_elementwise_in v_element_func (load_tile V st.v_dram_window))
    v_dram_window := if k1_loops sh > 1 then move_tile_window st.v_dram_window (0, sh.kK1)
      else st.v_dram_window
    v_buf := if k1_loops sh > 1 then
        load_tile V (if k1_loops sh > 1 then move_tile_window st.v_dram_window (0, sh.kK1)
          else st.v_dram_window)
      else load_tile V st.v_dram_window
    o_acc := fun i j => st.o_acc i j *
      rescale A scale st.m (mNext A sh (scoreTile A sh K q_tile scale st) st.m) i }

end Fwd

namespace Fwd

/-- The shape `sampleShape4` with a V layout other than `RowMajor`. -/
def sampleShape5 : FwdShape :=
  { kM0 := 1, kN0 := 2, kK0 := 1, kN1 := 1, kK1 := 1, kK0BlockLength := 2,
    vRowMajor := false, LdsSeq := fun i => i % 4 }

end Fwd

/-! # Theorems -/

/-! ## Combine pipeline: the LSE restaging through shared memory -/

namespace Combine

theorem offset_decomp (K r c a : Nat) (hr : r < K) :
    r + c * K = a ↔ a % K = r ∧ a / K = c := by
  have hK : 0 < K := by omega
  constructor
  · intro h
    subst h
    constructor
    · rw [Nat.add_mul_mod_self_right]; exact Nat.mod_eq_of_lt hr
    · rw [Nat.add_mul_div_right _ _ hK, Nat.div_eq_of_lt hr]; simp
  · rintro ⟨h1, h2⟩
    subst h1 h2
    rw [Nat.mul_comm]
    exact Nat.mod_add_div a K

theorem inner_fold {β : Type} (K r : Nat) (hr : r < K) (f : Nat → β) (mem : Nat → β)
    (n a : Nat) :
    (List.range n).foldl (fun mem1 col => Function.update mem1 (r + col * K) (f col)) mem a
      = if a % K = r ∧ a / K < n then f (a / K) else mem a := by
  induction n with
  | zero => simp
  | succ n ih =>
    rw [List.range_succ, List.foldl_append]
    simp only [List.foldl_cons, List.foldl_nil]
    by_cases h : a = r + n * K
    · rw [h, Function.update_same]
      have := (offset_decomp K r n (r + n * K) hr).1 rfl
      rw [if_pos ⟨this.1, by omega⟩, this.2]
    · rw [Function.update_noteq h, ih]
      have h2 : ¬ (a % K = r ∧ a / K = n) :=
        fun hh => h ((offset_decomp K r n a hr).2 hh).symm
      by_cases h3 : a % K = r ∧ a / K < n
      · rw [if_pos h3, if_pos ⟨h3.1, by omega⟩]
      · rw [if_neg h3, if_neg]
        rintro ⟨h4, h5⟩
        rcases Nat.lt_succ_iff_lt_or_eq.1 h5 with h6 | h6
        · exact h3 ⟨h4, h6⟩
        · exact h2 ⟨h4, h6⟩

theorem outer_fold {β : Type} (K M : Nat) (f : Nat → Nat → β) (mem : Nat → β) (R a : Nat)
    (hR : R ≤ K) :
    (List.range R).foldl
        (fun mem0 row =>
          (List.range M).foldl
            (fun mem1 col => Function.update mem1 (row + col * K) (f row col)) mem0)
        mem a
      = if a % K < R ∧ a / K < M then f (a % K) (a / K) else mem a := by
  induction R with
  | zero => simp
  | succ R ih =>
    rw [List.range_succ, List.foldl_append]
    simp only [List.foldl_cons, List.foldl_nil]
    rw [inner_fold K R (by omega) (f R), ih (by omega)]
    by_cases h1 : a % K = R
    · by_cases h2 : a / K < M
      · rw [if_pos ⟨h1, h2⟩, if_pos ⟨by omega, h2⟩, h1]
      · rw [if_neg (fun hh => h2 hh.2), if_neg (fun hh => h2 hh.2), if_neg (fun hh => h2 hh.2)]
    · rw [if_neg (fun hh => h1 hh.1)]
      by_cases h3 : a % K < R ∧ a / K < M
      · rw [if_pos h3, if_pos ⟨by omega, h3.2⟩]
      · rw [if_neg h3, if_neg]
        rintro ⟨h4, h5⟩
        exact h3 ⟨by omega, h5⟩

/-- Shared memory after the store sweep, in closed form. -/
theorem copy_lse_acc_to_lds_apply {α : Type} (P : CombineProblem) (lse_acc : Nat → Nat → Fp α)
    (lds : Nat → Fp α) (a : Nat) :
    copy_lse_acc_to_lds P lse_acc lds a
      = if a % P.kMaxSplits < P.kMaxSplits ∧ a / P.kMaxSplits < P.kM0 then
          lse_acc (a % P.kMaxSplits) (a / P.kMaxSplits)
        else lds a := by
  unfold copy_lse_acc_to_lds storeOffset
  exact outer_fold P.kMaxSplits P.kM0 lse_acc lds P.kMaxSplits a (le_refl _)

/-- The restaged tile is the transpose of the loaded one. -/
theorem lse_accum_eq {α : Type} (P : CombineProblem) (lse_acc : Nat → Nat → Fp α) (lds : Nat → Fp α)
    (row split : Nat) (hs : split < P.kMaxSplits) (hr : row < P.kM0) :
    lse_accum P lse_acc lds row split = lse_acc split row := by
  unfold lse_accum loadOffset
  rw [copy_lse_acc_to_lds_apply]
  have h := (offset_decomp P.kMaxSplits split row _ hs).1 rfl
  rw [h.1, h.2, if_pos ⟨hs, hr⟩]

/-- C7: with `lse_acc` indexed `[split, row]` and `lse_accum` indexed `[row, split]`,
the store to LDS at offset `split + row * kMaxSplits` followed by the load from
the same offset gives `lse_accum[row][split] = lse_acc[split][row]`, and two
distinct in-range `(split, row)` pairs never share an LDS offset. -/
theorem lse_transpose_through_lds {α : Type} (P : CombineProblem) (lse_acc : Nat → Nat → Fp α)
    (lds : Nat → Fp α) (split row : Nat) (hs : split < P.kMaxSplits) (hr : row < P.kM0) :
    lse_accum P lse_acc lds row split = lse_acc split row ∧
    storeOffset P split row = split + row * P.kMaxSplits ∧
    loadOffset P row split = split + row * P.kMaxSplits ∧
    ∀ split2 row2, split2 < P.kMaxSplits → row2 < P.kM0 →
      storeOffset P split2 row2 = storeOffset P split row → split2 = split ∧ row2 = row := by
  refine ⟨lse_accum_eq P lse_acc lds row split hs hr, rfl, rfl, ?_⟩
  intro split2 row2 hs2 _ h
  unfold storeOffset at h
  have h1 := (offset_decomp P.kMaxSplits split2 row2 _ hs2).1 h
  have h2 := (offset_decomp P.kMaxSplits split row _ hs).1 rfl
  exact ⟨by omega, by omega⟩

/-- Witness for C7 on a 2 x 2 sample. -/
theorem lse_transpose_through_lds_witness :
    lse_accum sampleMasked sampleLse (fun _ => Fp.nan) 1 0 = sampleLse 0 1 ∧
    storeOffset sampleMasked 0 1 = 0 + 1 * sampleMasked.kMaxSplits ∧
    loadOffset sampleMasked 1 0 = 0 + 1 * sampleMasked.kMaxSplits ∧
    ∀ split2 row2, split2 < sampleMasked.kMaxSplits → row2 < sampleMasked.kM0 →
      storeOffset sampleMasked split2 row2 = storeOffset sampleMasked 0 1 →
        split2 = 0 ∧ row2 = 1 :=
  lse_transpose_through_lds sampleMasked sampleLse (fun _ => Fp.nan) 0 1
    (by decide) (by decide)

/-! ## Combine pipeline: row maximum and the max-validation rule -/

variable {α : Type} [LinearOrderedField α]

theorem reduceRange_congr {β : Type} (f : β → β → β) (init : β) (g g2 : Nat → β) (n : Nat)
    (h : ∀ c, c < n → g c = g2 c) : reduceRange f init g n = reduceRange f init g2 n := by
  induction n with
  | zero => rfl
  | succ n ih =>
    simp only [reduceRange]
    rw [ih (fun c hc => h c (by omega)), h n (by omega)]

theorem Fp_eqb_negInf (x : Fp α) : Fp.eqb x Fp.negInf = true ↔ x = Fp.negInf := by
  cases x <;> simp [Fp.eqb]

theorem Fp_max_left (x y : Fp α) (hx : Fp.isNaN x = false) (hy : Fp.isNaN y = false) :
    Fp.le x (Fp.max x y) = true := by
  cases x <;> cases y <;> simp_all [Fp.max, Fp.gt, Fp.le, Fp.isNaN]
  rename_i a b
  by_cases h : b < a
  · simp [h, Fp.le]
  · simp [h, Fp.le]; exact not_lt.1 h

theorem Fp_max_right (x y : Fp α) (hx : Fp.isNaN x = false) (hy : Fp.isNaN y = false) :
    Fp.le y (Fp.max x y) = true := by
  cases x <;> cases y <;> simp_all [Fp.max, Fp.gt, Fp.le, Fp.isNaN]
  rename_i a b
  by_cases h : b < a
  · simp [h, Fp.le]; exact le_of_lt h
  · simp [h, Fp.le]

theorem Fp_max_cases (x y : Fp α) : Fp.max x y = x ∨ Fp.max x y = y := by
  unfold Fp.max
  by_cases h : Fp.gt x y = true
  · left; simp [h]
  · right; simp [h]

theorem Fp_le_trans (x y z : Fp α) (h1 : Fp.le x y = true) (h2 : Fp.le y z = true) :
    Fp.le x z = true := by
  cases x <;> cases y <;> cases z <;> simp_all [Fp.le]
  exact le_trans h1 h2

theorem Fp_le_not_nan_left (x y : Fp α) (h : Fp.le x y = true) : Fp.isNaN x = false := by
  cases x <;> cases y <;> simp_all [Fp.le, Fp.isNaN]

theorem Fp_le_not_nan_right (x y : Fp α) (h : Fp.le x y = true) : Fp.isNaN y = false := by
  cases x <;> cases y <;> simp_all [Fp.le, Fp.isNaN]

/-- The row maximum of NaN-free values: not NaN, above every element, and either
the identity `-infinity` or one of the elements. -/
theorem reduceRange_max_spec (g : Nat → Fp α) (n : Nat)
    (hg : ∀ c, c < n → Fp.isNaN (g c) = false) :
    Fp.isNaN (reduceRange Fp.max Fp.negInf g n) = false ∧
    (∀ c, c < n → Fp.le (g c) (reduceRange Fp.max Fp.negInf g n) = true) ∧
    (reduceRange Fp.max Fp.negInf g n = Fp.negInf ∨
      ∃ c, c < n ∧ reduceRange Fp.max Fp.negInf g n = g c) := by
  induction n with
  | zero => exact ⟨rfl, fun c hc => absurd hc (Nat.not_lt_zero c), Or.inl rfl⟩
  | succ n ih =>
    obtain ⟨ih1, ih2, ih3⟩ := ih (fun c hc => hg c (by omega))
    have hn := hg n (by omega)
    simp only [reduceRange]
    have hl := Fp_max_left _ _ ih1 hn
    have hr := Fp_max_right _ _ ih1 hn
    refine ⟨Fp_le_not_nan_right _ _ hl, ?_, ?_⟩
    · intro c hc
      rcases Nat.lt_succ_iff_lt_or_eq.1 hc with h | h
      · exact Fp_le_trans _ _ _ (ih2 c h) hl
      · rw [h]; exact hr
    · rcases Fp_max_cases (reduceRange Fp.max Fp.negInf g n) (g n) with h | h
      · rw [h]
        rcases ih3 with h3 | ⟨c, hc, h3⟩
        · exact Or.inl h3
        · exact Or.inr ⟨c, by omega, h3⟩
      · exact Or.inr ⟨n, by omega, h⟩

/-- The local `lse_max` of a row, in terms of the loaded partial LSE values. -/
theorem lse_max_eq (P : CombineProblem) (lse_acc : Nat → Nat → Fp α) (lds : Nat → Fp α)
    (row : Nat) (hr : row < P.kM0) :
    lse_max P lse_acc lds row
      = reduceRange Fp.max Fp.negInf (fun split => lse_acc split row) P.kMaxSplits := by
  unfold lse_max
  exact reduceRange_congr _ _ _ _ _ (fun c hc => lse_accum_eq P lse_acc lds row c hc hr)

theorem get_validated_m_on (P : CombineProblem) (raw_m : Fp α)
    (h : (P.kHasBias || P.isMasking) = true ∧ raw_m = Fp.negInf) :
    get_validated_m P raw_m = Fp.fin 0 := by
  unfold get_validated_m
  rw [if_pos h.1, if_pos ((Fp_eqb_negInf raw_m).2 h.2)]

theorem get_validated_m_off (P : CombineProblem) (raw_m : Fp α)
    (h : ¬ ((P.kHasBias || P.isMasking) = true ∧ raw_m = Fp.negInf)) :
    get_validated_m P raw_m = raw_m := by
  unfold get_validated_m
  by_cases h1 : (P.kHasBias || P.isMasking) = true
  · rw [if_pos h1, if_neg]
    intro h2
    exact h ⟨h1, (Fp_eqb_negInf raw_m).1 h2⟩
  · rw [if_neg h1]

/-- C6: `get_validated_m(raw_m)` replaces its argument (by `0`) exactly when bias or
masking is enabled and `raw_m` is `-infinity`, and returns `raw_m` unchanged in
every other case, in particular on every input when neither is enabled (so the
result is `0` exactly in the replaced case and for `raw_m = 0` itself); the
`lse_max` fed to it is the maximum of the row's partial LSE values over all
splits with identity `-infinity`. -/
theorem get_validated_m_rule (P : CombineProblem) (lse_acc : Nat → Nat → Fp α)
    (lds : Nat → Fp α) (row : Nat) (hr : row < P.kM0) (raw_m : Fp α) :
    (get_validated_m P raw_m ≠ raw_m ↔
      ((P.kHasBias || P.isMasking) = true ∧ raw_m = Fp.negInf)) ∧
    (get_validated_m P raw_m = Fp.fin 0 ↔
      (((P.kHasBias || P.isMasking) = true ∧ raw_m = Fp.negInf) ∨ raw_m = Fp.fin 0)) ∧
    (((P.kHasBias || P.isMasking) = true ∧ raw_m = Fp.negInf) →
      get_validated_m P raw_m = Fp.fin 0) ∧
    (¬ ((P.kHasBias || P.isMasking) = true ∧ raw_m = Fp.negInf) →
      get_validated_m P raw_m = raw_m) ∧
    ((P.kHasBias || P.isMasking) = false → ∀ x : Fp α, get_validated_m P x = x) ∧
    lse_max P lse_acc lds row
      = reduceRange Fp.max Fp.negInf (fun split => lse_acc split row) P.kMaxSplits ∧
    ((∀ s, s < P.kMaxSplits → Fp.isNaN (lse_acc s row) = false) →
      (∀ s, s < P.kMaxSplits → Fp.le (lse_acc s row) (lse_max P lse_acc lds row) = true) ∧
      (lse_max P lse_acc lds row = Fp.negInf ∨
        ∃ s, s < P.kMaxSplits ∧ lse_max P lse_acc lds row = lse_acc s row)) := by
  refine ⟨?_, ?_, get_validated_m_on P raw_m, get_validated_m_off P raw_m, ?_,
    lse_max_eq P lse_acc lds row hr, ?_⟩
  · constructor
    · intro h
      by_contra hc
      exact h (get_validated_m_off P raw_m hc)
    · intro h
      rw [get_validated_m_on P raw_m h, h.2]
      simp
  · constructor
    · intro h
      by_cases hc : (P.kHasBias || P.isMasking) = true ∧ raw_m = Fp.negInf
      · exact Or.inl hc
      · rw [get_validated_m_off P raw_m hc] at h
        exact Or.inr h
    · rintro (h | h)
      · exact get_validated_m_on P raw_m h
      · by_cases hc : (P.kHasBias || P.isMasking) = true ∧ raw_m = Fp.negInf
        · exact get_validated_m_on P raw_m hc
        · rw [get_validated_m_off P raw_m hc]
          exact h
  · intro h x
    exact get_validated_m_off P x (fun hh => by rw [h] at hh; exact Bool.false_ne_true hh.1)
  · intro hnan
    rw [lse_max_eq P lse_acc lds row hr]
    have := reduceRange_max_spec (fun split => lse_acc split row) P.kMaxSplits hnan
    exact ⟨this.2.1, this.2.2⟩

/-- Witness for C6: row 1 of the sample, with raw maximum `-infinity`. -/
theorem get_validated_m_rule_witness :
    (get_validated_m sampleMasked (Fp.negInf : Fp ℚ) ≠ Fp.negInf ↔
      ((sampleMasked.kHasBias || sampleMasked.isMasking) = true ∧
        (Fp.negInf : Fp ℚ) = Fp.negInf)) ∧
    get_validated_m sampleMasked (Fp.negInf : Fp ℚ) = Fp.fin 0 ∧
    lse_max sampleMasked sampleLse (fun _ => Fp.nan) 1
      = reduceRange Fp.max Fp.negInf (fun split => sampleLse split 1)
          sampleMasked.kMaxSplits :=
  have h := get_validated_m_rule sampleMasked sampleLse (fun _ => Fp.nan) 1 (by decide)
    (Fp.negInf : Fp ℚ)
  ⟨h.1, h.2.2.1 ⟨rfl, rfl⟩, h.2.2.2.2.2.1⟩

/-! ## Combine pipeline: fully masked rows -/

theorem reduceRange_max_negInf (n : Nat) :
    reduceRange Fp.max Fp.negInf (fun _ => (Fp.negInf : Fp α)) n = Fp.negInf := by
  induction n with
  | zero => rfl
  | succ n ih => simp [reduceRange, ih, Fp.max, Fp.gt]

theorem reduceRange_add_zero (n : Nat) :
    reduceRange Fp.add (Fp.fin 0) (fun _ => (Fp.fin 0 : Fp α)) n = Fp.fin 0 := by
  induction n with
  | zero => rfl
  | succ n ih => simp [reduceRange, ih, Fp.add]

theorem lse_max_masked (P : CombineProblem) (lse_acc : Nat → Nat → Fp α) (lds : Nat → Fp α)
    (row : Nat) (hr : row < P.kM0)
    (hall : ∀ s, s < P.kMaxSplits → lse_acc s row = Fp.negInf) :
    lse_max P lse_acc lds row = Fp.negInf := by
  rw [lse_max_eq P lse_acc lds row hr,
    reduceRange_congr Fp.max Fp.negInf _ (fun _ => (Fp.negInf : Fp α)) _ hall]
  exact reduceRange_max_negInf _

theorem p_compute_masked (e : α → α) (P : CombineProblem) (lse_acc : Nat → Nat → Fp α)
    (lds : Nat → Fp α) (row : Nat) (hmask : (P.kHasBias || P.isMasking) = true)
    (hr : row < P.kM0) (hall : ∀ s, s < P.kMaxSplits → lse_acc s row = Fp.negInf)
    (s : Nat) (hs : s < P.kMaxSplits) :
    p_compute e P lse_acc lds row s = Fp.fin 0 := by
  unfold p_compute
  rw [lse_max_masked P lse_acc lds row hr hall, get_validated_m_on P _ ⟨hmask, rfl⟩,
    lse_accum_eq P lse_acc lds row s hs hr, hall s hs]
  simp [Fp.sub, Fp.neg, Fp.add, Fp.exp]

/-- C5: with bias or masking enabled, a row whose partial LSE is `-infinity` for
every split yields validated max `0`, every weight `p = exp(lse - validated max)`
equal to `0`, `lse_sum = 0`, and no NaN among the values computed for the row;
and for a row with at least one finite (and no NaN) partial LSE the validated
max is the true row maximum. -/
theorem masked_row_combines_without_nan (e : α → α) (P : CombineProblem)
    (lse_acc : Nat → Nat → Fp α) (lds : Nat → Fp α) (row : Nat)
    (hmask : (P.kHasBias || P.isMasking) = true) (hr : row < P.kM0) :
    ((∀ s, s < P.kMaxSplits → lse_acc s row = Fp.negInf) →
      get_validated_m P (lse_max P lse_acc lds row) = Fp.fin 0 ∧
      (∀ s, s < P.kMaxSplits → p_compute e P lse_acc lds row s = Fp.fin 0) ∧
      lse_sum e P lse_acc lds row = Fp.fin 0 ∧
      (∀ s, s < P.kMaxSplits → Fp.isNaN (lse_accum P lse_acc lds row s) = false) ∧
      Fp.isNaN (lse_max P lse_acc lds row) = false ∧
      Fp.isNaN (get_validated_m P (lse_max P lse_acc lds row)) = false ∧
      (∀ s, s < P.kMaxSplits →
        Fp.isNaN (Fp.sub (lse_accum P lse_acc lds row s)
          (get_validated_m P (lse_max P lse_acc lds row))) = false) ∧
      (∀ s, s < P.kMaxSplits → Fp.isNaN (p_compute e P lse_acc lds row s) = false) ∧
      Fp.isNaN (lse_sum e P lse_acc lds row) = false) ∧
    ((∃ s, s < P.kMaxSplits ∧ Fp.isFinite (lse_acc s row) = true) →
      (∀ s, s < P.kMaxSplits → Fp.isNaN (lse_acc s row) = false) →
      get_validated_m P (lse_max P lse_acc lds row) = lse_max P lse_acc lds row ∧
      (∃ s, s < P.kMaxSplits ∧ lse_acc s row = lse_max P lse_acc lds row) ∧
      (∀ s, s < P.kMaxSplits →
        Fp.le (lse_acc s row) (lse_max P lse_acc lds row) = true)) := by
  constructor
  · intro hall
    have hmax := lse_max_masked P lse_acc lds row hr hall
    have hval : get_validated_m P (lse_max P lse_acc lds row) = Fp.fin 0 := by
      rw [hmax]; exact get_validated_m_on P _ ⟨hmask, rfl⟩
    have hp := p_compute_masked e P lse_acc lds row hmask hr hall
    have hsum : lse_sum e P lse_acc lds row = Fp.fin 0 := by
      unfold lse_sum
      rw [reduceRange_congr Fp.add (Fp.fin 0) _ (fun _ => (Fp.fin 0 : Fp α)) _ hp]
      exact reduceRange_add_zero _
    refine ⟨hval, hp, hsum, ?_, ?_, ?_, ?_, ?_, ?_⟩
    · intro s hs
      rw [lse_accum_eq P lse_acc lds row s hs hr, hall s hs]; rfl
    · rw [hmax]; rfl
    · rw [hval]; rfl
    · intro s hs
      rw [hval, lse_accum_eq P lse_acc lds row s hs hr, hall s hs]
      simp [Fp.sub, Fp.neg, Fp.add, Fp.isNaN]
    · intro s hs
      rw [hp s hs]; rfl
    · rw [hsum]; rfl
  · rintro ⟨s0, hs0, hfin⟩ hnan
    have hspec := reduceRange_max_spec (fun split => lse_acc split row) P.kMaxSplits hnan
    rw [← lse_max_eq P lse_acc lds row hr] at hspec
    obtain ⟨_, hle, hmem⟩ := hspec
    have hne : lse_max P lse_acc lds row ≠ Fp.negInf := by
      intro hc
      have h1 := hle s0 hs0
      rw [hc] at h1
      cases hv : lse_acc s0 row <;> simp_all [Fp.le, Fp.isFinite]
    refine ⟨get_validated_m_off P _ (fun hh => hne hh.2), ?_, hle⟩
    rcases hmem with h | ⟨c, hc, h⟩
    · exact absurd h hne
    · exact ⟨c, hc, h.symm⟩

/-- Witness for C5: row 0 of the sample is fully masked, row 1 has maximum `5`. -/
theorem masked_row_combines_without_nan_witness :
    (get_validated_m sampleMasked (lse_max sampleMasked sampleLse (fun _ => Fp.nan) 0)
        = Fp.fin 0 ∧
      lse_sum (fun x => x) sampleMasked sampleLse (fun _ => Fp.nan) 0 = Fp.fin 0) ∧
    get_validated_m sampleMasked (lse_max sampleMasked sampleLse (fun _ => Fp.nan) 1)
      = lse_max sampleMasked sampleLse (fun _ => Fp.nan) 1 :=
  have h0 := (masked_row_combines_without_nan (fun x => x) sampleMasked sampleLse
    (fun _ => Fp.nan) 0 (by decide) (by decide)).1 (fun _ _ => rfl)
  have h1 := (masked_row_combines_without_nan (fun x => x) sampleMasked sampleLse
    (fun _ => Fp.nan) 1 (by decide) (by decide)).2 ⟨0, by decide, rfl⟩
    (fun s _ => by unfold sampleLse; split_ifs <;> rfl)
  ⟨⟨h0.1, h0.2.2.1⟩, h1.1⟩

/-! ## Combine pipeline: what `operator()` returns and stores -/

/-- The returned tile and the LSE output window do not depend on the partial
results: the tile is the value-initialised one, the window is left as it was. -/
theorem run_ignores_partials (e : α → α) (P : CombineProblem) (lse_acc : Nat → Nat → Fp α)
    (o_acc_dram : Nat → Nat → Nat → Fp α) (lse_dram : Nat → Fp α) (lds : Nat → Fp α) :
    (runDefault e P lse_acc o_acc_dram lse_dram lds).o_acc = (fun _ _ => Fp.fin 0) ∧
    (runDefault e P lse_acc o_acc_dram lse_dram lds).lse_dram = lse_dram :=
  ⟨rfl, rfl⟩

/-- C2, the code at the failing input: two splits with partial LSE `0` and `0`
and partial outputs `1` and `3`. The specification's combined output is `2`;
the tile returned by `operator()` holds `0`. -/
theorem combine_output_at_failing_input :
    (runDefault Real.exp
        { kM0 := 1, kMaxSplits := 2, kK0BlockLength := 32, kHasBias := false,
          isMasking := false, kStoreLSE := false, kBlockPerCu := -1 }
        (fun _ _ => Fp.fin 0) (fun split _ _ => if split = 0 then Fp.fin 1 else Fp.fin 3)
        (fun _ => Fp.fin 0) (fun _ => Fp.fin 0)).o_acc 0 0 = Fp.fin 0 ∧
    combinedOutputSpec Real.exp Real.log 2 (fun _ => 0) (fun s => if s = 0 then 1 else 3)
      = 2 := by
  refine ⟨rfl, ?_⟩
  simp only [combinedOutputSpec, reduceRange]
  norm_num [Real.exp_neg, Real.exp_log]

/-- C8, the code at the failing input: `kStoreLSE` enabled, one split with
partial LSE `0`, the LSE output window holding `7` on entry. The combined
log-sum-exp is `0`; after the call the window still holds `7`. -/
theorem combine_lse_window_at_failing_input :
    sampleSingle.kStoreLSE = true ∧
    (runDefault Real.exp sampleSingle (fun _ _ => Fp.fin 0) (fun _ _ _ => Fp.fin 1)
        (fun _ => Fp.fin 7) (fun _ => Fp.fin 0)).lse_dram 0 = Fp.fin 7 ∧
    combinedLSESpec Real.exp Real.log sampleSingle (fun _ _ => Fp.fin 0)
        (fun _ => Fp.fin 0) 0 = Fp.fin 0 := by
  refine ⟨rfl, rfl, ?_⟩
  have h0 : lse_accum sampleSingle (fun _ _ => (Fp.fin 0 : Fp ℝ)) (fun _ => Fp.fin 0) 0 0
      = Fp.fin 0 := lse_accum_eq _ _ _ 0 0 (by decide) (by decide)
  have hk : sampleSingle.kMaxSplits = 1 := rfl
  simp only [combinedLSESpec, lse_sum, p_compute, lse_max, hk, reduceRange, h0]
  simp [get_validated_m, sampleSingle, Fp.max, Fp.gt, Fp.sub, Fp.neg, Fp.add, Fp.exp, Fp.log]

end Combine

/-! ## Forward pipeline: the outer loop -/

namespace Fwd

variable {α : Type} [LinearOrderedField α]

theorem fwd_body_counter (A : Arith α) (sh : FwdShape) (K V q_tile : Nat → Nat → α)
    (fv : α → α) (scale : α) (n : Int) (st : FwdState α) :
    (fwd_body A sh K V q_tile fv scale n st).i_total_loops = st.i_total_loops + 1 := rfl

theorem fwd_loop_unfold (A : Arith α) (sh : FwdShape) (K V q_tile : Nat → Nat → α)
    (fv : α → α) (scale : α) (n : Int) (st : FwdState α) :
    fwd_loop A sh K V q_tile fv scale n st
      = if st.i_total_loops + 1 < n then
          fwd_loop A sh K V q_tile fv scale n (fwd_body A sh K V q_tile fv scale n st)
        else fwd_body A sh K V q_tile fv scale n st := by
  rw [fwd_loop, fwd_body_counter]

/-- The loop runs its body `max 1 (num_total_loop - i_total_loops)` times. -/
theorem fwd_loop_iterate (A : Arith α) (sh : FwdShape) (K V q_tile : Nat → Nat → α)
    (fv : α → α) (scale : α) (n : Int) (k : Nat) :
    ∀ st : FwdState α, (n - st.i_total_loops - 1).toNat = k →
      fwd_loop A sh K V q_tile fv scale n st
        = (fwd_body A sh K V q_tile fv scale n)^[k + 1] st := by
  induction k with
  | zero =>
    intro st hk
    rw [fwd_loop_unfold, if_neg (by omega)]
    rfl
  | succ k ih =>
    intro st hk
    rw [fwd_loop_unfold, if_pos (by omega), ih _ (by rw [fwd_body_counter]; omega)]
    rfl

theorem iterate_counter (A : Arith α) (sh : FwdShape) (K V q_tile : Nat → Nat → α)
    (fv : α → α) (scale : α) (n : Int) (k : Nat) (st : FwdState α) :
    ((fwd_body A sh K V q_tile fv scale n)^[k] st).i_total_loops = st.i_total_loops + k := by
  induction k with
  | zero => simp
  | succ k ih =>
    rw [Function.iterate_succ_apply', fwd_body_counter, ih]
    push_cast
    ring

/-- C10 (amended): from the entry state the body of the outer loop is executed
exactly `max 1 num_total_loop` times, and `i_total_loops` ends at that value:
`num_total_loop` times for `num_total_loop >= 1`, once otherwise. -/
theorem outer_loop_iteration_count (A : Arith α) (sh : FwdShape) (K V q_tile : Nat → Nat → α)
    (fv : α → α) (scale : α) (num_total_loop : Int) (k_origin v_origin : Nat × Nat)
    (lds : Nat → Nat → Nat → α) :
    fwd_loop A sh K V q_tile fv scale num_total_loop (fwd_init A sh K k_origin v_origin lds)
      = (fwd_body A sh K V q_tile fv scale num_total_loop)^[(max 1 num_total_loop).toNat]
          (fwd_init A sh K k_origin v_origin lds) ∧
    (fwd_loop A sh K V q_tile fv scale num_total_loop
        (fwd_init A sh K k_origin v_origin lds)).i_total_loops = max 1 num_total_loop := by
  have h := fwd_loop_iterate A sh K V q_tile fv scale num_total_loop
    (num_total_loop - 1).toNat (fwd_init A sh K k_origin v_origin lds)
    (by simp [fwd_init])
  have hk : (num_total_loop - 1).toNat + 1 = (max 1 num_total_loop).toNat := by omega
  rw [hk] at h
  refine ⟨h, ?_⟩
  rw [h, iterate_counter]
  simp only [fwd_init]
  omega

/-- C10, counterexample: with `num_total_loop = 0` the body is not skipped: the
final value of `i_total_loops` is `1`, one key tile has been processed. -/
theorem outer_loop_runs_once_at_zero :
    (fwd_loop sampleArith sampleShape (fun _ _ => 1) (fun _ _ => 1) (fun _ _ => 1)
        (fun x => x) 1 0
        (fwd_init sampleArith sampleShape (fun _ _ => 1) (0, 0) (0, 0)
          (fun _ _ _ => 0))).i_total_loops = 1 ∧
    fwd_loop sampleArith sampleShape (fun _ _ => 1) (fun _ _ => 1) (fun _ _ => 1)
        (fun x => x) 1 0
        (fwd_init sampleArith sampleShape (fun _ _ => 1) (0, 0) (0, 0) (fun _ _ _ => 0))
      ≠ (fwd_body sampleArith sampleShape (fun _ _ => 1) (fun _ _ => 1) (fun _ _ => 1)
          (fun x => x) 1 0)^[0]
        (fwd_init sampleArith sampleShape (fun _ _ => 1) (0, 0) (0, 0) (fun _ _ _ => 0)) := by
  have h := fwd_loop_iterate sampleArith sampleShape (fun _ _ => 1) (fun _ _ => 1)
    (fun _ _ => 1) (fun x => x) 1 0 0
    (fwd_init sampleArith sampleShape (fun _ _ => 1) (0, 0) (0, 0) (fun _ _ _ => 0)) rfl
  have hc : (fwd_loop sampleArith sampleShape (fun _ _ => 1) (fun _ _ => 1) (fun _ _ => 1)
        (fun x => x) 1 0
        (fwd_init sampleArith sampleShape (fun _ _ => 1) (0, 0) (0, 0)
          (fun _ _ _ => 0))).i_total_loops = 1 := by
    rw [h]; rfl
  refine ⟨hc, fun heq => ?_⟩
  rw [heq] at hc
  exact absurd hc (by decide)

/-! ## Forward pipeline: one iteration of the outer loop -/

theorem reduceRange_add_eq_sum (g : Nat → α) (n : Nat) :
    reduceRange (fun x y => x + y) 0 g n = ∑ t ∈ Finset.range n, g t := by
  induction n with
  | zero => simp [reduceRange]
  | succ n ih => rw [Finset.sum_range_succ, ← ih]; rfl

theorem blockGemm_apply (kdim : Nat) (c a b : Nat → Nat → α) (i j : Nat) :
    blockGemm kdim c a b i j = c i j + ∑ t ∈ Finset.range kdim, a i t * b j t := by
  unfold blockGemm
  rw [reduceRange_add_eq_sum]

theorem foldl_range_succ {β : Type} (f : β → Nat → β) (x : β) (n : Nat) :
    (List.range (n + 1)).foldl f x = f ((List.range n).foldl f x) n := by
  rw [List.range_succ, List.foldl_append]
  rfl

/-- STAGE 1 after `n` passes of the `static_for`. -/
theorem qk_fold_spec (sh : FwdShape) (K q_tile : Nat → Nat → α) (lds0 : Nat → Nat → Nat → α)
    (kbw : Nat × Nat)
    (hrot : ∀ i, i + 1 < k0_loops sh → sh.LdsSeq i ≠ sh.LdsSeq (i + 1))
    (h0 : lds0 (sh.LdsSeq 0) = load_tile K kbw) (n : Nat) (hn : n + 1 ≤ k0_loops sh) :
    ((List.range n).foldl (qk_step sh K q_tile)
        ⟨lds0, move_tile_window kbw (0, sh.kK0), fun _ _ => 0⟩).k_dram_window
      = (kbw.1, kbw.2 + (n + 1) * sh.kK0) ∧
    ((List.range n).foldl (qk_step sh K q_tile)
        ⟨lds0, move_tile_window kbw (0, sh.kK0), fun _ _ => 0⟩).lds (sh.LdsSeq n)
      = load_tile K (kbw.1, kbw.2 + n * sh.kK0) ∧
    ∀ i j, ((List.range n).foldl (qk_step sh K q_tile)
        ⟨lds0, move_tile_window kbw (0, sh.kK0), fun _ _ => 0⟩).s_acc i j
      = ∑ t ∈ Finset.range n, ∑ c ∈ Finset.range sh.kK0,
          q_tile i (t * sh.kK0 + c) * K (kbw.1 + j) (kbw.2 + (t * sh.kK0 + c)) := by
  induction n with
  | zero =>
    refine ⟨?_, ?_, ?_⟩
    · simp [move_tile_window]
    · simpa using h0
    · intro i j; simp
  | succ n ih =>
    obtain ⟨ih1, ih2, ih3⟩ := ih (by omega)
    rw [foldl_range_succ]
    refine ⟨?_, ?_, ?_⟩
    · simp only [qk_step]
      rw [if_pos (by omega), ih1]
      simp only [move_tile_window]
      ext
      · simp
      · simp only; ring
    · simp only [qk_step]
      rw [Function.update_same, ih1]
    · intro i j
      simp only [qk_step]
      rw [blockGemm_apply, Function.update_noteq (hrot n (by omega)), ih2, ih3,
        Finset.sum_range_succ]
      simp [get_slice_tile, load_tile, Nat.add_assoc]

theorem qk_loop_eq_fold (sh : FwdShape) (K q_tile : Nat → Nat → α) (st : FwdState α) :
    qk_loop sh K q_tile st
      = (List.range (k0_loops sh - 1)).foldl (qk_step sh K q_tile)
          ⟨st.lds, st.k_dram_window, fun _ _ => 0⟩ := by
  unfold qk_loop
  by_cases h : k0_loops sh > 1
  · simp only [h, if_true]
  · have h0 : k0_loops sh - 1 = 0 := by omega
    simp only [h, if_false, h0, List.range_zero, List.foldl_nil]

/-- The score tile of an iteration, in closed form. -/
theorem scoreTile_eq (A : Arith α) (sh : FwdShape) (K q_tile : Nat → Nat → α) (scale : α)
    (st : FwdState α) (hs : Staged sh) (hk : KStaged sh K st) (i j : Nat) :
    scoreTile A sh K q_tile scale st i j
      = sTile A sh K q_tile scale st.k_dram_block_window i j := by
  obtain ⟨hk1, hk2⟩ := hk
  have hspec := qk_fold_spec sh K q_tile st.lds st.k_dram_block_window hs.k_rot hk1
    (k0_loops sh - 1) (by have := hs.k0_pos; omega)
  rw [← hk2, ← qk_loop_eq_fold] at hspec
  obtain ⟨_, h2, h3⟩ := hspec
  have hsum : blockGemm sh.kK0 (qk_loop sh K q_tile st).s_acc
      (get_slice_tile q_tile 0 ((k0_loops sh - 1) * sh.kK0))
      ((qk_loop sh K q_tile st).lds (sh.LdsSeq (k0_loops sh - 1))) i j
      = qkScore sh K q_tile st.k_dram_block_window i j := by
    rw [blockGemm_apply, h2, h3]
    unfold qkScore
    have hk0 : k0_loops sh = (k0_loops sh - 1) + 1 := by have := hs.k0_pos; omega
    conv_rhs => rw [hk0, Finset.sum_range_succ]
    simp [get_slice_tile, load_tile, Nat.add_assoc]
  unfold scoreTile sTile
  by_cases hf : A.fastExp2 = true
  · simp only [hf, if_true]; exact hsum
  · simp only [hf]; rw [← hsum]; rfl

/-- STAGE 3 after `n` passes of the `static_for`. -/
theorem kv_fold_spec (sh : FwdShape) (V : Nat → Nat → α) (fv : α → α) (p : Nat → Nat → α)
    (x0 : KVState α) (vw : Nat × Nat)
    (hv : ∀ i, i < k1_loops sh → vStoreSlot sh (k0_loops sh + i) = sh.LdsSeq (k0_loops sh + i))
    (hw : x0.v_dram_window = (vw.1, vw.2 + sh.kK1))
    (hb : x0.v_buf = load_tile V x0.v_dram_window)
    (hl : x0.lds (sh.LdsSeq (k0_loops sh)) = tile_elementwise_in fv (load_tile V vw))
    (n : Nat) (hn : n + 1 ≤ k1_loops sh) :
    ((List.range n).foldl (kv_step sh V fv p) x0).v_dram_window
      = (vw.1, vw.2 + (n + 1) * sh.kK1) ∧
    ((List.range n).foldl (kv_step sh V fv p) x0).lds (sh.LdsSeq (k0_loops sh + n))
      = tile_elementwise_in fv (load_tile V (vw.1, vw.2 + n * sh.kK1)) ∧
    (n = 0 → ((List.range n).foldl (kv_step sh V fv p) x0).v_buf
      = load_tile V ((List.range n).foldl (kv_step sh V fv p) x0).v_dram_window) ∧
    ∀ i d, ((List.range n).foldl (kv_step sh V fv p) x0).o_acc i d
      = x0.o_acc i d + ∑ t ∈ Finset.range n, ∑ c ∈ Finset.range sh.kK1,
          p i (t * sh.kK1 + c) * fv (V (vw.1 + d) (vw.2 + (t * sh.kK1 + c))) := by
  induction n with
  | zero =>
    refine ⟨?_, ?_, ?_, ?_⟩
    · simpa using hw
    · simpa using hl
    · intro _; simpa using hb
    · intro i d; simp
  | succ n ih =>
    obtain ⟨ih1, ih2, ih3, ih4⟩ := ih (by omega)
    rw [foldl_range_succ]
    have hbuf : (if n ≠ 0 ∧ n < k1_loops sh - 1 then
          load_tile V ((List.range n).foldl (kv_step sh V fv p) x0).v_dram_window
        else ((List.range n).foldl (kv_step sh V fv p) x0).v_buf)
        = load_tile V (vw.1, vw.2 + (n + 1) * sh.kK1) := by
      by_cases h0 : n = 0
      · rw [if_neg (fun hh => hh.1 h0), ih3 h0, ih1]
      · rw [if_pos ⟨h0, by omega⟩, ih1]
    refine ⟨?_, ?_, ?_, ?_⟩
    · simp only [kv_step]
      rw [if_pos (by omega), ih1]
      simp only [move_tile_window]
      ext
      · simp
      · simp only; ring
    · simp only [kv_step]
      rw [hbuf, Nat.add_assoc, hv (n + 1) (by omega), Function.update_same]
    · intro h; omega
    · intro i d
      simp only [kv_step]
      rw [blockGemm_apply, ih2, ih4, Finset.sum_range_succ, add_assoc]
      simp [get_slice_tile, load_tile, tile_elementwise_in, Nat.add_assoc]

/-- STAGE 3 together with the tail GEMM, reading the slot `slotTail`: the product
accumulated into `o_acc` and the final position of the V load window. -/
theorem kv_loop_spec (sh : FwdShape) (V : Nat → Nat → α) (fv : α → α) (p : Nat → Nat → α)
    (lds : Nat → Nat → Nat → α) (vw : Nat × Nat) (o1 : Nat → Nat → α) (hs : Staged sh) :
    (kv_loop sh V fv p
        { lds := Function.update lds (vStoreSlot sh (k0_loops sh))
            (tile_elementwise_in fv (load_tile V vw))
          v_dram_window := if k1_loops sh > 1 then move_tile_window vw (0, sh.kK1) else vw
          v_buf := if k1_loops sh > 1 then
              load_tile V (if k1_loops sh > 1 then move_tile_window vw (0, sh.kK1) else vw)
            else load_tile V vw
          o_acc := o1 }).v_dram_window = (vw.1, vw.2 + vAdvance sh) ∧
    ∀ i d, blockGemm sh.kK1
        (kv_loop sh V fv p
          { lds := Function.update lds (vStoreSlot sh (k0_loops sh))
              (tile_elementwise_in fv (load_tile V vw))
            v_dram_window := if k1_loops sh > 1 then move_tile_window vw (0, sh.kK1) else vw
            v_buf := if k1_loops sh > 1 then
                load_tile V (if k1_loops sh > 1 then move_tile_window vw (0, sh.kK1) else vw)
              else load_tile V vw
            o_acc := o1 }).o_acc
        (get_slice_tile p 0 ((k1_loops sh - 1) * sh.kK1))
        ((kv_loop sh V fv p
          { lds := Function.update lds (vStoreSlot sh (k0_loops sh))
              (tile_elementwise_in fv (load_tile V vw))
            v_dram_window := if k1_loops sh > 1 then move_tile_window vw (0, sh.kK1) else vw
            v_buf := if k1_loops sh > 1 then
                load_tile V (if k1_loops sh > 1 then move_tile_window vw (0, sh.kK1) else vw)
              else load_tile V vw
            o_acc := o1 }).lds (sh.LdsSeq (k0_loops sh + k1_loops sh - 1))) i d
      = o1 i d + pvProduct sh V fv p vw i d := by
  have hslot : vStoreSlot sh (k0_loops sh) = sh.LdsSeq (k0_loops sh) := by
    have := hs.v_slot 0 (by have := hs.k1_pos; omega)
    simpa using this
  by_cases h1 : k1_loops sh > 1
  · have hkv := kv_fold_spec sh V fv p
      { lds := Function.update lds (vStoreSlot sh (k0_loops sh))
          (tile_elementwise_in fv (load_tile V vw))
        v_dram_window := move_tile_window vw (0, sh.kK1)
        v_buf := load_tile V (move_tile_window vw (0, sh.kK1))
        o_acc := o1 } vw hs.v_slot
      (by simp [move_tile_window]) rfl
      (by simp only; rw [hslot, Function.update_same])
      (k1_loops sh - 1) (by omega)
    obtain ⟨hk1, hk2, _, hk4⟩ := hkv
    have hidx : k0_loops sh + k1_loops sh - 1 = k0_loops sh + (k1_loops sh - 1) := by omega
    simp only [kv_loop, if_pos h1, hidx]
    refine ⟨?_, ?_⟩
    · rw [hk1]
      unfold vAdvance
      rw [if_pos h1]
      have : k1_loops sh - 1 + 1 = k1_loops sh := by omega
      rw [this]
    · intro i d
      rw [blockGemm_apply, hk2, hk4]
      unfold pvProduct
      have hk : k1_loops sh = (k1_loops sh - 1) + 1 := by omega
      conv_rhs => rw [hk, Finset.sum_range_succ]
      simp [get_slice_tile, load_tile, tile_elementwise_in, Nat.add_assoc, add_assoc]
  · have hk : k1_loops sh = 1 := by have := hs.k1_pos; omega
    simp only [kv_loop, if_neg h1]
    refine ⟨?_, ?_⟩
    · unfold vAdvance
      rw [if_neg h1]
      rfl
    · intro i d
      rw [blockGemm_apply]
      unfold pvProduct
      simp only [hk, Nat.add_sub_cancel, hslot, Function.update_same]
      simp [get_slice_tile, load_tile, tile_elementwise_in]

/-- One iteration of the outer loop, in closed form: the new running max and sum,
the accumulator, both windows, and the staging of the next key tile. -/
theorem fwd_body_spec (A : Arith α) (sh : FwdShape) (K V q_tile : Nat → Nat → α)
    (fv : α → α) (scale : α) (n : Int) (st : FwdState α) (hs : Staged sh)
    (hk : KStaged sh K st) :
    (fwd_body A sh K V q_tile fv scale n st).m
      = mNext A sh (sTile A sh K q_tile scale st.k_dram_block_window) st.m ∧
    (∀ i, (fwd_body A sh K V q_tile fv scale n st).l i
      = rescale A scale st.m
            (mNext A sh (sTile A sh K q_tile scale st.k_dram_block_window) st.m) i * st.l i
        + ∑ j ∈ Finset.range sh.kN0,
            pCompute A scale (sTile A sh K q_tile scale st.k_dram_block_window)
              (mNext A sh (sTile A sh K q_tile scale st.k_dram_block_window) st.m) i j) ∧
    (∀ i d, (fwd_body A sh K V q_tile fv scale n st).o_acc i d
      = st.o_acc i d * rescale A scale st.m
            (mNext A sh (sTile A sh K q_tile scale st.k_dram_block_window) st.m) i
        + pvProduct sh V fv
            (pCompute A scale (sTile A sh K q_tile scale st.k_dram_block_window)
              (mNext A sh (sTile A sh K q_tile scale st.k_dram_block_window) st.m))
            st.v_dram_window i d) ∧
    (fwd_body A sh K V q_tile fv scale n st).v_dram_window
      = (st.v_dram_window.1, st.v_dram_window.2 + vAdvance sh) ∧
    (fwd_body A sh K V q_tile fv scale n st).k_dram_block_window
      = (if st.i_total_loops + 1 < n then
          (st.k_dram_block_window.1 + sh.kN0, st.k_dram_block_window.2)
        else st.k_dram_block_window) ∧
    (st.i_total_loops + 1 < n → KStaged sh K (fwd_body A sh K V q_tile fv scale n st)) := by
  have hS : scoreTile A sh K q_tile scale st
      = sTile A sh K q_tile scale st.k_dram_block_window :=
    funext fun i => funext fun j => scoreTile_eq A sh K q_tile scale st hs hk i j
  have hkv := kv_loop_spec sh V fv
    (pCompute A scale (sTile A sh K q_tile scale st.k_dram_block_window)
      (mNext A sh (sTile A sh K q_tile scale st.k_dram_block_window) st.m))
    (qk_loop sh K q_tile st).lds st.v_dram_window
    (fun i j => st.o_acc i j * rescale A scale st.m
      (mNext A sh (sTile A sh K q_tile scale st.k_dram_block_window) st.m) i) hs
  obtain ⟨hkv1, hkv2⟩ := hkv
  refine ⟨?_, ?_, ?_, ?_, ?_, ?_⟩
  · simp only [fwd_body, hS]
    rfl
  · intro i
    simp only [fwd_body, hS, reduceRange_add_eq_sum]
    rfl
  · intro i d
    rw [← hkv2 i d]
    simp only [fwd_body, hS]
    by_cases hm : st.i_total_loops + 1 < n
    · simp only [if_pos hm]
      rw [Function.update_noteq (Ne.symm hs.tail_free)]
      rfl
    · simp only [if_neg hm]
      rfl
  · rw [← hkv1]
    simp only [fwd_body, hS]
    rfl
  · simp only [fwd_body, move_tile_window, Nat.add_zero]
  · intro hm
    constructor
    · simp only [fwd_body, if_pos hm]
      rw [Function.update_same]
    · simp only [fwd_body, if_pos hm]

/-! ## Forward pipeline: the state after `j` iterations -/

theorem KStaged_init (A : Arith α) (sh : FwdShape) (K : Nat → Nat → α)
    (ko vo : Nat × Nat) (lds : Nat → Nat → Nat → α) :
    KStaged sh K (fwd_init A sh K ko vo lds) := by
  constructor
  · simp only [fwd_init]
    rw [Function.update_same]
  · rfl

theorem pvProduct_scale (sh : FwdShape) (V : Nat → Nat → α) (fv : α → α)
    (p : Nat → Nat → α) (c : Nat → α) (vw : Nat × Nat) (i d : Nat) :
    pvProduct sh V fv (fun a b => c a * p a b) vw i d = pvProduct sh V fv p vw i d * c i := by
  unfold pvProduct
  rw [Finset.sum_mul]
  refine Finset.sum_congr rfl (fun t _ => ?_)
  rw [Finset.sum_mul]
  refine Finset.sum_congr rfl (fun u _ => ?_)
  ring

/-- In the standard mode a multiplicative `exp` gives `WeightMul`. -/
theorem weightMul_std (A : Arith α) (scale : α) (hstd : A.fastExp2 = false)
    (hexp : ∀ a b, A.exp (a + b) = A.exp a * A.exp b) : WeightMul A scale := by
  intro x m0 m1
  simp only [weight, hstd, Bool.false_eq_true, if_false]
  rw [← hexp]
  congr 1
  ring

/-- In the fast mode a multiplicative `exp2` gives `WeightMul`. -/
theorem weightMul_fast (A : Arith α) (scale : α) (hfast : A.fastExp2 = true)
    (hexp2 : ∀ a b, A.exp2 (a + b) = A.exp2 a * A.exp2 b) : WeightMul A scale := by
  intro x m0 m1
  simp only [weight, hfast, if_true]
  rw [← hexp2]
  congr 1
  ring

/-- Over the reals, with `exp` and `exp2 x = 2 ^ x`, both modes have `WeightMul`. -/
theorem weightMul_real (lowest scale : ℝ) (fast : Bool) :
    WeightMul ⟨Real.exp, fun x => (2 : ℝ) ^ x, lowest, fast⟩ scale := by
  cases fast
  · exact weightMul_std _ _ rfl (fun a b => Real.exp_add a b)
  · exact weightMul_fast _ _ rfl (fun a b => Real.rpow_add (by norm_num) a b)

theorem pCompute_rescale (A : Arith α) (scale : α) (s : Nat → Nat → α) (m_old m : Nat → α)
    (hmul : WeightMul A scale) (i j : Nat) :
    rescale A scale m_old m i * pCompute A scale s m_old i j = pCompute A scale s m i j :=
  hmul (s i j) (m_old i) (m i)

/-- The loop state after `j <= max 1 num_total_loop` iterations, in closed form. -/
theorem iterate_spec (A : Arith α) (sh : FwdShape) (K V q_tile : Nat → Nat → α)
    (fv : α → α) (scale : α) (n : Int) (ko vo : Nat × Nat) (lds : Nat → Nat → Nat → α)
    (hs : Staged sh) (hmul : WeightMul A scale) (j : Nat) (hj : (j : Int) ≤ max 1 n) :
    ((fwd_body A sh K V q_tile fv scale n)^[j] (fwd_init A sh K ko vo lds)).i_total_loops
      = j ∧
    ((fwd_body A sh K V q_tile fv scale n)^[j] (fwd_init A sh K ko vo lds)).v_dram_window
      = (vo.1, vo.2 + j * vAdvance sh) ∧
    ((j : Int) < max 1 n →
      ((fwd_body A sh K V q_tile fv scale n)^[j]
          (fwd_init A sh K ko vo lds)).k_dram_block_window = (ko.1 + j * sh.kN0, ko.2) ∧
      KStaged sh K ((fwd_body A sh K V q_tile fv scale n)^[j] (fwd_init A sh K ko vo lds))) ∧
    ((fwd_body A sh K V q_tile fv scale n)^[j] (fwd_init A sh K ko vo lds)).m
      = runMax A sh (sIter A sh K q_tile scale ko) j ∧
    (∀ i, ((fwd_body A sh K V q_tile fv scale n)^[j] (fwd_init A sh K ko vo lds)).l i
      = ∑ t ∈ Finset.range j, ∑ c ∈ Finset.range sh.kN0,
          pCompute A scale (sIter A sh K q_tile scale ko t)
            (runMax A sh (sIter A sh K q_tile scale ko) j) i c) ∧
    (∀ i d, ((fwd_body A sh K V q_tile fv scale n)^[j] (fwd_init A sh K ko vo lds)).o_acc i d
      = ∑ t ∈ Finset.range j,
          pvProduct sh V fv
            (pCompute A scale (sIter A sh K q_tile scale ko t)
              (runMax A sh (sIter A sh K q_tile scale ko) j))
            (vo.1, vo.2 + t * vAdvance sh) i d) := by
  induction j with
  | zero =>
    refine ⟨rfl, ?_, ?_, rfl, ?_, ?_⟩
    · simp [fwd_init]
    · intro _
      refine ⟨?_, KStaged_init A sh K ko vo lds⟩
      simp [fwd_init]
    · intro i; simp [fwd_init]
    · intro i d; simp [fwd_init]
  | succ j ih =>
    obtain ⟨ih1, ih2, ih3, ih4, ih5, ih6⟩ := ih (by omega)
    obtain ⟨ihk, ihs⟩ := ih3 (by omega)
    rw [Function.iterate_succ_apply']
    obtain ⟨b1, b2, b3, b4, b5, b6⟩ := fwd_body_spec A sh K V q_tile fv scale n
      ((fwd_body A sh K V q_tile fv scale n)^[j] (fwd_init A sh K ko vo lds)) hs ihs
    rw [ihk, ih4] at b1 b2 b3
    have hm : mNext A sh (sTile A sh K q_tile scale (ko.1 + j * sh.kN0, ko.2))
        (runMax A sh (sIter A sh K q_tile scale ko) j)
        = runMax A sh (sIter A sh K q_tile scale ko) (j + 1) := rfl
    rw [hm] at b1 b2 b3
    refine ⟨?_, ?_, ?_, b1, ?_, ?_⟩
    · rw [fwd_body_counter, ih1]; push_cast; ring
    · rw [b4, ih2]
      ext
      · rfl
      · simp only; ring
    · intro hlt
      have hmore : ((fwd_body A sh K V q_tile fv scale n)^[j]
          (fwd_init A sh K ko vo lds)).i_total_loops + 1 < n := by
        rw [ih1]; omega
      refine ⟨?_, b6 hmore⟩
      rw [b5, if_pos hmore, ihk]
      ext
      · simp only; ring
      · rfl
    · intro i
      rw [b2 i, ih5 i, Finset.sum_range_succ, Finset.mul_sum]
      congr 1
      refine Finset.sum_congr rfl (fun t _ => ?_)
      rw [Finset.mul_sum]
      refine Finset.sum_congr rfl (fun c _ => ?_)
      exact pCompute_rescale A scale _ _ _ hmul i c
    · intro i d
      rw [b3 i d, ih6 i d, ih2, Finset.sum_range_succ, Finset.sum_mul]
      congr 1
      refine Finset.sum_congr rfl (fun t _ => ?_)
      rw [← pvProduct_scale]
      congr 1
      funext a b
      exact pCompute_rescale A scale _ _ _ hmul a b

/-- The tile returned by `operator()`, in closed form. -/
theorem run_closed_form (A : Arith α) (sh : FwdShape) (Q : Nat → Nat → α) (qo : Nat × Nat)
    (fq : α → α) (K : Nat → Nat → α) (ko : Nat × Nat) (fk : α → α) (V : Nat → Nat → α)
    (vo : Nat × Nat) (fv : α → α) (scale : α) (n nsub : Int) (lds : Nat → Nat → Nat → α)
    (hs : Staged sh) (hmul : WeightMul A scale) (i d : Nat) :
    run A sh Q qo fq K ko fk V vo fv scale n nsub lds i d
      = (∑ t ∈ Finset.range (max 1 n).toNat,
          pvProduct sh V fv
            (pCompute A scale
              (sIter A sh K (tile_elementwise_in fq (load_tile Q qo)) scale ko t)
              (runMax A sh (sIter A sh K (tile_elementwise_in fq (load_tile Q qo)) scale ko)
                (max 1 n).toNat))
            (vo.1, vo.2 + t * vAdvance sh) i d)
        * (1 / ∑ t ∈ Finset.range (max 1 n).toNat, ∑ c ∈ Finset.range sh.kN0,
          pCompute A scale
            (sIter A sh K (tile_elementwise_in fq (load_tile Q qo)) scale ko t)
            (runMax A sh (sIter A sh K (tile_elementwise_in fq (load_tile Q qo)) scale ko)
              (max 1 n).toNat) i c) := by
  have hloop := fwd_loop_iterate A sh K V (tile_elementwise_in fq (load_tile Q qo)) fv scale n
    (n - 1).toNat (fwd_init A sh K ko vo lds) (by simp [fwd_init])
  have hk : (n - 1).toNat + 1 = (max 1 n).toNat := by omega
  rw [hk] at hloop
  obtain ⟨_, _, _, _, h5, h6⟩ := iterate_spec A sh K V
    (tile_elementwise_in fq (load_tile Q qo)) fv scale n ko vo lds hs hmul
    (max 1 n).toNat (by omega)
  simp only [run]
  rw [hloop, h5 i, h6 i d]

theorem Staged_sampleShape : Staged sampleShape := by
  refine ⟨by decide, by decide, ?_, by decide, ?_⟩
  · intro i hi
    have : k0_loops sampleShape = 1 := rfl
    omega
  · intro i _
    rfl

/-- C1, the code at the failing input: `kN0 = kK1 = 1` (so `k1_loops = 1`), two key
tiles, all scores `0`, V rows `1` and `3`. Direct softmax attention gives `2`;
the pipeline multiplies both tiles with the first V sub-tile and returns `1`. -/
theorem fwd_output_at_failing_input :
    runDefault ⟨Real.exp, fun x => (2 : ℝ) ^ x, -(2 ^ 128 - 2 ^ 104), false⟩ sampleShape
        (fun _ _ => 0) (0, 0) (fun _ _ => 0) (0, 0) (fun _ c => if c = 0 then 1 else 3) (0, 0)
        1 2 0 (fun _ _ _ => 0) 0 0 = 1 ∧
    attentionRef Real.exp 1 (fun _ _ => 0) (0, 0) (fun _ _ => 0) (0, 0)
        (fun _ c => if c = 0 then 1 else 3) (0, 0) 1 2 0 0 = 2 := by
  constructor
  · unfold runDefault
    rw [run_closed_form _ _ _ _ _ _ _ _ _ _ _ _ _ _ _ Staged_sampleShape
      (weightMul_real _ _ false)]
    have h1 : k0_loops sampleShape = 1 := rfl
    have h2 : k1_loops sampleShape = 1 := rfl
    have h3 : (max 1 (2 : Int)).toNat = 2 := rfl
    have h4 : sampleShape.kN0 = 1 := rfl
    have h5 : sampleShape.kK0 = 1 := rfl
    have h6 : sampleShape.kK1 = 1 := rfl
    simp only [h3, Finset.sum_range_succ, Finset.sum_range_zero, pvProduct, pCompute, sIter,
      sTile, qkScore, runMax, mNext, rowMax, reduceRange, vAdvance, h1, h2, h4, h5, h6,
      tile_elementwise_in, load_tile]
    norm_num
  · simp only [attentionRef, Finset.sum_range_succ, Finset.sum_range_zero]
    norm_num

/-! ## The streaming update of one query row -/

theorem lowest_le_reduceRange_max (lo : α) (g : Nat → α) (n : Nat) :
    lo ≤ reduceRange max lo g n := by
  induction n with
  | zero => exact le_refl _
  | succ n ih => exact le_trans ih (le_max_left _ _)

theorem reduceRange_max_add (lo : α) (g : Nat → α) (a w : Nat) :
    max (reduceRange max lo g a) (reduceRange max lo (fun j => g (a + j)) w)
      = reduceRange max lo g (a + w) := by
  induction w with
  | zero =>
    exact max_eq_left (lowest_le_reduceRange_max lo g a)
  | succ w ih =>
    show max _ (max _ _) = max (reduceRange max lo g (a + w)) (g (a + w))
    rw [← max_assoc, ih]

/-- The running max is the greatest element among the identity and the elements. -/
theorem reduceRange_max_isGreatest (lo : α) (g : Nat → α) (n : Nat) :
    IsGreatest {x | x = lo ∨ ∃ k, k < n ∧ x = g k} (reduceRange max lo g n) := by
  induction n with
  | zero =>
    constructor
    · exact Or.inl rfl
    · rintro x (hx | ⟨k, hk, _⟩)
      · exact le_of_eq hx
      · exact absurd hk (Nat.not_lt_zero k)
  | succ n ih =>
    obtain ⟨hmem, hub⟩ := ih
    constructor
    · show max (reduceRange max lo g n) (g n) ∈ _
      rcases max_choice (reduceRange max lo g n) (g n) with h | h
      · rw [h]
        rcases hmem with h1 | ⟨k, hk, h1⟩
        · exact Or.inl h1
        · exact Or.inr ⟨k, by omega, h1⟩
      · rw [h]
        exact Or.inr ⟨n, by omega, rfl⟩
    · rintro x (hx | ⟨k, hk, hx⟩)
      · exact le_trans (hub (Or.inl hx)) (le_max_left _ _)
      · rcases Nat.lt_succ_iff_lt_or_eq.1 hk with h | h
        · exact le_trans (hub (Or.inr ⟨k, h, hx⟩)) (le_max_left _ _)
        · rw [hx, h]
          exact le_max_right _ _

theorem rowInv_init (A : Arith α) (scale : α) (s : Nat → α) (v : Nat → Nat → α) :
    RowInv A scale s v 0 (rowInit A) :=
  ⟨rfl, by simp [rowInit], fun d => by simp [rowInit]⟩

theorem rowStep_preserves (A : Arith α) (scale : α) (s : Nat → α) (v : Nat → Nat → α)
    (hmul : WeightMul A scale) (a w : Nat) (st : RowState α) (h : RowInv A scale s v a st) :
    RowInv A scale s v (a + w)
      (rowStep A scale w (fun j => s (a + j)) (fun d j => v d (a + j)) st) := by
  obtain ⟨h1, h2, h3⟩ := h
  have hm : (rowStep A scale w (fun j => s (a + j)) (fun d j => v d (a + j)) st).m
      = reduceRange max A.lowest s (a + w) := by
    simp only [rowStep]
    rw [h1]
    exact reduceRange_max_add A.lowest s a w
  refine ⟨hm, ?_, ?_⟩
  · show weight A scale st.m (max st.m (reduceRange max A.lowest (fun j => s (a + j)) w))
          * st.l
        + reduceRange (fun x y => x + y) 0
            (fun j => weight A scale (s (a + j))
              (max st.m (reduceRange max A.lowest (fun j => s (a + j)) w))) w
      = ∑ k ∈ Finset.range (a + w), weight A scale (s k)
          (max st.m (reduceRange max A.lowest (fun j => s (a + j)) w))
    rw [reduceRange_add_eq_sum, h2, Finset.sum_range_add, Finset.mul_sum]
    congr 1
    exact Finset.sum_congr rfl (fun k _ => hmul (s k) st.m _)
  · intro d
    show st.o_acc d
          * weight A scale st.m (max st.m (reduceRange max A.lowest (fun j => s (a + j)) w))
        + reduceRange (fun x y => x + y) 0
            (fun j => weight A scale (s (a + j))
              (max st.m (reduceRange max A.lowest (fun j => s (a + j)) w)) * v d (a + j)) w
      = ∑ k ∈ Finset.range (a + w), weight A scale (s k)
          (max st.m (reduceRange max A.lowest (fun j => s (a + j)) w)) * v d k
    rw [reduceRange_add_eq_sum, h3 d, Finset.sum_range_add, Finset.sum_mul]
    congr 1
    refine Finset.sum_congr rfl (fun k _ => ?_)
    rw [← hmul (s k) st.m (max st.m (reduceRange max A.lowest (fun j => s (a + j)) w))]
    ring

theorem Staged_sampleShape2 : Staged sampleShape2 := by
  refine ⟨by decide, by decide, ?_, by decide, ?_⟩
  · intro i hi
    have : k0_loops sampleShape2 = 1 := rfl
    omega
  · intro i _
    rfl

/-- The element-function overload never applies `k_element_func`. -/
theorem run_ignores_k_element_func (A : Arith α) (sh : FwdShape) (Q : Nat → Nat → α)
    (qo : Nat × Nat) (fq : α → α) (K : Nat → Nat → α) (ko : Nat × Nat) (fk fk2 : α → α)
    (V : Nat → Nat → α) (vo : Nat × Nat) (fv : α → α) (scale : α) (n nsub : Int)
    (lds : Nat → Nat → Nat → α) :
    run A sh Q qo fq K ko fk V vo fv scale n nsub lds
      = run A sh Q qo fq K ko fk2 V vo fv scale n nsub lds := rfl

/-- C9, the code at the failing input: one tile of two keys, `Q = 1`, K rows `0` and
`1`, V columns `1` and `0`, `k_element_func = fun _ => 0`, the other two element
functions the identity. The plain overload on the transformed inputs (K = 0)
returns `1/2`; the element-function overload leaves K untransformed and returns
`exp(-1) / (exp(-1) + 1)`, which is a different number. -/
theorem k_element_func_at_failing_input :
    run ⟨Real.exp, fun x => (2 : ℝ) ^ x, -(2 ^ 128 - 2 ^ 104), false⟩ sampleShape2
        (fun _ _ => 1) (0, 0) (fun x => x) (fun r _ => if r = 0 then 0 else 1) (0, 0)
        (fun _ => 0) (fun _ c => if c = 0 then 1 else 0) (0, 0) (fun x => x) 1 1 0
        (fun _ _ _ => 0) 0 0
      = Real.exp (-1) / (Real.exp (-1) + 1) ∧
    runDefault ⟨Real.exp, fun x => (2 : ℝ) ^ x, -(2 ^ 128 - 2 ^ 104), false⟩ sampleShape2
        (fun _ _ => 1) (0, 0) (fun r _ => (fun _ => (0 : ℝ)) ((if r = 0 then 0 else 1 : ℝ)))
        (0, 0) (fun _ c => if c = 0 then 1 else 0) (0, 0) 1 1 0 (fun _ _ _ => 0) 0 0
      = 1 / 2 ∧
    Real.exp (-1) / (Real.exp (-1) + 1) ≠ 1 / 2 := by
  have h1 : k0_loops sampleShape2 = 1 := rfl
  have h2 : k1_loops sampleShape2 = 1 := rfl
  have h3 : (max 1 (1 : Int)).toNat = 1 := rfl
  have h4 : sampleShape2.kN0 = 2 := rfl
  have h5 : sampleShape2.kK0 = 1 := rfl
  have h6 : sampleShape2.kK1 = 2 := rfl
  refine ⟨?_, ?_, ?_⟩
  · rw [run_closed_form _ _ _ _ _ _ _ _ _ _ _ _ _ _ _ Staged_sampleShape2
      (weightMul_real _ _ false)]
    simp only [h3, Finset.sum_range_succ, Finset.sum_range_zero, pvProduct, pCompute, sIter,
      sTile, qkScore, runMax, mNext, rowMax, reduceRange, vAdvance, h1, h2, h4, h5, h6,
      tile_elementwise_in, load_tile]
    norm_num
    rfl
  · unfold runDefault
    rw [run_closed_form _ _ _ _ _ _ _ _ _ _ _ _ _ _ _ Staged_sampleShape2
      (weightMul_real _ _ false)]
    simp only [h3, Finset.sum_range_succ, Finset.sum_range_zero, pvProduct, pCompute, sIter,
      sTile, qkScore, runMax, mNext, rowMax, reduceRange, vAdvance, h1, h2, h4, h5, h6,
      tile_elementwise_in, load_tile]
    norm_num
  · intro h
    have hpos : (0 : ℝ) < Real.exp (-1) + 1 := by positivity
    rw [div_eq_iff (ne_of_gt hpos)] at h
    have hlt : Real.exp (-1) < 1 := Real.exp_lt_one_iff.2 (by norm_num)
    linarith

/-- C3, the code at the failing input: `kN0 = kK1 = 1` (so `k1_loops = 1`),
`num_total_loop = 3`, all scores `0`, V rows `1`, `3`, .. . At the start of
iteration 2 the state has `m = 0` and `l = 2` as claimed, but `o_acc = 2`, while
the sum of `exp(s - m) * V_k` over the two keys consumed so far is `4`. -/
theorem loop_state_at_failing_input :
    ((fwd_body ⟨Real.exp, fun x => (2 : ℝ) ^ x, -(2 ^ 128 - 2 ^ 104), false⟩ sampleShape
        (fun _ _ => 0) (fun _ c => if c = 0 then 1 else 3) (fun _ _ => 0) (fun x => x) 1 3)^[2]
      (fwd_init ⟨Real.exp, fun x => (2 : ℝ) ^ x, -(2 ^ 128 - 2 ^ 104), false⟩ sampleShape
        (fun _ _ => 0) (0, 0) (0, 0) (fun _ _ _ => 0))).m 0 = 0 ∧
    ((fwd_body ⟨Real.exp, fun x => (2 : ℝ) ^ x, -(2 ^ 128 - 2 ^ 104), false⟩ sampleShape
        (fun _ _ => 0) (fun _ c => if c = 0 then 1 else 3) (fun _ _ => 0) (fun x => x) 1 3)^[2]
      (fwd_init ⟨Real.exp, fun x => (2 : ℝ) ^ x, -(2 ^ 128 - 2 ^ 104), false⟩ sampleShape
        (fun _ _ => 0) (0, 0) (0, 0) (fun _ _ _ => 0))).l 0 = 2 ∧
    ((fwd_body ⟨Real.exp, fun x => (2 : ℝ) ^ x, -(2 ^ 128 - 2 ^ 104), false⟩ sampleShape
        (fun _ _ => 0) (fun _ c => if c = 0 then 1 else 3) (fun _ _ => 0) (fun x => x) 1 3)^[2]
      (fwd_init ⟨Real.exp, fun x => (2 : ℝ) ^ x, -(2 ^ 128 - 2 ^ 104), false⟩ sampleShape
        (fun _ _ => 0) (0, 0) (0, 0) (fun _ _ _ => 0))).o_acc 0 0 = 2 ∧
    (∑ k ∈ Finset.range 2, Real.exp (0 - 0) * (if k = 0 then 1 else 3 : ℝ)) = 4 := by
  have h1 : k0_loops sampleShape = 1 := rfl
  have h2 : k1_loops sampleShape = 1 := rfl
  have h4 : sampleShape.kN0 = 1 := rfl
  have h5 : sampleShape.kK0 = 1 := rfl
  have h6 : sampleShape.kK1 = 1 := rfl
  obtain ⟨_, _, _, hm, hl, ho⟩ := iterate_spec
    ⟨Real.exp, fun x => (2 : ℝ) ^ x, -(2 ^ 128 - 2 ^ 104), false⟩ sampleShape
    (fun _ _ => 0) (fun _ c => if c = 0 then 1 else 3) (fun _ _ => 0) (fun x => x) 1 3
    (0, 0) (0, 0) (fun _ _ _ => 0) Staged_sampleShape (weightMul_real _ _ false) 2
    (by decide)
  refine ⟨?_, ?_, ?_, ?_⟩
  · rw [hm]
    simp only [Finset.sum_range_succ, Finset.sum_range_zero, sIter,
      sTile, qkScore, runMax, mNext, rowMax, reduceRange, h1, h4, h5]
    norm_num
  · rw [hl 0]
    simp only [Finset.sum_range_succ, Finset.sum_range_zero, pCompute, sIter,
      sTile, qkScore, runMax, mNext, rowMax, reduceRange, h1, h4, h5]
    norm_num
  · rw [ho 0 0]
    simp only [Finset.sum_range_succ, Finset.sum_range_zero, pvProduct, pCompute, sIter,
      sTile, qkScore, runMax, mNext, rowMax, reduceRange, vAdvance, h1, h2, h4, h5, h6]
    norm_num
  · simp only [Finset.sum_range_succ, Finset.sum_range_zero]
    norm_num

/-! ## Forward pipeline: rows of the loop state and the streaming update -/

theorem sum_blocks (f : Nat → α) (a b : Nat) :
    ∑ t ∈ Finset.range a, ∑ c ∈ Finset.range b, f (t * b + c)
      = ∑ k ∈ Finset.range (a * b), f k := by
  induction a with
  | zero => simp
  | succ a ih =>
    rw [Finset.sum_range_succ, ih, Nat.succ_mul, Finset.sum_range_add]

theorem sTile_shift (A : Arith α) (sh : FwdShape) (K q_tile : Nat → Nat → α) (scale : α)
    (ko : Nat × Nat) (a i c : Nat) :
    sTile A sh K q_tile scale (ko.1 + a, ko.2) i c = sTile A sh K q_tile scale ko i (a + c) := by
  simp only [sTile, qkScore, Nat.add_assoc]

/-- Row `i` of the state after one iteration is the streaming update `rowStep`
applied to row `i` of the state before, with the scores of the current key tile
and the V columns under the V load window (both modes). -/
theorem fwd_body_row (A : Arith α) (sh : FwdShape) (K V q_tile : Nat → Nat → α)
    (fv : α → α) (scale : α) (n : Int) (st : FwdState α) (hs : Staged sh)
    (hk : KStaged sh K st) (hdiv : k1_loops sh * sh.kK1 = sh.kN0) (i : Nat) :
    rowOf (fwd_body A sh K V q_tile fv scale n st) i
      = rowStep A scale sh.kN0
          (fun c => sTile A sh K q_tile scale st.k_dram_block_window i c)
          (fun d c => fv (V (st.v_dram_window.1 + d) (st.v_dram_window.2 + c)))
          (rowOf st i) := by
  obtain ⟨b1, b2, b3, _, _, _⟩ := fwd_body_spec A sh K V q_tile fv scale n st hs hk
  have hm : (fwd_body A sh K V q_tile fv scale n st).m i
      = max (st.m i) (reduceRange max A.lowest
          (fun c => sTile A sh K q_tile scale st.k_dram_block_window i c) sh.kN0) := by
    rw [b1]; rfl
  have hl := b2 i
  have ho : ∀ d, (fwd_body A sh K V q_tile fv scale n st).o_acc i d = _ := fun d => b3 i d
  simp only [rowOf, rowStep]
  congr 1
  · rw [hl, reduceRange_add_eq_sum]
    rfl
  · funext d
    rw [ho d, reduceRange_add_eq_sum]
    congr 1
    unfold pvProduct
    rw [sum_blocks (fun k => pCompute A scale
      (sTile A sh K q_tile scale st.k_dram_block_window)
      (mNext A sh (sTile A sh K q_tile scale st.k_dram_block_window) st.m) i k
        * fv (V (st.v_dram_window.1 + d) (st.v_dram_window.2 + k))), hdiv]
    rfl

/-- The loop invariant of the streaming softmax, for shapes with `k1_loops >= 2` and
`kK1` dividing `kN0`: after `j` iterations row `i` holds the running max over the
`j * kN0` keys consumed so far, `l` the sum of `exp(s - m)` and `o_acc` the sum of
`exp(s - m) * V_k` over those keys. -/
theorem loop_invariant (A : Arith α) (sh : FwdShape) (K V q_tile : Nat → Nat → α)
    (fv : α → α) (scale : α) (n : Int) (ko vo : Nat × Nat) (lds : Nat → Nat → Nat → α)
    (hs : Staged sh) (hk1 : 1 < k1_loops sh) (hdiv : k1_loops sh * sh.kK1 = sh.kN0)
    (hmul : WeightMul A scale) (i j : Nat) (hj : (j : Int) ≤ max 1 n) :
    RowInv A scale (fun k => sTile A sh K q_tile scale ko i k)
      (fun d k => fv (V (vo.1 + d) (vo.2 + k))) (j * sh.kN0)
      (rowOf ((fwd_body A sh K V q_tile fv scale n)^[j] (fwd_init A sh K ko vo lds)) i) := by
  induction j with
  | zero =>
    rw [Nat.zero_mul]
    exact rowInv_init A scale _ _
  | succ j ih =>
    have ih0 := ih (by omega)
    obtain ⟨_, h2, h3, _, _, _⟩ := iterate_spec A sh K V q_tile fv scale n ko vo lds hs hmul
      j (by omega)
    obtain ⟨h3a, h3b⟩ := h3 (by omega)
    rw [Function.iterate_succ_apply',
      fwd_body_row A sh K V q_tile fv scale n _ hs h3b hdiv i, h3a, h2]
    have hadv : vAdvance sh = sh.kN0 := by
      unfold vAdvance
      rw [if_pos hk1, hdiv]
    have hstep := rowStep_preserves A scale (fun k => sTile A sh K q_tile scale ko i k)
      (fun d k => fv (V (vo.1 + d) (vo.2 + k))) hmul (j * sh.kN0) sh.kN0 _ ih0
    have hidx : (j + 1) * sh.kN0 = j * sh.kN0 + sh.kN0 := by ring
    rw [hidx]
    simpa only [sTile_shift, hadv, Nat.add_assoc] using hstep

/-! ## Forward pipeline: comparison with direct softmax attention -/

theorem Staged_sampleShape3 : Staged sampleShape3 := by
  refine ⟨by decide, by decide, ?_, by decide, ?_⟩
  · intro i hi
    have : k0_loops sampleShape3 = 1 := rfl
    omega
  · intro i _
    rfl

/-- For shapes whose P*V product is split into at least two sub-GEMMs
(`k1_loops >= 2`), with `kK0` dividing `kK0BlockLength` and `kK1` dividing `kN0`,
the tile returned by the plain overload of `operator()` in exact real arithmetic
(standard mode) is direct softmax attention over the `num_total_loop * kN0` keys. -/
theorem fwd_matches_attention (lowest : ℝ) (e2 : ℝ → ℝ) (sh : FwdShape)
    (Q : Nat → Nat → ℝ) (qo : Nat × Nat) (K : Nat → Nat → ℝ) (ko : Nat × Nat)
    (V : Nat → Nat → ℝ) (vo : Nat × Nat) (scale : ℝ) (n nsub : Int)
    (lds : Nat → Nat → Nat → ℝ) (hs : Staged sh) (hk1 : 1 < k1_loops sh)
    (hdivV : k1_loops sh * sh.kK1 = sh.kN0)
    (hdivK : k0_loops sh * sh.kK0 = sh.kK0BlockLength) (hn : 1 ≤ n) (i d : Nat) :
    runDefault ⟨Real.exp, e2, lowest, false⟩ sh Q qo K ko V vo scale n nsub lds i d
      = attentionRef Real.exp scale Q qo K ko V vo sh.kK0BlockLength
          (n.toNat * sh.kN0) i d := by
  have hloop := fwd_loop_iterate ⟨Real.exp, e2, lowest, false⟩ sh K V
    (tile_elementwise_in (fun x => x) (load_tile Q qo)) (fun x => x) scale n
    (n - 1).toNat (fwd_init ⟨Real.exp, e2, lowest, false⟩ sh K ko vo lds) (by simp [fwd_init])
  have hk : (n - 1).toNat + 1 = n.toNat := by omega
  rw [hk] at hloop
  obtain ⟨_, hl, ho⟩ := loop_invariant ⟨Real.exp, e2, lowest, false⟩ sh K V
    (tile_elementwise_in (fun x => x) (load_tile Q qo)) (fun x => x) scale n ko vo lds hs hk1
    hdivV (weightMul_std _ _ rfl (fun a b => Real.exp_add a b)) i n.toNat (by omega)
  have hscore : ∀ k, sTile ⟨Real.exp, e2, lowest, false⟩ sh K
      (tile_elementwise_in (fun x => x) (load_tile Q qo)) scale ko i k
      = scale * ∑ c ∈ Finset.range sh.kK0BlockLength,
          Q (qo.1 + i) (qo.2 + c) * K (ko.1 + k) (ko.2 + c) := by
    intro k
    simp only [sTile, qkScore, Bool.false_eq_true, if_false]
    rw [sum_blocks (fun c => tile_elementwise_in (fun x => x) (load_tile Q qo) i c
      * K (ko.1 + k) (ko.2 + c)), hdivK, mul_comm]
    rfl
  simp only [rowOf] at hl ho
  simp only [runDefault, run]
  rw [hloop, hl, ho d]
  simp only [weight, Bool.false_eq_true, if_false, hscore, attentionRef, sub_eq_add_neg,
    Real.exp_add]
  rw [one_div, ← div_eq_mul_inv]
  have hfac : ∀ f : Nat → ℝ, ∀ c : ℝ,
      ∑ k ∈ Finset.range (n.toNat * sh.kN0), f k * c
        = c * ∑ k ∈ Finset.range (n.toNat * sh.kN0), f k := by
    intro f c
    rw [Finset.mul_sum]
    exact Finset.sum_congr rfl (fun k _ => mul_comm _ _)
  rw [hfac]
  have hnum : ∀ c : ℝ, ∑ k ∈ Finset.range (n.toNat * sh.kN0),
      Real.exp (scale * ∑ c ∈ Finset.range sh.kK0BlockLength,
        Q (qo.1 + i) (qo.2 + c) * K (ko.1 + k) (ko.2 + c)) * c * V (vo.1 + d) (vo.2 + k)
      = c * ∑ k ∈ Finset.range (n.toNat * sh.kN0),
          Real.exp (scale * ∑ c ∈ Finset.range sh.kK0BlockLength,
            Q (qo.1 + i) (qo.2 + c) * K (ko.1 + k) (ko.2 + c)) * V (vo.1 + d) (vo.2 + k) := by
    intro c
    rw [Finset.mul_sum]
    exact Finset.sum_congr rfl (fun k _ => by ring)
  rw [hnum]
  exact mul_div_mul_left _ _ (ne_of_gt (Real.exp_pos _))

/-- A sample on which `fwd_matches_attention` applies: two key tiles of two keys. -/
theorem fwd_matches_attention_sample :
    runDefault ⟨Real.exp, fun x => (2 : ℝ) ^ x, -(2 ^ 128 - 2 ^ 104), false⟩ sampleShape3
        (fun _ _ => 1) (0, 0) (fun r _ => (r : ℝ)) (0, 0) (fun _ c => (c : ℝ)) (0, 0)
        (1 / 8) 2 0 (fun _ _ _ => 0) 0 0
      = attentionRef Real.exp (1 / 8) (fun _ _ => 1) (0, 0) (fun r _ => (r : ℝ)) (0, 0)
          (fun _ c => (c : ℝ)) (0, 0) sampleShape3.kK0BlockLength
          ((2 : Int).toNat * sampleShape3.kN0) 0 0 :=
  fwd_matches_attention _ _ sampleShape3 _ _ _ _ _ _ _ 2 0 _ Staged_sampleShape3
    (by decide) (by decide) (by decide) (by decide) 0 0

end Fwd

/-! ## The grouped-convolution example: tolerances -/

namespace ConvScale

/-- C14: the tolerance table. `get_rtol` and `get_atol` both return 1e-3 for `float`
and 5e-2 for `ck::bhalf_t`; for `double` both 1e-6, for `ck::half_t` both 1e-3, for
`int32_t` and `int8_t` both 1e-1, for `ck::f8_t` rtol 1e-1 and atol 16.1, for
`ck::bf8_t` rtol 1.5e-1 and atol 8192.1, and for any other type both 1e-3. -/
theorem tolerance_table :
    (get_rtol .float = 1 / 1000 ∧ get_atol .float = 1 / 1000) ∧
    (get_rtol .bhalf_t = 5 / 100 ∧ get_atol .bhalf_t = 5 / 100) ∧
    (get_rtol .double = 1 / 1000000 ∧ get_atol .double = 1 / 1000000) ∧
    (get_rtol .half_t = 1 / 1000 ∧ get_atol .half_t = 1 / 1000) ∧
    (get_rtol .int32_t = 1 / 10 ∧ get_atol .int32_t = 1 / 10) ∧
    (get_rtol .int8_t = 1 / 10 ∧ get_atol .int8_t = 1 / 10) ∧
    (get_rtol .f8_t = 1 / 10 ∧ get_atol .f8_t = 161 / 10) ∧
    (get_rtol .bf8_t = 15 / 100 ∧ get_atol .bf8_t = 81921 / 10) ∧
    (get_rtol .other = 1 / 1000 ∧ get_atol .other = 1 / 1000) := by
  simp only [get_rtol, get_atol]
  norm_num

/-- C15: tolerance ordering. For `T` one of `float`, `double` and `U` one of `ck::f8_t`,
`ck::bf8_t`, `int8_t`, `int32_t`, both tolerances of `T` are strictly below those
of `U`. -/
theorem tolerance_ordering (T U : DataType) (hT : T = .float ∨ T = .double)
    (hU : U = .f8_t ∨ U = .bf8_t ∨ U = .int8_t ∨ U = .int32_t) :
    get_rtol T < get_rtol U ∧ get_atol T < get_atol U := by
  rcases hT with h | h <;> rcases hU with g | g | g | g <;> subst h <;> subst g <;>
    simp only [get_rtol, get_atol] <;> norm_num

/-- Witness for C15: `double` against `ck::bf8_t`. -/
theorem tolerance_ordering_witness :
    get_rtol .double < get_rtol .bf8_t ∧ get_atol .double < get_atol .bf8_t :=
  tolerance_ordering .double .bf8_t (Or.inr rfl) (Or.inr (Or.inl rfl))

/-! ## The grouped-convolution example: the unsupported-argument error -/

/-- C13: `run_grouped_conv_fwd` throws (`std::runtime_error`) if and only if
`IsSupportedArgument` returns false for the constructed argument; in that case
the invoker's `Run` is never called, and when the argument is supported it is
called exactly once. -/
theorem unsupported_argument_error (do_verification supported check : Bool) :
    ((∃ msg, (run_grouped_conv_fwd do_verification supported check).result
        = Except.error msg) ↔ supported = false) ∧
    (supported = false →
      (run_grouped_conv_fwd do_verification supported check).events.count
        HostEvent.invokerRun = 0) ∧
    (supported = true →
      (run_grouped_conv_fwd do_verification supported check).events.count
        HostEvent.invokerRun = 1) ∧
    (supported = true →
      (run_grouped_conv_fwd do_verification supported check).events.take 4
        = [HostEvent.makeInvoker, HostEvent.makeArgument, HostEvent.isSupportedArgument,
            HostEvent.invokerRun]) := by
  cases do_verification <;> cases supported <;> cases check <;>
    simp [run_grouped_conv_fwd]

end ConvScale

/-! ## The grouped-convolution example: `GetFlops` -/

namespace ConvScale

theorem toSizeT_cast (x : Int) : ((toSizeT x : Nat) : Int) = x % 2 ^ 64 := by
  unfold toSizeT
  exact Int.toNat_of_nonneg (Int.emod_nonneg x (by norm_num))

theorem mulSizeT_cast (a b : Nat) : ((mulSizeT a b : Nat) : Int) = ((a : Int) * b) % 2 ^ 64 := by
  unfold mulSizeT
  push_cast
  rfl

theorem addSizeT_cast (a b : Nat) : ((addSizeT a b : Nat) : Int) = ((a : Int) + b) % 2 ^ 64 := by
  unfold addSizeT
  push_cast
  rfl

theorem accumulate_fold_modEq (xs : List Int) :
    ∀ acc : Nat, ((xs.foldl (fun acc x => mulSizeT acc (toSizeT x)) acc : Nat) : Int)
      ≡ (acc : Int) * xs.prod [ZMOD 2 ^ 64] := by
  induction xs with
  | nil => intro acc; simp [Int.ModEq]
  | cons x xs ih =>
    intro acc
    simp only [List.foldl_cons, List.prod_cons]
    refine (ih _).trans ?_
    rw [mulSizeT_cast, toSizeT_cast, ← mul_assoc]
    exact ((Int.mod_modEq _ _).trans ((Int.ModEq.refl _).mul (Int.mod_modEq _ _))).mul_right _

theorem accumulateMul_modEq (xs : List Int) :
    ((accumulateMul xs : Nat) : Int) ≡ xs.prod [ZMOD 2 ^ 64] := by
  have h := accumulate_fold_modEq xs 1
  simpa [accumulateMul] using h

theorem wrapInt32_of_range (x : Int) (h0 : 0 ≤ x) (h1 : x < 2 ^ 31) : wrapInt32 x = x := by
  unfold wrapInt32
  rw [Int.emod_eq_of_lt (by omega) (by omega)]
  omega

/-- Without overflow of the three-factor `index_t` product, and with the described
value below `2^64`, `GetFlops` returns the described value. -/
theorem GetFlops_eq_spec (nd : Nat) (output_lengths weights_lengths : List Int)
    (ds_size : Nat)
    (hGN : 0 ≤ weights_lengths.getD 0 0 * output_lengths.getD 1 0 ∧
      weights_lengths.getD 0 0 * output_lengths.getD 1 0 < 2 ^ 31)
    (hGNC : 0 ≤ weights_lengths.getD 0 0 * output_lengths.getD 1 0
        * weights_lengths.getD 2 0 ∧
      weights_lengths.getD 0 0 * output_lengths.getD 1 0 * weights_lengths.getD 2 0 < 2 ^ 31)
    (hfit : 0 ≤ flopsSpec nd output_lengths weights_lengths ds_size ∧
      flopsSpec nd output_lengths weights_lengths ds_size < 2 ^ 64) :
    ((GetFlops nd output_lengths weights_lengths ds_size : Nat) : Int)
      = flopsSpec nd output_lengths weights_lengths ds_size := by
  have hmod : ((GetFlops nd output_lengths weights_lengths ds_size : Nat) : Int)
      ≡ flopsSpec nd output_lengths weights_lengths ds_size [ZMOD 2 ^ 64] := by
    simp only [GetFlops, flopsSpec]
    rw [wrapInt32_of_range _ hGN.1 hGN.2, wrapInt32_of_range _ hGNC.1 hGNC.2]
    rw [mulSizeT_cast]
    refine (Int.mod_modEq _ _).trans ?_
    refine Int.ModEq.mul ?_ ?_
    · rw [mulSizeT_cast, toSizeT_cast]
      refine (Int.mod_modEq _ _).trans ?_
      exact (Int.mod_modEq _ _).mul (accumulateMul_modEq _)
    · rw [addSizeT_cast]
      refine (Int.mod_modEq _ _).trans ?_
      refine Int.ModEq.add ?_ (Int.ModEq.refl _)
      rw [mulSizeT_cast, mulSizeT_cast, toSizeT_cast]
      refine (Int.mod_modEq _ _).trans ?_
      refine Int.ModEq.mul ?_ (accumulateMul_modEq _)
      refine (Int.mod_modEq _ _).trans ?_
      exact (Int.ModEq.refl _).mul (Int.mod_modEq _ _)
  have h1 : ((GetFlops nd output_lengths weights_lengths ds_size : Nat) : Int) % 2 ^ 64
      = ((GetFlops nd output_lengths weights_lengths ds_size : Nat) : Int) := by
    apply Int.emod_eq_of_lt (by positivity)
    have : GetFlops nd output_lengths weights_lengths ds_size < 2 ^ 64 := by
      unfold GetFlops mulSizeT
      exact Nat.mod_lt _ (by norm_num)
    exact_mod_cast this
  have h2 := Int.emod_eq_of_lt hfit.1 hfit.2
  rw [← h1, ← h2]
  exact hmod

/-- C16, the code at the failing input: one spatial dimension, `G = 1`, `N = 65536`,
`C = 65536`, `K = 1`, output and filter spatial length `1`, `ds_size = 3`. The
described value `G*N*C*1*(2*K*1 + 3)` is `5 * 2^32`, far below `2^64`; the 32-bit
product `G*N*C` has already wrapped to `0`, and `GetFlops` returns `0`. -/
theorem GetFlops_at_failing_input :
    GetFlops 3 [1, 65536, 1, 1] [1, 1, 65536, 1] 3 = 0 ∧
    flopsSpec 3 [1, 65536, 1, 1] [1, 1, 65536, 1] 3 = 21474836480 ∧
    (21474836480 : Int) < 2 ^ 64 := by
  refine ⟨by decide, by decide, by norm_num⟩

/-- A sample without overflow: `G = 2`, `N = 4`, `K = 8`, `C = 16`, output `5 x 5`,
filter `3 x 3`, three scale factors. -/
theorem GetFlops_eq_spec_sample :
    ((GetFlops 3 [2, 4, 8, 5, 5] [2, 8, 16, 3, 3] 3 : Nat) : Int)
      = flopsSpec 3 [2, 4, 8, 5, 5] [2, 8, 16, 3, 3] 3 :=
  GetFlops_eq_spec 3 _ _ 3 (by decide) (by decide) (by decide)

end ConvScale

/-! ## Forward pipeline: the static assertions -/

namespace Fwd

/-- C11 (amended): a call is accepted exactly when the three element types match and
`kM0`, `kN0`, `kK0`, `kN1`, `kK1` equal the first extent of the Q window, both
extents of the K window and both extents of the V window; the second extent of
the Q window is not looked at. -/
theorem static_assert_accepts {T : Type} [DecidableEq T] (QDataType KDataType VDataType : T)
    (sh : FwdShape) (q k v : WindowType T) :
    (static_assert_ok QDataType KDataType VDataType sh q k v = true ↔
      (QDataType = q.dataType ∧ KDataType = k.dataType ∧ VDataType = v.dataType) ∧
      sh.kM0 = q.lengths.1 ∧ sh.kN0 = k.lengths.1 ∧ sh.kK0 = k.lengths.2 ∧
      sh.kN1 = v.lengths.1 ∧ sh.kK1 = v.lengths.2) ∧
    (∀ x : Nat, static_assert_ok QDataType KDataType VDataType sh
        { dataType := q.dataType, lengths := (q.lengths.1, x) } k v
      = static_assert_ok QDataType KDataType VDataType sh q k v) := by
  constructor
  · simp only [static_assert_ok, Bool.and_eq_true, decide_eq_true_eq]
    tauto
  · intro x
    rfl

/-- C11, counterexample: with the tile constants all `1`, a Q window of extents
`1 x 7` (second extent different from `kK0` and from `kK0BlockLength`) passes
the static assertions. -/
theorem static_assert_misses_q_extent :
    static_assert_ok 0 0 0 sampleShape
      { dataType := (0 : Nat), lengths := (1, 7) }
      { dataType := 0, lengths := (1, 1) } { dataType := 0, lengths := (1, 1) } = true ∧
    (7 : Nat) ≠ sampleShape.kK0 ∧ (7 : Nat) ≠ sampleShape.kK0BlockLength := by
  decide

end Fwd

/-! ## Forward pipeline: the LDS access trace in closed form -/

namespace Fwd

theorem trace_body_counter (sh : FwdShape) (n : Int) (ts : TraceState) :
    (trace_body sh n ts).i_total_loops = ts.i_total_loops + 1 := rfl

theorem trace_loop_unfold (sh : FwdShape) (n : Int) (ts : TraceState) :
    trace_loop sh n ts
      = if ts.i_total_loops + 1 < n then trace_loop sh n (trace_body sh n ts)
        else trace_body sh n ts := by
  rw [trace_loop, trace_body_counter]

theorem trace_loop_iterate (sh : FwdShape) (n : Int) (k : Nat) :
    ∀ ts : TraceState, (n - ts.i_total_loops - 1).toNat = k →
      trace_loop sh n ts = (trace_body sh n)^[k + 1] ts := by
  induction k with
  | zero =>
    intro ts hk
    rw [trace_loop_unfold, if_neg (by omega)]
    rfl
  | succ k ih =>
    intro ts hk
    rw [trace_loop_unfold, if_pos (by omega), ih _ (by rw [trace_body_counter]; omega)]
    rfl

/-- STAGE 1 of the trace after `n` passes. -/
theorem qk_trace_fold (sh : FwdShape) (B : Nat × Nat) (j : Nat) (E : List LdsEvent)
    (n : Nat) (hn : n ≤ k0_loops sh - 1) :
    (List.range n).foldl (qk_step_trace sh j) ⟨(B.1, B.2 + sh.kK0), E⟩
      = ⟨(B.1, B.2 + (n + 1) * sh.kK0), E ++ stage1Events sh B j n⟩ := by
  induction n with
  | zero => simp [stage1Events]
  | succ n ih =>
    rw [foldl_range_succ, ih (by omega)]
    simp only [qk_step_trace, stage1Events]
    rw [if_pos (by omega)]
    simp only [move_tile_window, List.append_assoc, Nat.add_zero]
    congr 2
    ring

/-- STAGE 3 of the trace after `n` passes. -/
theorem kv_trace_fold (sh : FwdShape) (W : Nat × Nat) (j : Nat) (E : List LdsEvent)
    (n : Nat) (hn : n ≤ k1_loops sh - 1) :
    ((List.range n).foldl (kv_step_trace sh j)
        ⟨(W.1, W.2 + sh.kK1), (W.1, W.2 + sh.kK1), E⟩).v_dram_window
      = (W.1, W.2 + (n + 1) * sh.kK1) ∧
    ((List.range n).foldl (kv_step_trace sh j)
        ⟨(W.1, W.2 + sh.kK1), (W.1, W.2 + sh.kK1), E⟩).events
      = E ++ stage3Events sh W j n ∧
    (n = 0 → ((List.range n).foldl (kv_step_trace sh j)
        ⟨(W.1, W.2 + sh.kK1), (W.1, W.2 + sh.kK1), E⟩).v_buf = (W.1, W.2 + sh.kK1)) := by
  induction n with
  | zero => simp [stage3Events]
  | succ n ih =>
    obtain ⟨ih1, ih2, ih3⟩ := ih (by omega)
    rw [foldl_range_succ]
    have hbuf : (if n ≠ 0 ∧ n < k1_loops sh - 1 then
          ((List.range n).foldl (kv_step_trace sh j)
            ⟨(W.1, W.2 + sh.kK1), (W.1, W.2 + sh.kK1), E⟩).v_dram_window
        else ((List.range n).foldl (kv_step_trace sh j)
            ⟨(W.1, W.2 + sh.kK1), (W.1, W.2 + sh.kK1), E⟩).v_buf)
        = (W.1, W.2 + (n + 1) * sh.kK1) := by
      by_cases h0 : n = 0
      · rw [if_neg (fun hh => hh.1 h0), ih3 h0, h0]
        simp
      · rw [if_pos ⟨h0, by omega⟩, ih1]
    refine ⟨?_, ?_, ?_⟩
    · simp only [kv_step_trace]
      rw [if_pos (by omega), ih1]
      simp only [move_tile_window, Nat.add_zero]
      congr 1
      ring
    · simp only [kv_step_trace]
      rw [hbuf, ih2]
      simp only [stage3Events, List.append_assoc]
    · intro h; omega

/-- One iteration of the trace, in closed form. -/
theorem trace_body_spec (sh : FwdShape) (n : Int) (ts : TraceState) (B W : Nat × Nat)
    (j : Nat) (hB : ts.k_dram_block_window = B) (hk : ts.k_dram_window = (B.1, B.2 + sh.kK0))
    (hW : ts.v_dram_window = W) (hj : ts.i_total_loops = (j : Int)) :
    (trace_body sh n ts).events
      = ts.events ++ iterEvents sh B W j (decide ((j : Int) + 1 < n)) ∧
    (trace_body sh n ts).v_dram_window = (W.1, W.2 + vAdvance sh) ∧
    ((j : Int) + 1 < n →
      (trace_body sh n ts).k_dram_block_window = (B.1 + sh.kN0, B.2) ∧
      (trace_body sh n ts).k_dram_window = (B.1 + sh.kN0, B.2 + sh.kK0)) := by
  have hqk : (if k0_loops sh > 1 then
        (List.range (k0_loops sh - 1)).foldl (qk_step_trace sh j)
          ⟨(B.1, B.2 + sh.kK0), ts.events⟩
      else ⟨(B.1, B.2 + sh.kK0), ts.events⟩)
      = (⟨(B.1, B.2 + (k0_loops sh - 1 + 1) * sh.kK0),
          ts.events ++ stage1Events sh B j (k0_loops sh - 1)⟩ : QKTrace) := by
    by_cases h : k0_loops sh > 1
    · rw [if_pos h]
      exact qk_trace_fold sh B j ts.events _ (le_refl _)
    · rw [if_neg h]
      have h0 : k0_loops sh - 1 = 0 := by omega
      simp [h0, stage1Events]
  have hkv : ∀ E : List LdsEvent,
      ((if k1_loops sh > 1 then
        (List.range (k1_loops sh - 1)).foldl (kv_step_trace sh j)
          ⟨if k1_loops sh > 1 then move_tile_window W (0, sh.kK1) else W,
            if k1_loops sh > 1 then
              (if k1_loops sh > 1 then move_tile_window W (0, sh.kK1) else W) else W, E⟩
      else ⟨if k1_loops sh > 1 then move_tile_window W (0, sh.kK1) else W,
            if k1_loops sh > 1 then
              (if k1_loops sh > 1 then move_tile_window W (0, sh.kK1) else W) else W,
              E⟩ : KVTrace).v_dram_window = (W.1, W.2 + vAdvance sh)) ∧
      ((if k1_loops sh > 1 then
        (List.range (k1_loops sh - 1)).foldl (kv_step_trace sh j)
          ⟨if k1_loops sh > 1 then move_tile_window W (0, sh.kK1) else W,
            if k1_loops sh > 1 then
              (if k1_loops sh > 1 then move_tile_window W (0, sh.kK1) else W) else W, E⟩
      else ⟨if k1_loops sh > 1 then move_tile_window W (0, sh.kK1) else W,
            if k1_loops sh > 1 then
              (if k1_loops sh > 1 then move_tile_window W (0, sh.kK1) else W) else W,
              E⟩ : KVTrace).events = E ++ stage3Events sh W j (k1_loops sh - 1)) := by
    intro E
    by_cases h : k1_loops sh > 1
    · simp only [if_pos h]
      have hm : move_tile_window W (0, sh.kK1) = (W.1, W.2 + sh.kK1) := by
        simp [move_tile_window]
      rw [hm]
      obtain ⟨h1, h2, _⟩ := kv_trace_fold sh W j E (k1_loops sh - 1) (le_refl _)
      refine ⟨?_, h2⟩
      rw [h1]
      unfold vAdvance
      rw [if_pos h]
      have : k1_loops sh - 1 + 1 = k1_loops sh := by omega
      rw [this]
    · simp only [if_neg h]
      have h0 : k1_loops sh - 1 = 0 := by omega
      refine ⟨?_, ?_⟩
      · unfold vAdvance
        rw [if_neg h]
        rfl
      · simp [h0, stage3Events]
  have htile : ts.i_total_loops.toNat = j := by rw [hj]; simp
  have htile1 : (ts.i_total_loops + 1).toNat = j + 1 := by rw [hj]; omega
  refine ⟨?_, ?_, ?_⟩
  · simp only [trace_body, htile, htile1, hk, hW, hB, hqk]
    rw [(hkv _).2]
    by_cases hm : (j : Int) + 1 < n
    · simp only [hj, hm, if_true, decide_True, iterEvents, move_tile_window, Nat.add_zero,
        List.append_assoc]
    · simp only [hj, hm, if_false, decide_False, iterEvents, List.append_assoc,
        List.nil_append, Bool.false_eq_true]
  · simp only [trace_body, htile, hk, hW, hqk]
    exact (hkv _).1
  · intro hm
    simp only [trace_body, hj, hm, if_true, hB, move_tile_window, Nat.add_zero, and_self]

/-- The trace state after `j <= max 1 num_total_loop` iterations. -/
theorem trace_iterate_spec (sh : FwdShape) (n : Int) (ko vo : Nat × Nat) (j : Nat)
    (hj : (j : Int) ≤ max 1 n) :
    ((trace_body sh n)^[j] (trace_init sh ko vo)).i_total_loops = j ∧
    ((trace_body sh n)^[j] (trace_init sh ko vo)).events = traceUpTo sh ko vo n j ∧
    ((trace_body sh n)^[j] (trace_init sh ko vo)).v_dram_window
      = (vo.1, vo.2 + j * vAdvance sh) ∧
    ((j : Int) < max 1 n →
      ((trace_body sh n)^[j] (trace_init sh ko vo)).k_dram_block_window
        = (ko.1 + j * sh.kN0, ko.2) ∧
      ((trace_body sh n)^[j] (trace_init sh ko vo)).k_dram_window
        = (ko.1 + j * sh.kN0, ko.2 + sh.kK0)) := by
  induction j with
  | zero =>
    refine ⟨rfl, rfl, ?_, ?_⟩
    · simp [trace_init]
    · intro _
      simp [trace_init, move_tile_window]
  | succ j ih =>
    obtain ⟨ih1, ih2, ih3, ih4⟩ := ih (by omega)
    obtain ⟨ih4a, ih4b⟩ := ih4 (by omega)
    rw [Function.iterate_succ_apply']
    obtain ⟨b1, b2, b3⟩ := trace_body_spec sh n _ _ _ j ih4a ih4b ih3 ih1
    refine ⟨?_, ?_, ?_, ?_⟩
    · rw [trace_body_counter, ih1]; push_cast; ring
    · rw [b1, ih2]
      rfl
    · rw [b2]
      congr 1
      ring
    · intro hlt
      obtain ⟨c1, c2⟩ := b3 (by omega)
      rw [c1, c2]
      constructor <;> congr 1 <;> ring

/-- The LDS accesses of a call, in closed form. -/
theorem lds_trace_eq (sh : FwdShape) (ko vo : Nat × Nat) (n : Int) :
    lds_trace sh ko vo n = traceUpTo sh ko vo n (max 1 n).toNat := by
  have h := trace_loop_iterate sh n (n - 1).toNat (trace_init sh ko vo)
    (by simp [trace_init])
  have hk : (n - 1).toNat + 1 = (max 1 n).toNat := by omega
  rw [hk] at h
  unfold lds_trace
  rw [h]
  exact (trace_iterate_spec sh n ko vo _ (by omega)).2.1

end Fwd

/-! ## Forward pipeline: the K windows and the per-iteration recurrence -/

namespace Fwd

variable {α : Type} [LinearOrderedField α]

theorem iterate_move_tile_window (off : Nat × Nat) (o : Nat × Nat) (j : Nat) :
    (fun w => move_tile_window w off)^[j] o = move_tile_window o (j * off.1, j * off.2) := by
  induction j with
  | zero => simp [move_tile_window]
  | succ j ih =>
    rw [Function.iterate_succ_apply', ih]
    simp only [move_tile_window]
    congr 1 <;> ring

/-- The K windows and the staged K sub-tile 0 at the head of iteration `j`, whatever
the shape. -/
theorem iterate_k_windows (A : Arith α) (sh : FwdShape) (K V q_tile : Nat → Nat → α)
    (fv : α → α) (scale : α) (n : Int) (ko vo : Nat × Nat) (lds : Nat → Nat → Nat → α)
    (j : Nat) (hj : (j : Int) < max 1 n) :
    ((fwd_body A sh K V q_tile fv scale n)^[j] (fwd_init A sh K ko vo lds)).i_total_loops
      = j ∧
    ((fwd_body A sh K V q_tile fv scale n)^[j]
        (fwd_init A sh K ko vo lds)).k_dram_block_window = (ko.1 + j * sh.kN0, ko.2) ∧
    KStaged sh K ((fwd_body A sh K V q_tile fv scale n)^[j] (fwd_init A sh K ko vo lds)) := by
  induction j with
  | zero =>
    refine ⟨rfl, ?_, KStaged_init A sh K ko vo lds⟩
    simp [fwd_init]
  | succ j ih =>
    obtain ⟨ih1, ih2, _⟩ := ih (by omega)
    rw [Function.iterate_succ_apply']
    have hm : ((fwd_body A sh K V q_tile fv scale n)^[j]
        (fwd_init A sh K ko vo lds)).i_total_loops + 1 < n := by
      rw [ih1]; omega
    refine ⟨?_, ?_, ?_, ?_⟩
    · rw [fwd_body_counter, ih1]; push_cast; ring
    · simp only [fwd_body, if_pos hm, ih2, move_tile_window, Nat.add_zero]
      congr 1
      ring
    · simp only [fwd_body, if_pos hm]
      rw [Function.update_same]
    · simp only [fwd_body, if_pos hm]

/-- The V load window at the head of iteration `j`. -/
theorem iterate_v_window (A : Arith α) (sh : FwdShape) (K V q_tile : Nat → Nat → α)
    (fv : α → α) (scale : α) (n : Int) (ko vo : Nat × Nat) (lds : Nat → Nat → Nat → α)
    (hs : Staged sh) (j : Nat) (hj : (j : Int) ≤ max 1 n) :
    ((fwd_body A sh K V q_tile fv scale n)^[j] (fwd_init A sh K ko vo lds)).v_dram_window
      = (vo.1, vo.2 + j * vAdvance sh) := by
  induction j with
  | zero => simp [fwd_init]
  | succ j ih =>
    have ih0 := ih (by omega)
    obtain ⟨_, _, hk⟩ := iterate_k_windows A sh K V q_tile fv scale n ko vo lds j (by omega)
    rw [Function.iterate_succ_apply']
    obtain ⟨_, _, _, b4, _, _⟩ := fwd_body_spec A sh K V q_tile fv scale n _ hs hk
    rw [b4, ih0]
    congr 1
    ring

/-- One iteration in standard mode under the staging conditions. In iteration `j`,
with `m_old` the running max before it and `S_j` the scaled score tile of key tile
`j`, the new max is `max(m_old, rowmax(S_j))`, `l` becomes
`exp(m_old - m) * l + rowsum(P_j)` with `P_j = exp(S_j - m)`, and `o_acc` becomes
`exp(m_old - m) * o_acc + P_j * W`, where `W` is the V tile at key offset
`j * vAdvance` from the caller's V origin: the tile of key tile `j` when
`k1_loops >= 2`, the tile of key tile 0 when `k1_loops = 1`. The returned tile is
the final `o_acc` with each row multiplied by `1 / l`, once. -/
theorem per_iteration_recurrence (A : Arith α) (sh : FwdShape) (Q : Nat → Nat → α)
    (qo : Nat × Nat) (fq : α → α) (K : Nat → Nat → α) (ko : Nat × Nat) (fk : α → α)
    (V : Nat → Nat → α) (vo : Nat × Nat) (fv : α → α) (scale : α) (n nsub : Int)
    (lds : Nat → Nat → Nat → α) (hs : Staged sh) (hstd : A.fastExp2 = false) (j : Nat)
    (hj : (j : Int) < max 1 n) :
    (∀ i c, sIter A sh K (tile_elementwise_in fq (load_tile Q qo)) scale ko j i c
      = qkScore sh K (tile_elementwise_in fq (load_tile Q qo)) (ko.1 + j * sh.kN0, ko.2) i c
          * scale) ∧
    (∀ i, ((fwd_body A sh K V (tile_elementwise_in fq (load_tile Q qo)) fv scale n)^[j + 1]
        (fwd_init A sh K ko vo lds)).m i
      = max (((fwd_body A sh K V (tile_elementwise_in fq (load_tile Q qo)) fv scale n)^[j]
            (fwd_init A sh K ko vo lds)).m i)
          (reduceRange max A.lowest
            (sIter A sh K (tile_elementwise_in fq (load_tile Q qo)) scale ko j i) sh.kN0)) ∧
    (∀ i, ((fwd_body A sh K V (tile_elementwise_in fq (load_tile Q qo)) fv scale n)^[j + 1]
        (fwd_init A sh K ko vo lds)).l i
      = A.exp (((fwd_body A sh K V (tile_elementwise_in fq (load_tile Q qo)) fv scale n)^[j]
              (fwd_init A sh K ko vo lds)).m i
            - ((fwd_body A sh K V (tile_elementwise_in fq (load_tile Q qo)) fv scale n)^[j + 1]
              (fwd_init A sh K ko vo lds)).m i)
          * ((fwd_body A sh K V (tile_elementwise_in fq (load_tile Q qo)) fv scale n)^[j]
              (fwd_init A sh K ko vo lds)).l i
        + ∑ c ∈ Finset.range sh.kN0,
            A.exp (sIter A sh K (tile_elementwise_in fq (load_tile Q qo)) scale ko j i c
              - ((fwd_body A sh K V (tile_elementwise_in fq (load_tile Q qo)) fv scale
                  n)^[j + 1] (fwd_init A sh K ko vo lds)).m i)) ∧
    (∀ i d, ((fwd_body A sh K V (tile_elementwise_in fq (load_tile Q qo)) fv scale n)^[j + 1]
        (fwd_init A sh K ko vo lds)).o_acc i d
      = A.exp (((fwd_body A sh K V (tile_elementwise_in fq (load_tile Q qo)) fv scale n)^[j]
              (fwd_init A sh K ko vo lds)).m i
            - ((fwd_body A sh K V (tile_elementwise_in fq (load_tile Q qo)) fv scale n)^[j + 1]
              (fwd_init A sh K ko vo lds)).m i)
          * ((fwd_body A sh K V (tile_elementwise_in fq (load_tile Q qo)) fv scale n)^[j]
              (fwd_init A sh K ko vo lds)).o_acc i d
        + pvProduct sh V fv
            (fun a c =>
              A.exp (sIter A sh K (tile_elementwise_in fq (load_tile Q qo)) scale ko j a c
                - ((fwd_body A sh K V (tile_elementwise_in fq (load_tile Q qo)) fv scale
                    n)^[j + 1] (fwd_init A sh K ko vo lds)).m a))
            (vo.1, vo.2 + j * vAdvance sh) i d) ∧
    (∀ i d, run A sh Q qo fq K ko fk V vo fv scale n nsub lds i d
      = ((fwd_body A sh K V (tile_elementwise_in fq (load_tile Q qo)) fv scale
            n)^[(max 1 n).toNat] (fwd_init A sh K ko vo lds)).o_acc i d
        * (1 / ((fwd_body A sh K V (tile_elementwise_in fq (load_tile Q qo)) fv scale
            n)^[(max 1 n).toNat] (fwd_init A sh K ko vo lds)).l i)) := by
  obtain ⟨_, hkbw, hk⟩ := iterate_k_windows A sh K V (tile_elementwise_in fq (load_tile Q qo))
    fv scale n ko vo lds j hj
  have hvw := iterate_v_window A sh K V (tile_elementwise_in fq (load_tile Q qo)) fv scale n
    ko vo lds hs j (by omega)
  obtain ⟨b1, b2, b3, _, _, _⟩ := fwd_body_spec A sh K V
    (tile_elementwise_in fq (load_tile Q qo)) fv scale n _ hs hk
  rw [hkbw] at b1 b2 b3
  rw [hvw] at b3
  have hm : ∀ i, ((fwd_body A sh K V (tile_elementwise_in fq (load_tile Q qo)) fv scale
        n)^[j + 1] (fwd_init A sh K ko vo lds)).m i
      = mNext A sh (sTile A sh K (tile_elementwise_in fq (load_tile Q qo)) scale
          (ko.1 + j * sh.kN0, ko.2))
          ((fwd_body A sh K V (tile_elementwise_in fq (load_tile Q qo)) fv scale n)^[j]
            (fwd_init A sh K ko vo lds)).m i := by
    intro i
    rw [Function.iterate_succ_apply', b1]
  refine ⟨?_, ?_, ?_, ?_, ?_⟩
  · intro i c
    simp only [sIter, sTile, hstd, Bool.false_eq_true, if_false]
  · intro i
    rw [hm i]
    rfl
  · intro i
    rw [hm i, Function.iterate_succ_apply', b2 i]
    simp only [rescale, pCompute, hstd, Bool.false_eq_true, if_false, sIter]
  · intro i d
    have hfun : (fun a c =>
          A.exp (sIter A sh K (tile_elementwise_in fq (load_tile Q qo)) scale ko j a c
            - ((fwd_body A sh K V (tile_elementwise_in fq (load_tile Q qo)) fv scale
                n)^[j + 1] (fwd_init A sh K ko vo lds)).m a))
        = pCompute A scale (sTile A sh K (tile_elementwise_in fq (load_tile Q qo)) scale
            (ko.1 + j * sh.kN0, ko.2))
          (mNext A sh (sTile A sh K (tile_elementwise_in fq (load_tile Q qo)) scale
            (ko.1 + j * sh.kN0, ko.2))
            ((fwd_body A sh K V (tile_elementwise_in fq (load_tile Q qo)) fv scale n)^[j]
              (fwd_init A sh K ko vo lds)).m) := by
      funext a c
      rw [hm a]
      simp only [pCompute, hstd, Bool.false_eq_true, if_false, sIter]
    rw [hfun, hm i, Function.iterate_succ_apply', b3 i d]
    simp only [rescale, hstd, Bool.false_eq_true, if_false]
    ring
  · intro i d
    have hloop := fwd_loop_iterate A sh K V (tile_elementwise_in fq (load_tile Q qo)) fv scale
      n (n - 1).toNat (fwd_init A sh K ko vo lds) (by simp [fwd_init])
    have hk2 : (n - 1).toNat + 1 = (max 1 n).toNat := by omega
    rw [hk2] at hloop
    simp only [run]
    rw [hloop]

/-- The first iteration on the one-key sample shape. -/
theorem per_iteration_recurrence_witness :
    ((fwd_body sampleArith sampleShape (fun _ _ => 1) (fun _ _ => 1)
        (tile_elementwise_in (fun x => x) (load_tile (fun _ _ => 1) (0, 0))) (fun x => x)
        1 2)^[0 + 1] (fwd_init sampleArith sampleShape (fun _ _ => 1) (0, 0) (0, 0)
          (fun _ _ _ => 0))).m 0
      = max (((fwd_body sampleArith sampleShape (fun _ _ => 1) (fun _ _ => 1)
          (tile_elementwise_in (fun x => x) (load_tile (fun _ _ => 1) (0, 0))) (fun x => x)
          1 2)^[0] (fwd_init sampleArith sampleShape (fun _ _ => 1) (0, 0) (0, 0)
            (fun _ _ _ => 0))).m 0)
        (reduceRange max sampleArith.lowest
          (sIter sampleArith sampleShape (fun _ _ => 1)
            (tile_elementwise_in (fun x => x) (load_tile (fun _ _ => 1) (0, 0))) 1 (0, 0) 0 0)
          sampleShape.kN0) :=
  (per_iteration_recurrence sampleArith sampleShape (fun _ _ => 1) (0, 0) (fun x => x)
    (fun _ _ => 1) (0, 0) (fun x => x) (fun _ _ => 1) (0, 0) (fun x => x) 1 2 0
    (fun _ _ _ => 0) Staged_sampleShape rfl 0 (by decide)).2.1 0

end Fwd

/-! ## Forward pipeline: the K accesses of the trace -/

namespace Fwd

theorem div_mod_block (j x k : Nat) (hx : x < k) : (j * k + x) / k = j ∧ (j * k + x) % k = x := by
  have hk : 0 < k := by omega
  constructor
  · rw [Nat.mul_comm, Nat.mul_add_div hk, Nat.div_eq_of_lt hx]
    rfl
  · rw [Nat.mul_comm, Nat.mul_add_mod, Nat.mod_eq_of_lt hx]

theorem range_map_split {β : Type} (f : Nat → β) (a b : Nat) :
    (List.range (a + b)).map f
      = (List.range a).map f ++ (List.range b).map (fun i => f (a + i)) := by
  rw [List.range_add, List.map_append, List.map_map]
  rfl

theorem range_map_succ {β : Type} (f : Nat → β) (b : Nat) :
    (List.range (b + 1)).map f = (List.range b).map f ++ [f b] := by
  rw [List.range_succ, List.map_append]
  rfl

theorem kStages_append (a b : List LdsEvent) : kStages (a ++ b) = kStages a ++ kStages b := by
  simp [kStages]

theorem kReads_append (a b : List LdsEvent) : kReads (a ++ b) = kReads a ++ kReads b := by
  simp [kReads]

theorem kStages_stage1 (sh : FwdShape) (B : Nat × Nat) (j n : Nat) :
    kStages (stage1Events sh B j n)
      = (List.range n).map (fun i =>
          LdsEvent.stage Operand.K j (i + 1) (sh.LdsSeq (i + 1))
            (B.1, B.2 + (i + 1) * sh.kK0)) := by
  induction n with
  | zero => rfl
  | succ n ih =>
    rw [stage1Events, kStages_append, ih, List.range_succ, List.map_append]
    rfl

theorem kReads_stage1 (sh : FwdShape) (B : Nat × Nat) (j n : Nat) :
    kReads (stage1Events sh B j n)
      = (List.range n).map (fun i =>
          LdsEvent.read Operand.K j i (sh.LdsSeq i) (i * sh.kK0)) := by
  induction n with
  | zero => rfl
  | succ n ih =>
    rw [stage1Events, kReads_append, ih, List.range_succ, List.map_append]
    rfl

theorem kStages_stage3 (sh : FwdShape) (W : Nat × Nat) (j n : Nat) :
    kStages (stage3Events sh W j n) = [] := by
  induction n with
  | zero => rfl
  | succ n ih =>
    rw [stage3Events, kStages_append, ih]
    rfl

theorem kReads_stage3 (sh : FwdShape) (W : Nat × Nat) (j n : Nat) :
    kReads (stage3Events sh W j n) = [] := by
  induction n with
  | zero => rfl
  | succ n ih =>
    rw [stage3Events, kReads_append, ih]
    rfl

theorem kReads_iterEvents (sh : FwdShape) (B W : Nat × Nat) (j : Nat) (more : Bool)
    (hk0 : 1 ≤ k0_loops sh) :
    kReads (iterEvents sh B W j more)
      = (List.range (k0_loops sh)).map (fun i =>
          LdsEvent.read Operand.K j i (sh.LdsSeq i) (i * sh.kK0)) := by
  have hk : k0_loops sh = (k0_loops sh - 1) + 1 := by omega
  conv_rhs => rw [hk, List.range_succ, List.map_append]
  simp only [iterEvents, kReads_append, kReads_stage1, kReads_stage3]
  cases more <;> simp [kReads]

theorem kStages_iterEvents (sh : FwdShape) (B W : Nat × Nat) (j : Nat) (more : Bool) :
    kStages (iterEvents sh B W j more)
      = (List.range (k0_loops sh - 1)).map (fun i =>
          LdsEvent.stage Operand.K j (i + 1) (sh.LdsSeq (i + 1))
            (B.1, B.2 + (i + 1) * sh.kK0))
        ++ (if more then
            [LdsEvent.stage Operand.K (j + 1) 0 (sh.LdsSeq 0) (B.1 + sh.kN0, B.2)]
          else []) := by
  simp only [iterEvents, kStages_append, kStages_stage1, kStages_stage3]
  cases more <;> simp [kStages]

/-- The reads of `gemm_0` after `j` iterations: sub-GEMM 0 .. `k0_loops - 1` of
iteration 0, then of iteration 1, and so on. -/
theorem kReads_traceUpTo (sh : FwdShape) (ko vo : Nat × Nat) (n : Int)
    (hk0 : 1 ≤ k0_loops sh) (j : Nat) :
    kReads (traceUpTo sh ko vo n j)
      = (List.range (j * k0_loops sh)).map (fun idx =>
          LdsEvent.read Operand.K (idx / k0_loops sh) (idx % k0_loops sh)
            (sh.LdsSeq (idx % k0_loops sh)) (idx % k0_loops sh * sh.kK0)) := by
  induction j with
  | zero => simp [traceUpTo, kReads]
  | succ j ih =>
    rw [traceUpTo, kReads_append, ih, kReads_iterEvents sh _ _ j _ hk0, Nat.succ_mul,
      List.range_add, List.map_append, List.map_map]
    congr 1
    apply List.map_congr_left
    intro i hi
    have hi2 : i < k0_loops sh := List.mem_range.1 hi
    obtain ⟨h1, h2⟩ := div_mod_block j i (k0_loops sh) hi2
    simp only [Function.comp, h1, h2]

/-- The K stagings up to the head of iteration `j`: sub-tile 0 .. `k0_loops - 1` of
tile 0, then of tile 1, .., and sub-tile 0 of tile `j`. -/
theorem kStages_traceUpTo_head (sh : FwdShape) (ko vo : Nat × Nat) (n : Int)
    (hk0 : 1 ≤ k0_loops sh) (j : Nat) (hj : (j : Int) < max 1 n) :
    kStages (traceUpTo sh ko vo n j)
      = (List.range (j * k0_loops sh + 1)).map (fun idx =>
          LdsEvent.stage Operand.K (idx / k0_loops sh) (idx % k0_loops sh)
            (sh.LdsSeq (idx % k0_loops sh))
            (ko.1 + idx / k0_loops sh * sh.kN0, ko.2 + idx % k0_loops sh * sh.kK0)) := by
  induction j with
  | zero =>
    obtain ⟨h1, h2⟩ := div_mod_block 0 0 (k0_loops sh) (by omega)
    simp only [Nat.zero_mul, Nat.zero_add] at h1 h2
    rw [Nat.zero_mul, Nat.zero_add, show List.range 1 = [0] from rfl]
    simp only [List.map, h1, h2, Nat.zero_mul, Nat.add_zero]
    rfl
  | succ j ih =>
    have hmore : (j : Int) + 1 < n := by omega
    have hidx : (j + 1) * k0_loops sh + 1
        = (j * k0_loops sh + 1) + ((k0_loops sh - 1) + 1) := by
      rw [Nat.succ_mul]; omega
    rw [traceUpTo, kStages_append, ih (by omega), kStages_iterEvents, hidx,
      range_map_split _ (j * k0_loops sh + 1) (k0_loops sh - 1 + 1),
      range_map_succ _ (k0_loops sh - 1)]
    simp only [hmore, decide_True, if_true]
    congr 1
    congr 1
    · apply List.map_congr_left
      intro i hi
      have hi2 : i < k0_loops sh - 1 := List.mem_range.1 hi
      obtain ⟨h1, h2⟩ := div_mod_block j (i + 1) (k0_loops sh) (by omega)
      have he : j * k0_loops sh + 1 + i = j * k0_loops sh + (i + 1) := by omega
      simp only [he, h1, h2]
    · have he : j * k0_loops sh + 1 + (k0_loops sh - 1) = (j + 1) * k0_loops sh + 0 := by
        rw [Nat.succ_mul]; omega
      obtain ⟨h1, h2⟩ := div_mod_block (j + 1) 0 (k0_loops sh) (by omega)
      have hd : (j * k0_loops sh + 1 + (k0_loops sh - 1)) / k0_loops sh = j + 1 := by
        rw [he]; exact h1
      have hm : (j * k0_loops sh + 1 + (k0_loops sh - 1)) % k0_loops sh = 0 := by
        rw [he]; exact h2
      have ha : ko.1 + j * sh.kN0 + sh.kN0 = ko.1 + (j + 1) * sh.kN0 := by ring
      simp only [hd, hm, ha, Nat.zero_mul, Nat.add_zero]

/-- The K stagings of a whole call: each sub-tile of each key tile exactly once. -/
theorem kStages_traceUpTo_all (sh : FwdShape) (ko vo : Nat × Nat) (n : Int)
    (hk0 : 1 ≤ k0_loops sh) :
    kStages (traceUpTo sh ko vo n (max 1 n).toNat)
      = (List.range ((max 1 n).toNat * k0_loops sh)).map (fun idx =>
          LdsEvent.stage Operand.K (idx / k0_loops sh) (idx % k0_loops sh)
            (sh.LdsSeq (idx % k0_loops sh))
            (ko.1 + idx / k0_loops sh * sh.kN0, ko.2 + idx % k0_loops sh * sh.kK0)) := by
  obtain ⟨j, hjN⟩ : ∃ j, (max 1 n).toNat = j + 1 := ⟨(max 1 n).toNat - 1, by omega⟩
  have hlast : ¬ ((j : Int) + 1 < n) := by omega
  have hidx : (j + 1) * k0_loops sh = (j * k0_loops sh + 1) + (k0_loops sh - 1) := by
    rw [Nat.succ_mul]; omega
  rw [hjN, traceUpTo, kStages_append, kStages_traceUpTo_head sh ko vo n hk0 j (by omega),
    kStages_iterEvents, hidx, range_map_split _ (j * k0_loops sh + 1) (k0_loops sh - 1)]
  simp only [hlast, decide_False, if_false, List.append_nil, Bool.false_eq_true]
  congr 1
  apply List.map_congr_left
  intro i hi
  have hi2 : i < k0_loops sh - 1 := List.mem_range.1 hi
  obtain ⟨h1, h2⟩ := div_mod_block j (i + 1) (k0_loops sh) (by omega)
  have he : j * k0_loops sh + 1 + i = j * k0_loops sh + (i + 1) := by omega
  simp only [he, h1, h2]

end Fwd

/-! ## Forward pipeline: the V accesses of the trace -/

namespace Fwd

theorem vStages_append (a b : List LdsEvent) : vStages (a ++ b) = vStages a ++ vStages b := by
  simp [vStages]

theorem vReads_append (a b : List LdsEvent) : vReads (a ++ b) = vReads a ++ vReads b := by
  simp [vReads]

theorem vStages_stage1 (sh : FwdShape) (B : Nat × Nat) (j n : Nat) :
    vStages (stage1Events sh B j n) = [] := by
  induction n with
  | zero => rfl
  | succ n ih =>
    rw [stage1Events, vStages_append, ih]
    rfl

theorem vReads_stage1 (sh : FwdShape) (B : Nat × Nat) (j n : Nat) :
    vReads (stage1Events sh B j n) = [] := by
  induction n with
  | zero => rfl
  | succ n ih =>
    rw [stage1Events, vReads_append, ih]
    rfl

theorem vStages_stage3 (sh : FwdShape) (W : Nat × Nat) (j n : Nat) :
    vStages (stage3Events sh W j n)
      = (List.range n).map (fun i =>
          LdsEvent.stage Operand.V j (i + 1) (vStoreSlot sh (k0_loops sh + i + 1))
            (W.1, W.2 + (i + 1) * sh.kK1)) := by
  induction n with
  | zero => rfl
  | succ n ih =>
    rw [stage3Events, vStages_append, ih, range_map_succ]
    rfl

theorem vReads_stage3 (sh : FwdShape) (W : Nat × Nat) (j n : Nat) :
    vReads (stage3Events sh W j n)
      = (List.range n).map (fun i =>
          LdsEvent.read Operand.V j i (sh.LdsSeq (k0_loops sh + i)) (i * sh.kK1)) := by
  induction n with
  | zero => rfl
  | succ n ih =>
    rw [stage3Events, vReads_append, ih, range_map_succ]
    rfl

theorem vStages_iterEvents (sh : FwdShape) (B W : Nat × Nat) (j : Nat) (more : Bool)
    (hk1 : 1 ≤ k1_loops sh) :
    vStages (iterEvents sh B W j more)
      = (List.range (k1_loops sh)).map (fun i =>
          LdsEvent.stage Operand.V j i (vStoreSlot sh (k0_loops sh + i))
            (W.1, W.2 + i * sh.kK1)) := by
  have hk : k1_loops sh = 1 + (k1_loops sh - 1) := by omega
  conv_rhs => rw [hk, range_map_split _ 1 (k1_loops sh - 1)]
  simp only [iterEvents, vStages_append, vStages_stage1, vStages_stage3]
  have he : ∀ i, 1 + i = i + 1 := fun i => Nat.add_comm 1 i
  have h1 : List.range 1 = [0] := rfl
  cases more <;>
    simp [vStages, he, Nat.add_assoc, h1]

theorem vReads_iterEvents (sh : FwdShape) (B W : Nat × Nat) (j : Nat) (more : Bool)
    (hk1 : 1 ≤ k1_loops sh) :
    vReads (iterEvents sh B W j more)
      = (List.range (k1_loops sh)).map (fun i =>
          LdsEvent.read Operand.V j i (sh.LdsSeq (k0_loops sh + i)) (i * sh.kK1)) := by
  have hk : k1_loops sh = (k1_loops sh - 1) + 1 := by omega
  have he : k0_loops sh + k1_loops sh - 1 = k0_loops sh + (k1_loops sh - 1) := by omega
  conv_rhs => rw [hk, range_map_succ]
  simp only [iterEvents, vReads_append, vReads_stage1, vReads_stage3, he]
  cases more <;> simp [vReads]

/-- The V stagings after `j` iterations: sub-tile `i` of iteration `t` is loaded
through the window at the caller's V origin shifted by
`(0, t * vAdvance + i * kK1)`. -/
theorem vStages_traceUpTo (sh : FwdShape) (ko vo : Nat × Nat) (n : Int)
    (hk1 : 1 ≤ k1_loops sh) (j : Nat) :
    vStages (traceUpTo sh ko vo n j)
      = (List.range (j * k1_loops sh)).map (fun idx =>
          LdsEvent.stage Operand.V (idx / k1_loops sh) (idx % k1_loops sh)
            (vStoreSlot sh (k0_loops sh + idx % k1_loops sh))
            (vo.1, vo.2 + idx / k1_loops sh * vAdvance sh + idx % k1_loops sh * sh.kK1)) := by
  induction j with
  | zero => simp [traceUpTo, vStages]
  | succ j ih =>
    rw [traceUpTo, vStages_append, ih, vStages_iterEvents sh _ _ j _ hk1, Nat.succ_mul,
      range_map_split _ (j * k1_loops sh) (k1_loops sh)]
    congr 1
    apply List.map_congr_left
    intro i hi
    have hi2 : i < k1_loops sh := List.mem_range.1 hi
    obtain ⟨h1, h2⟩ := div_mod_block j i (k1_loops sh) hi2
    simp only [h1, h2]

/-- The reads of `gemm_1` after `j` iterations. -/
theorem vReads_traceUpTo (sh : FwdShape) (ko vo : Nat × Nat) (n : Int)
    (hk1 : 1 ≤ k1_loops sh) (j : Nat) :
    vReads (traceUpTo sh ko vo n j)
      = (List.range (j * k1_loops sh)).map (fun idx =>
          LdsEvent.read Operand.V (idx / k1_loops sh) (idx % k1_loops sh)
            (sh.LdsSeq (k0_loops sh + idx % k1_loops sh)) (idx % k1_loops sh * sh.kK1)) := by
  induction j with
  | zero => simp [traceUpTo, vReads]
  | succ j ih =>
    rw [traceUpTo, vReads_append, ih, vReads_iterEvents sh _ _ j _ hk1, Nat.succ_mul,
      range_map_split _ (j * k1_loops sh) (k1_loops sh)]
    congr 1
    apply List.map_congr_left
    intro i hi
    have hi2 : i < k1_loops sh := List.mem_range.1 hi
    obtain ⟨h1, h2⟩ := div_mod_block j i (k1_loops sh) hi2
    simp only [h1, h2]

/-- With two or more P*V sub-GEMMs per iteration and `kN0 = k1_loops * kK1`, sub-tile
`i` of iteration `t` is loaded through the window at the caller's V origin shifted by
`(0, t * kN0 + i * kK1)`. -/
theorem vStages_of_two_sub_gemms (sh : FwdShape) (ko vo : Nat × Nat) (n : Int)
    (hk1 : 2 ≤ k1_loops sh) (hdiv : k1_loops sh * sh.kK1 = sh.kN0) :
    vStages (lds_trace sh ko vo n)
      = (List.range ((max 1 n).toNat * k1_loops sh)).map (fun idx =>
          LdsEvent.stage Operand.V (idx / k1_loops sh) (idx % k1_loops sh)
            (vStoreSlot sh (k0_loops sh + idx % k1_loops sh))
            (vo.1, vo.2 + idx / k1_loops sh * sh.kN0 + idx % k1_loops sh * sh.kK1)) := by
  have hv : vAdvance sh = sh.kN0 := by
    rw [vAdvance, if_pos (by omega), hdiv]
  rw [lds_trace_eq, vStages_traceUpTo sh ko vo n (by omega), hv]

/-- C18, the code at the failing input: `kN0 = kK1 = 1` (so `k1_loops = 1`),
`num_total_loop = 2`, both window origins `(0, 0)`. The V sub-tile staged for the
P*V sub-GEMM of iteration 1 is loaded through the window at `(0, 0)`, the origin
used in iteration 0, where the claim has `(0, 1 * kN0 + 0 * kK1) = (0, 1)`: no
access of the call uses a sub-tile loaded at `(0, 1)`, and the V load window of the
loop state has not moved after iteration 0. -/
theorem v_coverage_at_failing_input :
    k1_loops sampleShape = 1 ∧
    vStages (lds_trace sampleShape (0, 0) (0, 0) 2)
      = [LdsEvent.stage Operand.V 0 0 1 (0, 0), LdsEvent.stage Operand.V 1 0 1 (0, 0)] ∧
    vReads (lds_trace sampleShape (0, 0) (0, 0) 2)
      = [LdsEvent.read Operand.V 0 0 1 0, LdsEvent.read Operand.V 1 0 1 0] ∧
    LdsEvent.stage Operand.V 1 0 1 (0, 0 + (1 * sampleShape.kN0 + 0 * sampleShape.kK1))
      ∉ lds_trace sampleShape (0, 0) (0, 0) 2 ∧
    (fwd_body sampleArith sampleShape (fun _ _ => 0) (fun _ _ => 0) (fun _ _ => 0)
      (fun x => x) 1 2
      (fwd_init sampleArith sampleShape (fun _ _ => 0) (0, 0) (0, 0)
        (fun _ _ _ => 0))).v_dram_window = (0, 0) := by
  refine ⟨rfl, ?_, ?_, ?_, ?_⟩
  · rw [lds_trace_eq]
    decide
  · rw [lds_trace_eq]
    decide
  · rw [lds_trace_eq]
    decide
  · have h := iterate_v_window sampleArith sampleShape (fun _ _ => 0) (fun _ _ => 0)
      (fun _ _ => 0) (fun x => x) 1 2 (0, 0) (0, 0) (fun _ _ _ => 0) Staged_sampleShape 1
      (by decide)
    rw [Function.iterate_one] at h
    rw [h]
    decide

end Fwd

/-! ## Forward pipeline: every sub-tile is staged before it is read -/

namespace Fwd

theorem stagedAfter_append (op : Operand) (a b : List LdsEvent) :
    ∀ seen, stagedAfter op seen (a ++ b) = stagedAfter op (stagedAfter op seen a) b := by
  induction a with
  | nil => intro seen; rfl
  | cons e a ih =>
    intro seen
    cases e with
    | stage o tile sub slot origin => exact ih _
    | read o tile sub slot col => exact ih _

theorem Preceded_append (op : Operand) (a b : List LdsEvent) :
    ∀ seen, Preceded op seen (a ++ b)
      ↔ Preceded op seen a ∧ Preceded op (stagedAfter op seen a) b := by
  induction a with
  | nil => intro seen; simp [Preceded, stagedAfter]
  | cons e a ih =>
    intro seen
    cases e with
    | stage o tile sub slot origin => exact ih _
    | read o tile sub slot col =>
      show ((o = op → (tile, sub, slot) ∈ seen) ∧ Preceded op seen (a ++ b))
        ↔ ((o = op → (tile, sub, slot) ∈ seen) ∧ Preceded op seen a)
          ∧ Preceded op (stagedAfter op seen a) b
      rw [ih seen, and_assoc]

theorem mem_stagedAfter (op : Operand) (x : Nat × Nat × Nat) (evs : List LdsEvent) :
    ∀ seen, x ∈ stagedAfter op seen evs
      ↔ x ∈ seen ∨ ∃ origin, LdsEvent.stage op x.1 x.2.1 x.2.2 origin ∈ evs := by
  induction evs with
  | nil => intro seen; simp [stagedAfter]
  | cons e evs ih =>
    intro seen
    cases e with
    | stage o tile sub slot origin =>
      rw [stagedAfter, ih]
      by_cases ho : o = op
      · subst ho
        rw [if_pos rfl]
        constructor
        · rintro (h | ⟨og, h⟩)
          · rcases List.mem_cons.1 h with h | h
            · right
              refine ⟨origin, ?_⟩
              rw [h]
              exact List.mem_cons_self _ _
            · exact Or.inl h
          · exact Or.inr ⟨og, List.mem_cons_of_mem _ h⟩
        · rintro (h | ⟨og, h⟩)
          · exact Or.inl (List.mem_cons_of_mem _ h)
          · rcases List.mem_cons.1 h with h | h
            · left
              injection h with h1 h2 h3 h4 h5
              rw [List.mem_cons]
              left
              ext <;> simp [h2, h3, h4]
            · exact Or.inr ⟨og, h⟩
      · rw [if_neg ho]
        constructor
        · rintro (h | ⟨og, h⟩)
          · exact Or.inl h
          · exact Or.inr ⟨og, List.mem_cons_of_mem _ h⟩
        · rintro (h | ⟨og, h⟩)
          · exact Or.inl h
          · rcases List.mem_cons.1 h with h | h
            · injection h with h1
              exact absurd h1.symm ho
            · exact Or.inr ⟨og, h⟩
    | read o tile sub slot col =>
      rw [stagedAfter, ih]
      constructor
      · rintro (h | ⟨og, h⟩)
        · exact Or.inl h
        · exact Or.inr ⟨og, List.mem_cons_of_mem _ h⟩
      · rintro (h | ⟨og, h⟩)
        · exact Or.inl h
        · rcases List.mem_cons.1 h with h | h
          · cases h
          · exact Or.inr ⟨og, h⟩

/-- A read of a sequence that passes the check has its sub-tile staged, into the slot
it reads, earlier in the sequence. -/
theorem Preceded_split (op : Operand) (pre post : List LdsEvent) (tile sub slot col : Nat)
    (h : Preceded op [] (pre ++ LdsEvent.read op tile sub slot col :: post)) :
    ∃ origin, LdsEvent.stage op tile sub slot origin ∈ pre := by
  rw [Preceded_append] at h
  have h2 := h.2.1 rfl
  rw [mem_stagedAfter] at h2
  rcases h2 with h2 | h2
  · cases h2
  · exact h2

theorem Preceded_stage1 (sh : FwdShape) (B : Nat × Nat) (j n : Nat) :
    ∀ seen, (j, 0, sh.LdsSeq 0) ∈ seen →
      Preceded Operand.K seen (stage1Events sh B j n) ∧
      ∀ i, i ≤ n → (j, i, sh.LdsSeq i) ∈ stagedAfter Operand.K seen (stage1Events sh B j n) := by
  induction n with
  | zero =>
    intro seen h0
    refine ⟨trivial, ?_⟩
    intro i hi
    have hi0 : i = 0 := by omega
    subst hi0
    exact h0
  | succ n ih =>
    intro seen h0
    obtain ⟨ih1, ih2⟩ := ih seen h0
    rw [stage1Events, Preceded_append, stagedAfter_append]
    refine ⟨⟨ih1, ?_⟩, ?_⟩
    · simp only [Preceded, if_true, and_true]
      intro _
      exact List.mem_cons_of_mem _ (ih2 n (le_refl n))
    · intro i hi
      simp only [stagedAfter, if_true]
      rcases Nat.lt_or_ge i (n + 1) with h | h
      · exact List.mem_cons_of_mem _ (ih2 i (by omega))
      · have hi1 : i = n + 1 := by omega
        subst hi1
        exact List.mem_cons_self _ _

theorem Preceded_stage3 (sh : FwdShape) (W : Nat × Nat) (j n : Nat) :
    ∀ seen, Preceded Operand.K seen (stage3Events sh W j n) ∧
      stagedAfter Operand.K seen (stage3Events sh W j n) = seen := by
  induction n with
  | zero => intro seen; exact ⟨trivial, rfl⟩
  | succ n ih =>
    intro seen
    obtain ⟨ih1, ih2⟩ := ih seen
    rw [stage3Events, Preceded_append, stagedAfter_append, ih2]
    refine ⟨⟨ih1, ?_⟩, ?_⟩
    · simp [Preceded]
    · simp [stagedAfter]

theorem Preceded_iterEvents (sh : FwdShape) (B W : Nat × Nat) (j : Nat) (more : Bool)
    (seen : List (Nat × Nat × Nat)) (h0 : (j, 0, sh.LdsSeq 0) ∈ seen) :
    Preceded Operand.K seen (iterEvents sh B W j more) ∧
    (more = true →
      (j + 1, 0, sh.LdsSeq 0) ∈ stagedAfter Operand.K seen (iterEvents sh B W j more)) := by
  obtain ⟨a1, a2⟩ := Preceded_stage1 sh B j (k0_loops sh - 1) seen h0
  have a3 := a2 (k0_loops sh - 1) (le_refl _)
  simp only [iterEvents, Preceded_append, stagedAfter_append]
  refine ⟨⟨⟨⟨⟨⟨a1, ?_⟩, ?_⟩, ?_⟩, ?_⟩, ?_⟩, ?_⟩
  · simp only [Preceded, and_true]
    intro _
    exact a3
  · simp [Preceded]
  · exact (Preceded_stage3 sh W j _ _).1
  · cases more <;> simp [Preceded]
  · simp [Preceded]
  · intro hm
    subst hm
    simp only [stagedAfter, if_true]
    exact List.mem_cons_self _ _

theorem Preceded_traceUpTo (sh : FwdShape) (ko vo : Nat × Nat) (n : Int) (j : Nat)
    (hj : j ≤ (max 1 n).toNat) :
    Preceded Operand.K [] (traceUpTo sh ko vo n j) ∧
    (j < (max 1 n).toNat →
      (j, 0, sh.LdsSeq 0) ∈ stagedAfter Operand.K [] (traceUpTo sh ko vo n j)) := by
  induction j with
  | zero =>
    refine ⟨?_, fun _ => ?_⟩
    · simp [traceUpTo, Preceded]
    · simp [traceUpTo, stagedAfter]
  | succ j ih =>
    obtain ⟨ih1, ih2⟩ := ih (by omega)
    obtain ⟨b1, b2⟩ := Preceded_iterEvents sh (ko.1 + j * sh.kN0, ko.2)
      (vo.1, vo.2 + j * vAdvance sh) j (decide ((j : Int) + 1 < n)) _ (ih2 (by omega))
    rw [traceUpTo, Preceded_append, stagedAfter_append]
    refine ⟨⟨ih1, b1⟩, fun hlt => b2 ?_⟩
    have hm : (j : Int) + 1 < n := by omega
    simp [hm]

end Fwd

/-! ## Forward pipeline: K staging and consumption, K window offsets -/

namespace Fwd

theorem mem_kStages (e : LdsEvent) (evs : List LdsEvent) (tile sub slot : Nat)
    (origin : Nat × Nat) (he : e = LdsEvent.stage Operand.K tile sub slot origin) :
    e ∈ kStages evs ↔ e ∈ evs := by
  subst he
  simp [kStages]

/-- C19: K staging and consumption match. With `N = max(1, num_total_loop)` outer
iterations, the `gemm_0` calls of a call of `operator()` are, in order, for each
key tile `t < N` the sub-GEMMs `i = 0 .. k0_loops - 1`, sub-GEMM `i` reading LDS slot
`LdsSeq[i]` and the Q columns that start at `i * kK0`; the K loads are, in order,
for each key tile `t < N` the sub-tiles `i = 0 .. k0_loops - 1`, each exactly once,
sub-tile `i` loaded at column offset `i * kK0` of the key tile `t` into slot
`LdsSeq[i]`; and every `gemm_0` call comes after the load of its sub-tile into the
slot it reads. -/
theorem k_staging_matches_consumption (sh : FwdShape) (ko vo : Nat × Nat) (n : Int)
    (hk0 : 1 ≤ k0_loops sh) :
    kReads (lds_trace sh ko vo n)
      = (List.range ((max 1 n).toNat * k0_loops sh)).map (fun idx =>
          LdsEvent.read Operand.K (idx / k0_loops sh) (idx % k0_loops sh)
            (sh.LdsSeq (idx % k0_loops sh)) (idx % k0_loops sh * sh.kK0)) ∧
    kStages (lds_trace sh ko vo n)
      = (List.range ((max 1 n).toNat * k0_loops sh)).map (fun idx =>
          LdsEvent.stage Operand.K (idx / k0_loops sh) (idx % k0_loops sh)
            (sh.LdsSeq (idx % k0_loops sh))
            (ko.1 + idx / k0_loops sh * sh.kN0, ko.2 + idx % k0_loops sh * sh.kK0)) ∧
    (∀ pre post tile sub slot col,
      lds_trace sh ko vo n = pre ++ LdsEvent.read Operand.K tile sub slot col :: post →
      ∃ origin, LdsEvent.stage Operand.K tile sub slot origin ∈ pre) := by
  refine ⟨?_, ?_, ?_⟩
  · rw [lds_trace_eq, kReads_traceUpTo sh ko vo n hk0]
  · rw [lds_trace_eq, kStages_traceUpTo_all sh ko vo n hk0]
  · intro pre post tile sub slot col h
    have hp := (Preceded_traceUpTo sh ko vo n (max 1 n).toNat (le_refl _)).1
    rw [← lds_trace_eq, h] at hp
    exact Preceded_split Operand.K pre post tile sub slot col hp

theorem k_staging_matches_consumption_witness :
    1 ≤ k0_loops sampleShape4 ∧
    kReads (lds_trace sampleShape4 (0, 0) (0, 0) 2)
      = [LdsEvent.read Operand.K 0 0 0 0, LdsEvent.read Operand.K 0 1 1 1,
          LdsEvent.read Operand.K 1 0 0 0, LdsEvent.read Operand.K 1 1 1 1] ∧
    kStages (lds_trace sampleShape4 (0, 0) (0, 0) 2)
      = [LdsEvent.stage Operand.K 0 0 0 (0, 0), LdsEvent.stage Operand.K 0 1 1 (0, 1),
          LdsEvent.stage Operand.K 1 0 0 (2, 0), LdsEvent.stage Operand.K 1 1 1 (2, 1)] :=
  ⟨by decide,
    (k_staging_matches_consumption sampleShape4 (0, 0) (0, 0) 2 (by decide)).1.trans
      (by decide),
    (k_staging_matches_consumption sampleShape4 (0, 0) (0, 0) 2 (by decide)).2.1.trans
      (by decide)⟩

/-- C12: window moves compose additively. `j` successive moves of a window by
`(kN0, 0)` give the window at the cumulative offset `(j * kN0, 0)`; at the start of
outer iteration `j` the K block window, from which the K load window of the
iteration is constructed, stands at the caller's K origin plus `(j * kN0, 0)`, and
the load window stands one sub-tile further, sub-tile 0 being loaded before the
loop head; the load of K sub-tile `i` of iteration `j` is made through the window at
that origin plus `(0, i * kK0)`, and no K load of the call is made through any
other window. -/
theorem k_window_moves_compose {α : Type} [LinearOrderedField α] (A : Arith α)
    (sh : FwdShape) (K V q_tile : Nat → Nat → α) (fv : α → α) (scale : α) (n : Int)
    (ko vo : Nat × Nat) (lds : Nat → Nat → Nat → α) (j : Nat)
    (hk0 : 1 ≤ k0_loops sh) (hj : (j : Int) < max 1 n) :
    (fun w => move_tile_window w (sh.kN0, 0))^[j] ko = move_tile_window ko (j * sh.kN0, 0) ∧
    ((fwd_body A sh K V q_tile fv scale n)^[j]
        (fwd_init A sh K ko vo lds)).k_dram_block_window
      = move_tile_window ko (j * sh.kN0, 0) ∧
    ((fwd_body A sh K V q_tile fv scale n)^[j] (fwd_init A sh K ko vo lds)).k_dram_window
      = move_tile_window (move_tile_window ko (j * sh.kN0, 0)) (0, sh.kK0) ∧
    (∀ i, i < k0_loops sh →
      LdsEvent.stage Operand.K j i (sh.LdsSeq i)
          (move_tile_window (move_tile_window ko (j * sh.kN0, 0)) (0, i * sh.kK0))
        ∈ lds_trace sh ko vo n) ∧
    (∀ tile sub slot origin,
      LdsEvent.stage Operand.K tile sub slot origin ∈ lds_trace sh ko vo n →
      origin = move_tile_window (move_tile_window ko (tile * sh.kN0, 0)) (0, sub * sh.kK0)) := by
  obtain ⟨_, hb, hks⟩ := iterate_k_windows A sh K V q_tile fv scale n ko vo lds j hj
  have hst := kStages_traceUpTo_all sh ko vo n hk0
  rw [← lds_trace_eq] at hst
  refine ⟨?_, ?_, ?_, ?_, ?_⟩
  · rw [iterate_move_tile_window]
    simp
  · rw [hb]
    simp [move_tile_window]
  · rw [hks.2, hb]
    simp [move_tile_window]
  · intro i hi
    rw [← mem_kStages _ _ j i (sh.LdsSeq i) _ rfl, hst, List.mem_map]
    refine ⟨j * k0_loops sh + i, List.mem_range.2 ?_, ?_⟩
    · have hjN : j + 1 ≤ (max 1 n).toNat := by omega
      calc j * k0_loops sh + i < j * k0_loops sh + k0_loops sh := by omega
        _ = (j + 1) * k0_loops sh := by rw [Nat.succ_mul]
        _ ≤ (max 1 n).toNat * k0_loops sh := Nat.mul_le_mul_right _ hjN
    · obtain ⟨h1, h2⟩ := div_mod_block j i (k0_loops sh) hi
      simp only [h1, h2, move_tile_window, Nat.add_zero, Nat.zero_add]
  · intro tile sub slot origin h
    rw [← mem_kStages _ _ tile sub slot origin rfl, hst, List.mem_map] at h
    obtain ⟨idx, _, he⟩ := h
    injection he with _ e1 e2 _ e4
    rw [← e4, ← e1, ← e2]
    simp only [move_tile_window, Nat.add_zero, Nat.zero_add]

theorem k_window_moves_compose_witness :
    (1 ≤ k0_loops sampleShape4 ∧ ((1 : Nat) : Int) < max 1 2) ∧
    ((fwd_body sampleArith sampleShape4 (fun _ _ => 0) (fun _ _ => 0) (fun _ _ => 0)
        (fun x => x) 1 2)^[1]
      (fwd_init sampleArith sampleShape4 (fun _ _ => 0) (0, 0) (0, 0)
        (fun _ _ _ => 0))).k_dram_block_window
      = move_tile_window (0, 0) (1 * sampleShape4.kN0, 0) ∧
    LdsEvent.stage Operand.K 1 1 (sampleShape4.LdsSeq 1)
        (move_tile_window (move_tile_window (0, 0) (1 * sampleShape4.kN0, 0))
          (0, 1 * sampleShape4.kK0))
      ∈ lds_trace sampleShape4 (0, 0) (0, 0) 2 :=
  ⟨⟨by decide, by decide⟩,
    (k_window_moves_compose sampleArith sampleShape4 (fun _ _ => 0) (fun _ _ => 0)
      (fun _ _ => 0) (fun x => x) 1 2 (0, 0) (0, 0) (fun _ _ _ => 0) 1 (by decide)
      (by decide)).2.1,
    (k_window_moves_compose sampleArith sampleShape4 (fun _ _ => 0) (fun _ _ => 0)
      (fun _ _ => 0) (fun x => x) 1 2 (0, 0) (0, 0) (fun _ _ _ => 0) 1 (by decide)
      (by decide)).2.2.2.1 1 (by decide)⟩

end Fwd

/-! ## Forward pipeline: freshness of the staging slots -/

namespace Fwd

theorem slotsAfter_append (a b : List LdsEvent) :
    ∀ tags, slotsAfter tags (a ++ b) = slotsAfter (slotsAfter tags a) b := by
  induction a with
  | nil => intro tags; rfl
  | cons e a ih =>
    intro tags
    cases e with
    | stage o tile sub slot origin => exact ih _
    | read o tile sub slot col => exact ih _

theorem Fresh_append (a b : List LdsEvent) :
    ∀ tags, Fresh tags (a ++ b) ↔ Fresh tags a ∧ Fresh (slotsAfter tags a) b := by
  induction a with
  | nil => intro tags; simp [Fresh, slotsAfter]
  | cons e a ih =>
    intro tags
    cases e with
    | stage o tile sub slot origin => exact ih _
    | read o tile sub slot col =>
      show (tags slot = some (o, tile, sub) ∧ Fresh tags (a ++ b))
        ↔ (tags slot = some (o, tile, sub) ∧ Fresh tags a) ∧ Fresh (slotsAfter tags a) b
      rw [ih tags, and_assoc]

/-- In a sequence that passes the freshness check, the slot of every read holds, when
the read is made, the sub-tile the read is to consume. -/
theorem Fresh_split (tags : Nat → Option (Operand × Nat × Nat)) (pre post : List LdsEvent)
    (op : Operand) (tile sub slot col : Nat)
    (h : Fresh tags (pre ++ LdsEvent.read op tile sub slot col :: post)) :
    slotsAfter tags pre slot = some (op, tile, sub) := by
  rw [Fresh_append] at h
  exact h.2.1

theorem Fresh_stage1 (sh : FwdShape) (B : Nat × Nat) (j n : Nat)
    (hrot : ∀ i, i + 1 < k0_loops sh → sh.LdsSeq i ≠ sh.LdsSeq (i + 1))
    (hn : n ≤ k0_loops sh - 1) :
    ∀ tags, tags (sh.LdsSeq 0) = some (Operand.K, j, 0) →
      Fresh tags (stage1Events sh B j n) ∧
      slotsAfter tags (stage1Events sh B j n) (sh.LdsSeq n) = some (Operand.K, j, n) := by
  induction n with
  | zero =>
    intro tags h0
    exact ⟨trivial, h0⟩
  | succ n ih =>
    intro tags h0
    obtain ⟨ih1, ih2⟩ := ih (by omega) tags h0
    have hne : sh.LdsSeq n ≠ sh.LdsSeq (n + 1) := hrot n (by omega)
    rw [stage1Events, Fresh_append, slotsAfter_append]
    refine ⟨⟨ih1, ?_⟩, ?_⟩
    · simp only [Fresh, and_true]
      rw [Function.update_noteq hne, ih2]
    · simp only [slotsAfter]
      rw [Function.update_same]

theorem Fresh_stage3 (sh : FwdShape) (W : Nat × Nat) (j n : Nat)
    (hrow : sh.vRowMajor = true) :
    ∀ tags, tags (sh.LdsSeq (k0_loops sh)) = some (Operand.V, j, 0) →
      Fresh tags (stage3Events sh W j n) ∧
      slotsAfter tags (stage3Events sh W j n) (sh.LdsSeq (k0_loops sh + n))
        = some (Operand.V, j, n) := by
  induction n with
  | zero =>
    intro tags h0
    exact ⟨trivial, h0⟩
  | succ n ih =>
    intro tags h0
    obtain ⟨ih1, ih2⟩ := ih tags h0
    have hv : vStoreSlot sh (k0_loops sh + n + 1) = sh.LdsSeq (k0_loops sh + (n + 1)) := by
      rw [vStoreSlot, if_pos hrow]
      rfl
    rw [stage3Events, Fresh_append, slotsAfter_append, hv]
    refine ⟨⟨ih1, ?_⟩, ?_⟩
    · simp only [Fresh, and_true]
      exact ih2
    · simp only [slotsAfter]
      rw [Function.update_same]

theorem Fresh_iterEvents (sh : FwdShape) (B W : Nat × Nat) (j : Nat) (more : Bool)
    (hk1 : 1 ≤ k1_loops sh) (hrow : sh.vRowMajor = true)
    (hrot : ∀ i, i + 1 < k0_loops sh → sh.LdsSeq i ≠ sh.LdsSeq (i + 1))
    (htail : sh.LdsSeq 0 ≠ sh.LdsSeq (k0_loops sh + k1_loops sh - 1))
    (tags : Nat → Option (Operand × Nat × Nat))
    (h0 : tags (sh.LdsSeq 0) = some (Operand.K, j, 0)) :
    Fresh tags (iterEvents sh B W j more) ∧
    (more = true →
      slotsAfter tags (iterEvents sh B W j more) (sh.LdsSeq 0) = some (Operand.K, j + 1, 0)) := by
  obtain ⟨a1, a2⟩ := Fresh_stage1 sh B j (k0_loops sh - 1) hrot (le_refl _) tags h0
  have hv : vStoreSlot sh (k0_loops sh) = sh.LdsSeq (k0_loops sh) := by
    rw [vStoreSlot, if_pos hrow]
  have he : k0_loops sh + k1_loops sh - 1 = k0_loops sh + (k1_loops sh - 1) := by omega
  obtain ⟨b1, b2⟩ := Fresh_stage3 sh W j (k1_loops sh - 1) hrow
    (Function.update (slotsAfter tags (stage1Events sh B j (k0_loops sh - 1)))
      (sh.LdsSeq (k0_loops sh)) (some (Operand.V, j, 0)))
    (Function.update_same _ _ _)
  rw [← he] at b2
  simp only [iterEvents, Fresh_append, slotsAfter_append, hv]
  refine ⟨⟨⟨⟨⟨⟨a1, ?_⟩, ?_⟩, ?_⟩, ?_⟩, ?_⟩, ?_⟩
  · simp only [Fresh, and_true]
    exact a2
  · simp [Fresh]
  · simp only [slotsAfter]
    exact b1
  · cases more <;> simp [Fresh]
  · simp only [slotsAfter, Fresh, and_true]
    cases more
    · simp only [Bool.false_eq_true, if_false, slotsAfter]
      exact b2
    · simp only [if_true, slotsAfter]
      rw [Function.update_noteq (Ne.symm htail)]
      exact b2
  · intro hm
    subst hm
    simp only [slotsAfter, if_true]
    rw [Function.update_same]

theorem Fresh_traceUpTo (sh : FwdShape) (ko vo : Nat × Nat) (n : Int)
    (hk1 : 1 ≤ k1_loops sh) (hrow : sh.vRowMajor = true)
    (hrot : ∀ i, i + 1 < k0_loops sh → sh.LdsSeq i ≠ sh.LdsSeq (i + 1))
    (htail : sh.LdsSeq 0 ≠ sh.LdsSeq (k0_loops sh + k1_loops sh - 1))
    (j : Nat) (hj : j ≤ (max 1 n).toNat) :
    Fresh (fun _ => none) (traceUpTo sh ko vo n j) ∧
    (j < (max 1 n).toNat →
      slotsAfter (fun _ => none) (traceUpTo sh ko vo n j) (sh.LdsSeq 0)
        = some (Operand.K, j, 0)) := by
  induction j with
  | zero =>
    refine ⟨?_, fun _ => ?_⟩
    · simp [traceUpTo, Fresh]
    · simp [traceUpTo, slotsAfter]
  | succ j ih =>
    obtain ⟨ih1, ih2⟩ := ih (by omega)
    obtain ⟨b1, b2⟩ := Fresh_iterEvents sh (ko.1 + j * sh.kN0, ko.2)
      (vo.1, vo.2 + j * vAdvance sh) j (decide ((j : Int) + 1 < n)) hk1 hrow hrot htail _
      (ih2 (by omega))
    rw [traceUpTo, Fresh_append, slotsAfter_append]
    refine ⟨⟨ih1, b1⟩, fun hlt => b2 ?_⟩
    have hm : (j : Int) + 1 < n := by omega
    simp [hm]

/-- Staging-buffer freshness for a `RowMajor` V, in the sequential order of the staging
writes and sub-GEMM reads of one call. For a `RowMajor` V and a buffer sequence with
`LdsSeq[i] != LdsSeq[i + 1]` for `i < k0_loops - 1` and
`LdsSeq[0] != LdsSeq[k0_loops + k1_loops - 1]`, every sub-GEMM (`gemm_0` on K,
`gemm_1` on V, in every outer iteration, the tail `gemm_1` after the K prefetch of
the next tile included) reads a slot whose most recent staging write is the
sub-tile the sub-GEMM consumes: no write to the slot lies between the staging
of that sub-tile and its read. -/
theorem staging_buffer_freshness (sh : FwdShape) (ko vo : Nat × Nat) (n : Int)
    (hk0 : 1 ≤ k0_loops sh) (hk1 : 1 ≤ k1_loops sh) (hrow : sh.vRowMajor = true)
    (hrot : ∀ i, i < k0_loops sh - 1 → sh.LdsSeq i ≠ sh.LdsSeq (i + 1))
    (htail : sh.LdsSeq 0 ≠ sh.LdsSeq (k0_loops sh + k1_loops sh - 1)) :
    ∀ pre post op tile sub slot col,
      lds_trace sh ko vo n = pre ++ LdsEvent.read op tile sub slot col :: post →
      slotsAfter (fun _ => none) pre slot = some (op, tile, sub) := by
  intro pre post op tile sub slot col h
  have hf := (Fresh_traceUpTo sh ko vo n hk1 hrow (fun i hi => hrot i (by omega)) htail
    (max 1 n).toNat (le_refl _)).1
  rw [← lds_trace_eq, h] at hf
  exact Fresh_split _ pre post op tile sub slot col hf

theorem staging_buffer_freshness_witness :
    slotsAfter (fun _ => none) ((lds_trace sampleShape4 (0, 0) (0, 0) 2).take 8) 3
      = some (Operand.V, 0, 1) :=
  staging_buffer_freshness sampleShape4 (0, 0) (0, 0) 2 (by decide) (by decide) rfl
    (fun i hi => by
      have h2 : k0_loops sampleShape4 = 2 := rfl
      have hi0 : i = 0 := by omega
      subst hi0
      decide)
    (by decide)
    ((lds_trace sampleShape4 (0, 0) (0, 0) 2).take 8)
    ((lds_trace sampleShape4 (0, 0) (0, 0) 2).drop 9) Operand.V 0 1 3 1
    (by rw [lds_trace_eq]; decide)

end Fwd

/-! ## Combine pipeline: occupancy hint and shared-memory size -/

namespace Combine

/-- C30: occupancy hint selection. `kBlockPerCu` is `Problem::kBlockPerCu` whenever
that is not `-1`; otherwise it is `2` for `kK0BlockLength <= 32`, `3` for
`32 < kK0BlockLength <= 64`, `2` for `64 < kK0BlockLength <= 128`, `1` for
`128 < kK0BlockLength <= 256`, and no value is defined for
`kK0BlockLength > 256`. -/
theorem kBlockPerCu_selection (P : CombineProblem) :
    (P.kBlockPerCu ≠ -1 → kBlockPerCu P = some P.kBlockPerCu) ∧
    (P.kBlockPerCu = -1 →
      (P.kK0BlockLength ≤ 32 → kBlockPerCu P = some 2) ∧
      (32 < P.kK0BlockLength → P.kK0BlockLength ≤ 64 → kBlockPerCu P = some 3) ∧
      (64 < P.kK0BlockLength → P.kK0BlockLength ≤ 128 → kBlockPerCu P = some 2) ∧
      (128 < P.kK0BlockLength → P.kK0BlockLength ≤ 256 → kBlockPerCu P = some 1) ∧
      (256 < P.kK0BlockLength → kBlockPerCu P = none)) := by
  constructor
  · intro h
    simp [kBlockPerCu, h]
  · intro h
    refine ⟨?_, ?_, ?_, ?_, ?_⟩
    · intro h1
      simp [kBlockPerCu, h, h1]
    · intro h1 h2
      simp [kBlockPerCu, h, h2, Nat.not_le.2 h1]
    · intro h1 h2
      have h3 : ¬ P.kK0BlockLength ≤ 32 := by omega
      simp [kBlockPerCu, h, h2, h3, Nat.not_le.2 h1]
    · intro h1 h2
      have h3 : ¬ P.kK0BlockLength ≤ 32 := by omega
      have h4 : ¬ P.kK0BlockLength ≤ 64 := by omega
      simp [kBlockPerCu, h, h2, h3, h4, Nat.not_le.2 h1]
    · intro h1
      have h3 : ¬ P.kK0BlockLength ≤ 32 := by omega
      have h4 : ¬ P.kK0BlockLength ≤ 64 := by omega
      have h5 : ¬ P.kK0BlockLength ≤ 128 := by omega
      simp [kBlockPerCu, h, h3, h4, h5, Nat.not_le.2 h1]

theorem kBlockPerCu_selection_witness :
    kBlockPerCu sampleMasked = some 2 ∧
    kBlockPerCu { sampleMasked with kBlockPerCu := 4 } = some 4 ∧
    kBlockPerCu { sampleMasked with kK0BlockLength := 512 } = none :=
  ⟨((kBlockPerCu_selection sampleMasked).2 rfl).1 (by decide),
    (kBlockPerCu_selection { sampleMasked with kBlockPerCu := 4 }).1 (by decide),
    ((kBlockPerCu_selection { sampleMasked with kK0BlockLength := 512 }).2 rfl).2.2.2.2
      (by decide)⟩

/-- C27: shared-memory bound of the LSE restaging, in elements. For `split < kMaxSplits`
and `row < kM0`, the offset `split + row * kMaxSplits` written by the store sweep
and read by the load sweep is at most `kMaxSplits * kM0 - 1`, hence below
`GetSmemSize() = kMaxSplits * (kM0 + 1)`; and the store sweep leaves every
element at offset `kMaxSplits * kM0` or above as it was. -/
theorem lse_restaging_within_smem {α : Type} (P : CombineProblem) (lse_acc : Nat → Nat → Fp α)
    (lds : Nat → Fp α) (split row : Nat) (hs : split < P.kMaxSplits) (hr : row < P.kM0) :
    storeOffset P split row ≤ P.kMaxSplits * P.kM0 - 1 ∧
    loadOffset P row split ≤ P.kMaxSplits * P.kM0 - 1 ∧
    storeOffset P split row < GetSmemSize P ∧
    loadOffset P row split < GetSmemSize P ∧
    GetSmemSize P = P.kMaxSplits * (P.kM0 + 1) ∧
    ∀ a, P.kMaxSplits * P.kM0 ≤ a → copy_lse_acc_to_lds P lse_acc lds a = lds a := by
  have h1 : row * P.kMaxSplits + P.kMaxSplits ≤ P.kM0 * P.kMaxSplits := by
    have := Nat.mul_le_mul_right P.kMaxSplits (Nat.succ_le_of_lt hr)
    rwa [Nat.succ_mul] at this
  have h2 : P.kMaxSplits * P.kM0 = P.kM0 * P.kMaxSplits := Nat.mul_comm _ _
  have h3 : P.kMaxSplits * (P.kM0 + 1) = P.kM0 * P.kMaxSplits + P.kMaxSplits := by ring
  refine ⟨?_, ?_, ?_, ?_, rfl, ?_⟩
  · unfold storeOffset; omega
  · unfold loadOffset; omega
  · unfold storeOffset GetSmemSize; omega
  · unfold loadOffset GetSmemSize; omega
  · intro a ha
    rw [copy_lse_acc_to_lds_apply, if_neg]
    rintro ⟨_, hb⟩
    have hk : 0 < P.kMaxSplits := by omega
    have hlt := (Nat.div_lt_iff_lt_mul hk).1 hb
    omega

theorem lse_restaging_within_smem_witness :
    storeOffset sampleMasked 1 1 ≤ sampleMasked.kMaxSplits * sampleMasked.kM0 - 1 ∧
    storeOffset sampleMasked 1 1 < GetSmemSize sampleMasked :=
  ⟨(lse_restaging_within_smem sampleMasked sampleLse (fun _ => Fp.nan) 1 1
      (by decide) (by decide)).1,
    (lse_restaging_within_smem sampleMasked sampleLse (fun _ => Fp.nan) 1 1
      (by decide) (by decide)).2.2.1⟩

/-- For every `kMaxSplits >= 1` and `kM0 >= 1`, `GetSmemSize()` is below the number
of bytes of `kMaxSplits * kM0` elements of 4 bytes. -/
theorem GetSmemSize_lt_bytes (P : CombineProblem) (hs : 1 ≤ P.kMaxSplits) (hm : 1 ≤ P.kM0) :
    GetSmemSize P < 4 * (P.kMaxSplits * P.kM0) := by
  have h : P.kMaxSplits * 1 ≤ P.kMaxSplits * P.kM0 := Nat.mul_le_mul_left _ hm
  have h3 : P.kMaxSplits * (P.kM0 + 1) = P.kMaxSplits * P.kM0 + P.kMaxSplits := by ring
  unfold GetSmemSize
  omega

/-- C28, the code at the failing input: `kMaxSplits = kM0 = 1` and a 4-byte
`LSEDataType`. `GetSmemSize()` is `2`; the store sweep writes the element at
offset `0`, which occupies the bytes `0 .. 3`: 4 bytes, more than
`GetSmemSize()` taken as a byte count. -/
theorem smem_bytes_at_failing_input :
    GetSmemSize sampleSingle = 2 ∧
    4 * (sampleSingle.kMaxSplits * sampleSingle.kM0) = 4 ∧
    ¬ (4 * (sampleSingle.kMaxSplits * sampleSingle.kM0) ≤ GetSmemSize sampleSingle) ∧
    storeOffset sampleSingle 0 0 = 0 ∧
    GetSmemSize sampleSingle ≤ 4 * storeOffset sampleSingle 0 0 + 3 := by
  decide

end Combine

/-! ## Forward pipeline: coverage of the reduction dimension -/

namespace Fwd

theorem qSliceCols_biUnion (sh : FwdShape) (hpos : 0 < sh.kK0) (n : Nat) :
    (Finset.range n).biUnion (qSliceCols sh) = Finset.range (n * sh.kK0) := by
  ext x
  simp only [Finset.mem_biUnion, Finset.mem_range, qSliceCols, Finset.mem_Ico]
  constructor
  · rintro ⟨i, hi, _, h2⟩
    calc x < (i + 1) * sh.kK0 := h2
      _ ≤ n * sh.kK0 := Nat.mul_le_mul_right _ hi
  · intro hx
    refine ⟨x / sh.kK0, ?_, Nat.div_mul_le_self x sh.kK0, ?_⟩
    · exact (Nat.div_lt_iff_lt_mul hpos).2 hx
    · rw [Nat.add_mul, Nat.one_mul]
      exact Nat.lt_div_mul_add hpos

/-- C25: reduction-dimension coverage. For positive `kK0 <= kK0BlockLength`, the Q
column ranges `[i * kK0, (i + 1) * kK0)` consumed by the `k0_loops` sub-GEMMs of
STAGE 1 are pairwise disjoint, their union is `[0, k0_loops * kK0)`, and it is the
whole range `[0, kK0BlockLength)` if and only if `kK0` divides
`kK0BlockLength`. -/
theorem q_columns_coverage (sh : FwdShape) (hpos : 0 < sh.kK0)
    (hle : sh.kK0 ≤ sh.kK0BlockLength) :
    1 ≤ k0_loops sh ∧
    (∀ i j, i < k0_loops sh → j < k0_loops sh → i ≠ j →
      Disjoint (qSliceCols sh i) (qSliceCols sh j)) ∧
    (Finset.range (k0_loops sh)).biUnion (qSliceCols sh)
      = Finset.range (k0_loops sh * sh.kK0) ∧
    ((Finset.range (k0_loops sh)).biUnion (qSliceCols sh) = Finset.range sh.kK0BlockLength
      ↔ sh.kK0 ∣ sh.kK0BlockLength) := by
  refine ⟨?_, ?_, qSliceCols_biUnion sh hpos _, ?_⟩
  · unfold k0_loops
    exact (Nat.le_div_iff_mul_le hpos).2 (by omega)
  · intro i j _ _ hij
    rw [Finset.disjoint_left]
    intro x hx hy
    simp only [qSliceCols, Finset.mem_Ico] at hx hy
    rcases Nat.lt_or_gt_of_ne hij with h | h
    · have := Nat.mul_le_mul_right sh.kK0 (show i + 1 ≤ j from h)
      omega
    · have := Nat.mul_le_mul_right sh.kK0 (show j + 1 ≤ i from h)
      omega
  · rw [qSliceCols_biUnion sh hpos]
    unfold k0_loops
    constructor
    · intro h
      have h1 := Finset.range_subset.1 (le_of_eq h)
      have h2 := Finset.range_subset.1 (le_of_eq h.symm)
      exact ⟨sh.kK0BlockLength / sh.kK0, by rw [Nat.mul_comm]; omega⟩
    · intro h
      rw [Nat.div_mul_cancel h]

theorem q_columns_coverage_witness :
    ((Finset.range (k0_loops sampleShape4)).biUnion (qSliceCols sampleShape4)
        = Finset.range sampleShape4.kK0BlockLength
      ↔ sampleShape4.kK0 ∣ sampleShape4.kK0BlockLength) :=
  (q_columns_coverage sampleShape4 (by decide) (by decide)).2.2.2

end Fwd

/-! ## The kernel launch helper: preprocess before each launch -/

namespace Launch

theorem preprocessedLaunches_timed_loop (n : Nat) (tail : List LaunchEvent) (ready : Bool) :
    preprocessedLaunches ready
        ((List.replicate n [LaunchEvent.preprocess, LaunchEvent.kernel]).flatten ++ tail)
      = if n = 0 then preprocessedLaunches ready tail
        else preprocessedLaunches false tail := by
  induction n generalizing ready with
  | zero => simp
  | succ n ih =>
    have e : (List.replicate (n + 1) [LaunchEvent.preprocess, LaunchEvent.kernel]).flatten
          ++ tail
        = LaunchEvent.preprocess :: LaunchEvent.kernel ::
          ((List.replicate n [LaunchEvent.preprocess, LaunchEvent.kernel]).flatten ++ tail) := by
      simp [List.replicate_succ]
    rw [e]
    simp only [preprocessedLaunches, Bool.true_and]
    rw [ih]
    simp

/-- With `CK_TIME_KERNEL` on, every launch is preceded by its own `preprocess` call
when timing is off or at most one warm-up launch is made. -/
theorem preprocessedLaunches_of_single_warm_up (cfg : StreamConfig)
    (h : cfg.time_kernel_ = false ∨ cfg.cold_niters_ ≤ 1) :
    preprocessedLaunches false (launch_and_time_kernel_with_preprocess true cfg) = true := by
  unfold launch_and_time_kernel_with_preprocess
  rcases h with h | h
  · simp [h, preprocessedLaunches]
  · by_cases ht : cfg.time_kernel_ = true
    · have hc : cfg.cold_niters_.toNat = 0 ∨ cfg.cold_niters_.toNat = 1 := by omega
      simp only [if_true, ht, List.append_assoc]
      rcases hc with hc | hc
      · rw [hc]
        simp [preprocessedLaunches, preprocessedLaunches_timed_loop]
      · rw [hc]
        simp [preprocessedLaunches, preprocessedLaunches_timed_loop]
    · simp [ht, preprocessedLaunches]

/-- C29, the code at the failing inputs. Built with `CK_TIME_KERNEL` off, the
function launches the kernel and never calls `preprocess`; built with
`CK_TIME_KERNEL` on, timing on and two warm-up launches, the second warm-up launch
follows the first with no `preprocess` call in between. -/
theorem preprocess_at_failing_input :
    launch_and_time_kernel_with_preprocess false
        { time_kernel_ := false, cold_niters_ := 0, nrepeat_ := 1 }
      = [LaunchEvent.kernel] ∧
    preprocessedLaunches false
      (launch_and_time_kernel_with_preprocess false
        { time_kernel_ := false, cold_niters_ := 0, nrepeat_ := 1 }) = false ∧
    launch_and_time_kernel_with_preprocess true
        { time_kernel_ := true, cold_niters_ := 2, nrepeat_ := 1 }
      = [LaunchEvent.preprocess, LaunchEvent.kernel, LaunchEvent.kernel,
          LaunchEvent.recordStart, LaunchEvent.preprocess, LaunchEvent.kernel,
          LaunchEvent.recordStop] ∧
    preprocessedLaunches false
      (launch_and_time_kernel_with_preprocess true
        { time_kernel_ := true, cold_niters_ := 2, nrepeat_ := 1 }) = false := by
  decide

end Launch

/-! ## Forward pipeline: range of the stabilised exponentials -/

namespace Fwd

theorem le_rowMax (A : Arith ℝ) (sh : FwdShape) (s : Nat → Nat → ℝ) (i j : Nat)
    (hj : j < sh.kN0) : s i j ≤ rowMax A sh s i :=
  (reduceRange_max_isGreatest A.lowest (fun c => s i c) sh.kN0).2 (Or.inr ⟨j, hj, rfl⟩)

end Fwd

/-! ## Forward pipeline: the running sum and the final division -/

namespace Fwd

/-- The update of `l` for one row whose state either is as initialised (`l = 0`,
`m = Lowest()`) or has `l >= 1`: with at least one key and every score
`>= Lowest()`, the new `l` is `>= 1`. -/
theorem row_sum_ge_one (lowest : ℝ) (s : Nat → ℝ) (n : Nat) (hn : 1 ≤ n) (m_old l_old : ℝ)
    (hinv : (l_old = 0 ∧ m_old = lowest) ∨ 1 ≤ l_old) (hsc : ∀ c, c < n → lowest ≤ s c) :
    1 ≤ Real.exp (m_old - max m_old (reduceRange max lowest s n)) * l_old
      + ∑ c ∈ Finset.range n, Real.exp (s c - max m_old (reduceRange max lowest s n)) := by
  obtain ⟨hmem, hub⟩ := reduceRange_max_isGreatest lowest s n
  have hlow : lowest ≤ reduceRange max lowest s n := lowest_le_reduceRange_max lowest s n
  have hatt : ∃ k, k < n ∧ s k = reduceRange max lowest s n := by
    rcases hmem with h | ⟨k, hk, h⟩
    · refine ⟨0, by omega, le_antisymm (hub (Or.inr ⟨0, by omega, rfl⟩)) ?_⟩
      rw [h]
      exact hsc 0 (by omega)
    · exact ⟨k, hk, h.symm⟩
  have hl0 : 0 ≤ l_old := by
    rcases hinv with h | h
    · rw [h.1]
    · linarith
  have hsum0 : 0 ≤ ∑ c ∈ Finset.range n,
      Real.exp (s c - max m_old (reduceRange max lowest s n)) :=
    Finset.sum_nonneg (fun c _ => le_of_lt (Real.exp_pos _))
  have htmp0 : 0 ≤ Real.exp (m_old - max m_old (reduceRange max lowest s n)) * l_old :=
    mul_nonneg (le_of_lt (Real.exp_pos _)) hl0
  by_cases hcase : m_old ≤ reduceRange max lowest s n
  · obtain ⟨k, hk, hsk⟩ := hatt
    have hone : Real.exp (s k - max m_old (reduceRange max lowest s n)) = 1 := by
      rw [max_eq_right hcase, hsk, sub_self, Real.exp_zero]
    have hle := Finset.single_le_sum
      (f := fun c => Real.exp (s c - max m_old (reduceRange max lowest s n)))
      (fun c _ => le_of_lt (Real.exp_pos _)) (Finset.mem_range.2 hk)
    simp only [hone] at hle
    linarith
  · have hlt : reduceRange max lowest s n < m_old := not_le.1 hcase
    have hl1 : 1 ≤ l_old := by
      rcases hinv with h | h
      · rw [h.2] at hlt
        exact absurd hlow (not_le.2 hlt)
      · exact h
    rw [max_eq_left (le_of_lt hlt), sub_self, Real.exp_zero, one_mul]
    rw [max_eq_left (le_of_lt hlt)] at hsum0
    linarith

/-- One iteration in standard mode over the reals, started from a state in which each
row either is as initialised or has `l >= 1`: every row has `l >= 1` afterwards. -/
theorem fwd_body_l_ge_one (lowest : ℝ) (e2 : ℝ → ℝ) (sh : FwdShape)
    (K V q_tile : Nat → Nat → ℝ) (fv : ℝ → ℝ) (scale : ℝ) (n : Int) (st : FwdState ℝ)
    (hN : 1 ≤ sh.kN0)
    (hinv : ∀ i, (st.l i = 0 ∧ st.m i = lowest) ∨ 1 ≤ st.l i)
    (hsc : ∀ i c, c < sh.kN0 →
      lowest ≤ scoreTile ⟨Real.exp, e2, lowest, false⟩ sh K q_tile scale st i c) (i : Nat) :
    1 ≤ (fwd_body ⟨Real.exp, e2, lowest, false⟩ sh K V q_tile fv scale n st).l i := by
  have hl : (fwd_body ⟨Real.exp, e2, lowest, false⟩ sh K V q_tile fv scale n st).l i
      = Real.exp (st.m i - max (st.m i)
            (reduceRange max lowest
              (fun c => scoreTile ⟨Real.exp, e2, lowest, false⟩ sh K q_tile scale st i c)
              sh.kN0)) * st.l i
        + reduceRange (fun x y => x + y) 0
          (fun c => Real.exp (scoreTile ⟨Real.exp, e2, lowest, false⟩ sh K q_tile scale st i c
            - max (st.m i) (reduceRange max lowest
              (fun c => scoreTile ⟨Real.exp, e2, lowest, false⟩ sh K q_tile scale st i c)
              sh.kN0))) sh.kN0 :=
    rfl
  rw [hl, reduceRange_add_eq_sum]
  exact row_sum_ge_one lowest _ sh.kN0 hN (st.m i) (st.l i) (hinv i) (hsc i)

/-- C24: the final division is guarded. In standard mode over the reals, with at
least one key per tile, if every scaled score computed by the call is
`>= Lowest()`, then after every outer iteration every row has `l >= 1`; so has the
state the loop ends in, whose `1 / l` (the factor of the final normalisation) is
in `(0, 1]`. -/
theorem final_division_guarded (lowest : ℝ) (e2 : ℝ → ℝ) (sh : FwdShape)
    (K V q_tile : Nat → Nat → ℝ) (fv : ℝ → ℝ) (scale : ℝ) (n : Int) (ko vo : Nat × Nat)
    (lds : Nat → Nat → Nat → ℝ) (hN : 1 ≤ sh.kN0)
    (hsc : ∀ t : Nat, (t : Int) < max 1 n → ∀ i c, c < sh.kN0 →
      lowest ≤ scoreTile ⟨Real.exp, e2, lowest, false⟩ sh K q_tile scale
        ((fwd_body ⟨Real.exp, e2, lowest, false⟩ sh K V q_tile fv scale n)^[t]
          (fwd_init ⟨Real.exp, e2, lowest, false⟩ sh K ko vo lds)) i c) :
    (∀ j : Nat, 1 ≤ j → (j : Int) ≤ max 1 n → ∀ i,
      1 ≤ ((fwd_body ⟨Real.exp, e2, lowest, false⟩ sh K V q_tile fv scale n)^[j]
        (fwd_init ⟨Real.exp, e2, lowest, false⟩ sh K ko vo lds)).l i) ∧
    (∀ i,
      1 ≤ (fwd_loop ⟨Real.exp, e2, lowest, false⟩ sh K V q_tile fv scale n
        (fwd_init ⟨Real.exp, e2, lowest, false⟩ sh K ko vo lds)).l i ∧
      0 < 1 / (fwd_loop ⟨Real.exp, e2, lowest, false⟩ sh K V q_tile fv scale n
        (fwd_init ⟨Real.exp, e2, lowest, false⟩ sh K ko vo lds)).l i ∧
      1 / (fwd_loop ⟨Real.exp, e2, lowest, false⟩ sh K V q_tile fv scale n
        (fwd_init ⟨Real.exp, e2, lowest, false⟩ sh K ko vo lds)).l i ≤ 1) := by
  have hinv : ∀ j : Nat, (j : Int) ≤ max 1 n → ∀ i,
      (((fwd_body ⟨Real.exp, e2, lowest, false⟩ sh K V q_tile fv scale n)^[j]
          (fwd_init ⟨Real.exp, e2, lowest, false⟩ sh K ko vo lds)).l i = 0 ∧
        ((fwd_body ⟨Real.exp, e2, lowest, false⟩ sh K V q_tile fv scale n)^[j]
          (fwd_init ⟨Real.exp, e2, lowest, false⟩ sh K ko vo lds)).m i = lowest) ∨
      1 ≤ ((fwd_body ⟨Real.exp, e2, lowest, false⟩ sh K V q_tile fv scale n)^[j]
          (fwd_init ⟨Real.exp, e2, lowest, false⟩ sh K ko vo lds)).l i := by
    intro j
    induction j with
    | zero =>
      intro _ i
      exact Or.inl ⟨rfl, rfl⟩
    | succ j ih =>
      intro hj i
      right
      rw [Function.iterate_succ_apply']
      exact fwd_body_l_ge_one lowest e2 sh K V q_tile fv scale n _ hN (ih (by omega))
        (hsc j (by omega)) i
  have hstep : ∀ j : Nat, 1 ≤ j → (j : Int) ≤ max 1 n → ∀ i,
      1 ≤ ((fwd_body ⟨Real.exp, e2, lowest, false⟩ sh K V q_tile fv scale n)^[j]
        (fwd_init ⟨Real.exp, e2, lowest, false⟩ sh K ko vo lds)).l i := by
    intro j hj1 hj i
    obtain ⟨k, rfl⟩ : ∃ k, j = k + 1 := ⟨j - 1, by omega⟩
    rw [Function.iterate_succ_apply']
    exact fwd_body_l_ge_one lowest e2 sh K V q_tile fv scale n _ hN (hinv k (by omega))
      (hsc k (by omega)) i
  refine ⟨hstep, ?_⟩
  intro i
  have hloop := fwd_loop_iterate ⟨Real.exp, e2, lowest, false⟩ sh K V q_tile fv scale n
    (n - 1).toNat (fwd_init ⟨Real.exp, e2, lowest, false⟩ sh K ko vo lds) (by simp [fwd_init])
  rw [hloop]
  have h1 := hstep ((n - 1).toNat + 1) (by omega) (by omega) i
  refine ⟨h1, ?_, ?_⟩
  · exact one_div_pos.2 (by linarith)
  · rw [div_le_one (by linarith)]
    exact h1

theorem final_division_guarded_witness :
    1 ≤ (fwd_loop ⟨Real.exp, fun x => (2 : ℝ) ^ x, -1, false⟩ sampleShape (fun _ _ => 0)
      (fun _ _ => 0) (fun _ _ => 0) (fun x => x) 1 1
      (fwd_init ⟨Real.exp, fun x => (2 : ℝ) ^ x, -1, false⟩ sampleShape (fun _ _ => 0)
        (0, 0) (0, 0) (fun _ _ _ => 0))).l 0 :=
  ((final_division_guarded (-1) (fun x => (2 : ℝ) ^ x) sampleShape (fun _ _ => 0)
    (fun _ _ => 0) (fun _ _ => 0) (fun x => x) 1 1 (0, 0) (0, 0) (fun _ _ _ => 0)
    (by decide)
    (fun t ht i c _ => by
      have ht0 : t = 0 := by
        have h1 : (max 1 (1 : Int)) = 1 := rfl
        omega
      subst ht0
      rw [Function.iterate_zero, id,
        scoreTile_eq _ _ _ _ _ _ Staged_sampleShape (KStaged_init _ _ _ _ _ _)]
      simp [sTile, qkScore])).2 0).1

end Fwd

/-! ## Combine pipeline: range of the weights and of their sum -/

namespace Combine

/-- A row sum of finite values is the finite sum. -/
theorem reduceRange_add_fin (p : Nat → Fp ℝ) (w : Nat → ℝ) (n : Nat)
    (h : ∀ c, c < n → p c = Fp.fin (w c)) :
    reduceRange Fp.add (Fp.fin 0) p n = Fp.fin (∑ c ∈ Finset.range n, w c) := by
  induction n with
  | zero => simp [reduceRange]
  | succ n ih =>
    rw [reduceRange, ih (fun c hc => h c (by omega)), h n (by omega), Finset.sum_range_succ]
    rfl

/-- The row maximum of values that are finite or `-infinity`, one of them finite, is
a finite element of the row, above every finite element. -/
theorem reduceRange_max_finite (g : Nat → Fp ℝ) (n : Nat)
    (hg : ∀ c, c < n → Fp.isNaN (g c) = false ∧ g c ≠ Fp.posInf)
    (hfin : ∃ c, c < n ∧ Fp.isFinite (g c) = true) :
    ∃ M : ℝ, reduceRange Fp.max Fp.negInf g n = Fp.fin M ∧
      (∃ c, c < n ∧ g c = Fp.fin M) ∧
      ∀ c x, c < n → g c = Fp.fin x → x ≤ M := by
  obtain ⟨h1, h2, h3⟩ := reduceRange_max_spec g n (fun c hc => (hg c hc).1)
  obtain ⟨c0, hc0, hf0⟩ := hfin
  have hle0 := h2 c0 hc0
  rcases h3 with h3 | ⟨c, hc, h3⟩
  · rw [h3] at hle0
    cases hgc : g c0 <;> simp_all [Fp.le, Fp.isFinite]
  · have hgc := hg c hc
    cases hval : g c with
    | fin M =>
      refine ⟨M, by rw [h3, hval], ⟨c, hc, hval⟩, ?_⟩
      intro c2 x hc2 hx
      have := h2 c2 hc2
      rw [h3, hval, hx] at this
      simpa [Fp.le] using this
    | negInf =>
      rw [h3, hval] at hle0
      cases hgc0 : g c0 <;> simp_all [Fp.le, Fp.isFinite]
    | posInf => exact absurd hval hgc.2
    | nan => simp [hval, Fp.isNaN] at hgc

/-- C26: for a row of the combine pipeline with at least one finite partial LSE and
no `+infinity` or NaN entry, every weight `p = exp(lse_accum - validated max)` is a
finite number in `[0, 1]`, a split attaining the row maximum has `p = 1`, and
`lse_sum` is a finite number with `1 <= lse_sum <= kMaxSplits`. -/
theorem combine_weights_bounded (P : CombineProblem) (lse_acc : Nat → Nat → Fp ℝ)
    (lds : Nat → Fp ℝ) (row : Nat)
    (hrow : ∀ c, c < P.kMaxSplits →
      Fp.isNaN (lse_accum P lse_acc lds row c) = false ∧
        lse_accum P lse_acc lds row c ≠ Fp.posInf)
    (hfin : ∃ c, c < P.kMaxSplits ∧ Fp.isFinite (lse_accum P lse_acc lds row c) = true) :
    (∀ c, c < P.kMaxSplits →
      ∃ p : ℝ, p_compute Real.exp P lse_acc lds row c = Fp.fin p ∧ 0 ≤ p ∧ p ≤ 1) ∧
    (∃ c, c < P.kMaxSplits ∧ lse_accum P lse_acc lds row c = lse_max P lse_acc lds row ∧
      p_compute Real.exp P lse_acc lds row c = Fp.fin 1) ∧
    (∃ S : ℝ, lse_sum Real.exp P lse_acc lds row = Fp.fin S ∧ 1 ≤ S ∧
      S ≤ (P.kMaxSplits : ℝ)) := by
  obtain ⟨M, hM, ⟨cm, hcm, hgm⟩, hub⟩ :=
    reduceRange_max_finite (fun c => lse_accum P lse_acc lds row c) P.kMaxSplits hrow hfin
  have hmax : lse_max P lse_acc lds row = Fp.fin M := hM
  have hval : get_validated_m P (Fp.fin M : Fp ℝ) = Fp.fin M := by
    unfold get_validated_m
    split <;> simp [Fp.eqb]
  have hp : ∀ c, c < P.kMaxSplits →
      ∃ p : ℝ, p_compute Real.exp P lse_acc lds row c = Fp.fin p ∧ 0 ≤ p ∧ p ≤ 1 := by
    intro c hc
    have hgc := hrow c hc
    unfold p_compute
    rw [hmax, hval]
    cases hv : lse_accum P lse_acc lds row c with
    | fin x =>
      refine ⟨Real.exp (x - M), ?_, le_of_lt (Real.exp_pos _), ?_⟩
      · simp [Fp.sub, Fp.neg, Fp.add, Fp.exp, sub_eq_add_neg]
      · exact Real.exp_le_one_iff.2 (by have := hub c x hc hv; linarith)
    | negInf =>
      exact ⟨0, by simp [Fp.sub, Fp.neg, Fp.add, Fp.exp], le_refl _, zero_le_one⟩
    | posInf => exact absurd hv hgc.2
    | nan => simp [hv, Fp.isNaN] at hgc
  have hpm : p_compute Real.exp P lse_acc lds row cm = Fp.fin 1 := by
    unfold p_compute
    rw [hmax, hval]
    have hgm2 : lse_accum P lse_acc lds row cm = Fp.fin M := hgm
    rw [hgm2]
    simp [Fp.sub, Fp.neg, Fp.add, Fp.exp]
  refine ⟨hp, ⟨cm, hcm, ?_, hpm⟩, ?_⟩
  · rw [hmax]; exact hgm
  · choose w hw using hp
    have hsum := reduceRange_add_fin (fun c => p_compute Real.exp P lse_acc lds row c)
      (fun c => if h : c < P.kMaxSplits then w c h else 0) P.kMaxSplits
      (fun c hc => by simp only [dif_pos hc]; exact (hw c hc).1)
    refine ⟨_, hsum, ?_, ?_⟩
    · have hone : (if h : cm < P.kMaxSplits then w cm h else 0) = 1 := by
        rw [dif_pos hcm]
        have := (hw cm hcm).1
        rw [hpm] at this
        injection this with h1
        exact h1.symm
      have hle := Finset.single_le_sum
        (f := fun c => if h : c < P.kMaxSplits then w c h else 0)
        (fun c _ => by
          by_cases h : c < P.kMaxSplits
          · simp only [dif_pos h]; exact (hw c h).2.1
          · simp only [dif_neg h]; exact le_refl _)
        (Finset.mem_range.2 hcm)
      simp only [hone] at hle
      exact hle
    · have hle := Finset.sum_le_card_nsmul (Finset.range P.kMaxSplits)
        (fun c => if h : c < P.kMaxSplits then w c h else 0) 1
        (fun c hc => by
          have h := Finset.mem_range.1 hc
          simp only [dif_pos h]; exact (hw c h).2.2)
      simpa using hle

theorem combine_weights_bounded_witness :
    ∃ S : ℝ, lse_sum Real.exp sampleSingle (fun _ _ => Fp.fin 0) (fun _ => Fp.nan) 0
      = Fp.fin S ∧ 1 ≤ S ∧ S ≤ (sampleSingle.kMaxSplits : ℝ) :=
  (combine_weights_bounded sampleSingle (fun _ _ => Fp.fin 0) (fun _ => Fp.nan) 0
    (fun c hc => by
      rw [lse_accum_eq sampleSingle _ _ 0 c hc (by decide)]
      exact ⟨rfl, by simp⟩)
    ⟨0, by decide, by
      rw [lse_accum_eq sampleSingle _ _ 0 0 (by decide) (by decide)]
      rfl⟩).2.2

end Combine

/-! ## Forward pipeline: the two exponential modes -/

namespace Fwd

variable {α : Type} [LinearOrderedField α]

theorem kv_step_scaled (sh : FwdShape) (V : Nat → Nat → α) (fv : α → α)
    (pf ps : Nat → Nat → α) (c : Nat → α) (hp : ∀ i j, pf i j = c i * ps i j)
    (xf xs : KVState α) (h : KVScaled c xf xs) (k : Nat) :
    KVScaled c (kv_step sh V fv pf xf k) (kv_step sh V fv ps xs k) := by
  obtain ⟨h1, h2, h3, h4⟩ := h
  refine ⟨?_, ?_, ?_, ?_⟩
  · simp only [kv_step, h1, h2, h3]
  · simp only [kv_step, h2]
  · simp only [kv_step, h2, h3]
  · intro i d
    simp only [kv_step, blockGemm_apply, get_slice_tile, h1, h4, hp, Finset.mul_sum, mul_add,
      mul_assoc, Nat.zero_add]

theorem kv_fold_scaled (sh : FwdShape) (V : Nat → Nat → α) (fv : α → α)
    (pf ps : Nat → Nat → α) (c : Nat → α) (hp : ∀ i j, pf i j = c i * ps i j)
    (l : List Nat) :
    ∀ xf xs : KVState α, KVScaled c xf xs →
      KVScaled c (l.foldl (kv_step sh V fv pf) xf) (l.foldl (kv_step sh V fv ps) xs) := by
  induction l with
  | nil => intro xf xs h; exact h
  | cons k l ih =>
    intro xf xs h
    exact ih _ _ (kv_step_scaled sh V fv pf ps c hp xf xs h k)

theorem kv_loop_scaled (sh : FwdShape) (V : Nat → Nat → α) (fv : α → α)
    (pf ps : Nat → Nat → α) (c : Nat → α) (hp : ∀ i j, pf i j = c i * ps i j)
    (xf xs : KVState α) (h : KVScaled c xf xs) :
    KVScaled c (kv_loop sh V fv pf xf) (kv_loop sh V fv ps xs) := by
  unfold kv_loop
  split
  · exact kv_fold_scaled sh V fv pf ps c hp _ xf xs h
  · exact h

theorem qk_loop_congr (sh : FwdShape) (K q_tile : Nat → Nat → α) (sf ss : FwdState α)
    (h1 : sf.lds = ss.lds) (h2 : sf.k_dram_window = ss.k_dram_window) :
    qk_loop sh K q_tile sf = qk_loop sh K q_tile ss := by
  unfold qk_loop
  rw [h1, h2]

/-- The score tiles of the two modes, computed from the same shared memory: the one of
the standard mode is the one of the fast mode times `scale`. -/
theorem scoreTile_modes (Af As : Arith α) (sh : FwdShape) (K q_tile : Nat → Nat → α)
    (scale_f scale_s : α) (sf ss : FwdState α) (hf : Af.fastExp2 = true)
    (hs : As.fastExp2 = false) (h1 : sf.lds = ss.lds)
    (h2 : sf.k_dram_window = ss.k_dram_window) (i j : Nat) :
    scoreTile As sh K q_tile scale_s ss i j
      = scoreTile Af sh K q_tile scale_f sf i j * scale_s := by
  unfold scoreTile
  rw [qk_loop_congr sh K q_tile sf ss h1 h2]
  simp [hf, hs]

theorem fwd_body_eq_kv (A : Arith α) (sh : FwdShape) (K V q_tile : Nat → Nat → α)
    (fv : α → α) (scale : α) (n : Int) (st : FwdState α) :
    fwd_body A sh K V q_tile fv scale n st
      = { k_dram_block_window :=
            if st.i_total_loops + 1 < n then
              move_tile_window st.k_dram_block_window (sh.kN0, 0)
            else st.k_dram_block_window
          k_dram_window :=
            if st.i_total_loops + 1 < n then
              move_tile_window
                (if st.i_total_loops + 1 < n then
                  move_tile_window st.k_dram_block_window (sh.kN0, 0)
                else st.k_dram_block_window) (0, sh.kK0)
            else (qk_loop sh K q_tile st).k_dram_window
          v_dram_window :=
            (kv_loop sh V fv
              (pCompute A scale (scoreTile A sh K q_tile scale st)
                (mNext A sh (scoreTile A sh K q_tile scale st) st.m))
              (kvInit A sh K V q_tile fv scale st)).v_dram_window
          lds :=
            if st.i_total_loops + 1 < n then
              Function.update
                (kv_loop sh V fv
                  (pCompute A scale (scoreTile A sh K q_tile scale st)
                    (mNext A sh (scoreTile A sh K q_tile scale st) st.m))
                  (kvInit A sh K V q_tile fv scale st)).lds
                (sh.LdsSeq 0)
                (load_tile K
                  (if st.i_total_loops + 1 < n then
                    move_tile_window st.k_dram_block_window (sh.kN0, 0)
                  else st.k_dram_block_window))
            else
              (kv_loop sh V fv
                (pCompute A scale (scoreTile A sh K q_tile scale st)
                  (mNext A sh (scoreTile A sh K q_tile scale st) st.m))
                (kvInit A sh K V q_tile fv scale st)).lds
          o_acc :=
            blockGemm sh.kK1
              (kv_loop sh V fv
                (pCompute A scale (scoreTile A sh K q_tile scale st)
                  (mNext A sh (scoreTile A sh K q_tile scale st) st.m))
                (kvInit A sh K V q_tile fv scale st)).o_acc
              (get_slice_tile
                (pCompute A scale (scoreTile A sh K q_tile scale st)
                  (mNext A sh (scoreTile A sh K q_tile scale st) st.m))
                0 ((k1_loops sh - 1) * sh.kK1))
              ((if st.i_total_loops + 1 < n then
                  Function.update
                    (kv_loop sh V fv
                      (pCompute A scale (scoreTile A sh K q_tile scale st)
                        (mNext A sh (scoreTile A sh K q_tile scale st) st.m))
                      (kvInit A sh K V q_tile fv scale st)).lds
                    (sh.LdsSeq 0)
                    (load_tile K
                      (if st.i_total_loops + 1 < n then
                        move_tile_window st.k_dram_block_window (sh.kN0, 0)
                      else st.k_dram_block_window))
                else
                  (kv_loop sh V fv
                    (pCompute A scale (scoreTile A sh K q_tile scale st)
                      (mNext A sh (scoreTile A sh K q_tile scale st) st.m))
                    (kvInit A sh K V q_tile fv scale st)).lds)
                (sh.LdsSeq (k0_loops sh + k1_loops sh - 1)))
          m := mNext A sh (scoreTile A sh K q_tile scale st) st.m
          l := fun i =>
            rescale A scale st.m (mNext A sh (scoreTile A sh K q_tile scale st) st.m) i * st.l i
              + reduceRange (fun x y => x + y) 0
                (fun j => pCompute A scale (scoreTile A sh K q_tile scale st)
                  (mNext A sh (scoreTile A sh K q_tile scale st) st.m) i j) sh.kN0
          i_total_loops := st.i_total_loops + 1 } := rfl

end Fwd

namespace Fwd

variable {α : Type} [LinearOrderedField α]

/-- One iteration preserves the row scaling between two runs whose `p_compute` and
`tmp` are related by the new and the old row factors. -/
theorem fwd_body_scaled (Af As : Arith α) (sh : FwdShape) (K V q_tile : Nat → Nat → α)
    (fv : α → α) (scale_f scale_s : α) (n : Int) (sf ss : FwdState α) (c c2 : Nat → α)
    (hrel : ScaledBy c sf ss)
    (hp : ∀ i j,
      pCompute Af scale_f (scoreTile Af sh K q_tile scale_f sf)
          (mNext Af sh (scoreTile Af sh K q_tile scale_f sf) sf.m) i j
        = c2 i * pCompute As scale_s (scoreTile As sh K q_tile scale_s ss)
          (mNext As sh (scoreTile As sh K q_tile scale_s ss) ss.m) i j)
    (ht : ∀ i,
      rescale Af scale_f sf.m (mNext Af sh (scoreTile Af sh K q_tile scale_f sf) sf.m) i * c i
        = c2 i * rescale As scale_s ss.m
          (mNext As sh (scoreTile As sh K q_tile scale_s ss) ss.m) i) :
    ScaledBy c2 (fwd_body Af sh K V q_tile fv scale_f n sf)
      (fwd_body As sh K V q_tile fv scale_s n ss) := by
  obtain ⟨h1, h2, h3, h4, h5, h6, h7⟩ := hrel
  have hqk := qk_loop_congr sh K q_tile sf ss h4 h2
  have hkv0 : KVScaled c2 (kvInit Af sh K V q_tile fv scale_f sf)
      (kvInit As sh K V q_tile fv scale_s ss) := by
    refine ⟨?_, ?_, ?_, ?_⟩
    · simp only [kvInit, hqk, h3]
    · simp only [kvInit, h3]
    · simp only [kvInit, h3]
    · intro i d
      simp only [kvInit]
      rw [h6]
      linear_combination (ss.o_acc i d) * ht i
  obtain ⟨k1, k2, _, k4⟩ := kv_loop_scaled sh V fv _ _ c2 hp _ _ hkv0
  rw [fwd_body_eq_kv, fwd_body_eq_kv]
  refine ⟨?_, ?_, ?_, ?_, ?_, ?_, ?_⟩
  · simp only [h1, h5]
  · simp only [h1, h5, hqk]
  · exact k2
  · simp only [h1, h5, k1]
  · simp only [h5]
  · intro i d
    simp only [blockGemm_apply, get_slice_tile, k4, hp, k1, h1, h5, Finset.mul_sum, mul_add,
      mul_assoc, Nat.zero_add]
  · intro i
    simp only
    rw [reduceRange_add_eq_sum, reduceRange_add_eq_sum]
    simp only [hp]
    rw [← Finset.mul_sum, h7]
    linear_combination (ss.l i) * ht i

/-- The exponential of the fast mode called with `scale * log2(e)` is the natural
exponential of the difference scaled by `scale`. -/
theorem exp2_as_exp (scale a b : ℝ) :
    (2 : ℝ) ^ (scale * Real.logb 2 (Real.exp 1) * a - scale * Real.logb 2 (Real.exp 1) * b)
      = Real.exp (scale * a - scale * b) := by
  have hl : Real.log 2 ≠ 0 := ne_of_gt (Real.log_pos (by norm_num))
  rw [Real.rpow_def_of_pos (by norm_num)]
  congr 1
  simp only [Real.logb, Real.log_exp]
  field_simp

/-- One iteration of the fast mode with `scale * log2(e)` and of the standard mode with
`scale`, started from states that differ by the row factor
`exp(m_std - scale * m_fast)`, ends in states that differ by that factor. -/
theorem modes_step (lowest : ℝ) (sh : FwdShape) (K V q_tile : Nat → Nat → ℝ) (fv : ℝ → ℝ)
    (scale : ℝ) (n : Int) (sf ss : FwdState ℝ)
    (hrel : ScaledBy (fun i => Real.exp (ss.m i - scale * sf.m i)) sf ss) :
    ScaledBy
      (fun i => Real.exp
        ((fwd_body ⟨Real.exp, fun x => (2 : ℝ) ^ x, lowest, false⟩ sh K V q_tile fv scale n
            ss).m i
          - scale * (fwd_body ⟨Real.exp, fun x => (2 : ℝ) ^ x, lowest, true⟩ sh K V q_tile fv
            (scale * Real.logb 2 (Real.exp 1)) n sf).m i))
      (fwd_body ⟨Real.exp, fun x => (2 : ℝ) ^ x, lowest, true⟩ sh K V q_tile fv
        (scale * Real.logb 2 (Real.exp 1)) n sf)
      (fwd_body ⟨Real.exp, fun x => (2 : ℝ) ^ x, lowest, false⟩ sh K V q_tile fv scale n ss) := by
  have hsS := scoreTile_modes ⟨Real.exp, fun x => (2 : ℝ) ^ x, lowest, true⟩
    ⟨Real.exp, fun x => (2 : ℝ) ^ x, lowest, false⟩ sh K q_tile
    (scale * Real.logb 2 (Real.exp 1)) scale sf ss rfl rfl hrel.2.2.2.1 hrel.2.1
  have hmF : (fwd_body ⟨Real.exp, fun x => (2 : ℝ) ^ x, lowest, true⟩ sh K V q_tile fv
      (scale * Real.logb 2 (Real.exp 1)) n sf).m
      = mNext ⟨Real.exp, fun x => (2 : ℝ) ^ x, lowest, true⟩ sh
        (scoreTile ⟨Real.exp, fun x => (2 : ℝ) ^ x, lowest, true⟩ sh K q_tile
          (scale * Real.logb 2 (Real.exp 1)) sf) sf.m := rfl
  have hmS : (fwd_body ⟨Real.exp, fun x => (2 : ℝ) ^ x, lowest, false⟩ sh K V q_tile fv
      scale n ss).m
      = mNext ⟨Real.exp, fun x => (2 : ℝ) ^ x, lowest, false⟩ sh
        (scoreTile ⟨Real.exp, fun x => (2 : ℝ) ^ x, lowest, false⟩ sh K q_tile scale ss)
        ss.m := rfl
  rw [hmF, hmS]
  refine fwd_body_scaled _ _ sh K V q_tile fv _ _ n sf ss _ _ hrel ?_ ?_
  · intro i j
    show (2 : ℝ) ^ (scale * Real.logb 2 (Real.exp 1) * _ - scale * Real.logb 2 (Real.exp 1) * _)
      = Real.exp _ * Real.exp (_ - _)
    rw [hsS i j, exp2_as_exp, ← Real.exp_add]
    congr 1
    ring
  · intro i
    show (2 : ℝ) ^ (scale * Real.logb 2 (Real.exp 1) * _ - scale * Real.logb 2 (Real.exp 1) * _)
        * Real.exp _
      = Real.exp _ * Real.exp (_ - _)
    rw [exp2_as_exp, ← Real.exp_add, ← Real.exp_add]
    congr 1
    ring

/-- After any number of iterations the states of the two modes differ by the row
factor `exp(m_std - scale * m_fast)`. -/
theorem modes_iterate (lowest : ℝ) (sh : FwdShape) (K V q_tile : Nat → Nat → ℝ)
    (fv : ℝ → ℝ) (scale : ℝ) (n : Int) (ko vo : Nat × Nat) (lds : Nat → Nat → Nat → ℝ)
    (j : Nat) :
    ScaledBy
      (fun i => Real.exp
        (((fwd_body ⟨Real.exp, fun x => (2 : ℝ) ^ x, lowest, false⟩ sh K V q_tile fv scale
            n)^[j]
            (fwd_init ⟨Real.exp, fun x => (2 : ℝ) ^ x, lowest, false⟩ sh K ko vo lds)).m i
          - scale * ((fwd_body ⟨Real.exp, fun x => (2 : ℝ) ^ x, lowest, true⟩ sh K V q_tile fv
            (scale * Real.logb 2 (Real.exp 1)) n)^[j]
            (fwd_init ⟨Real.exp, fun x => (2 : ℝ) ^ x, lowest, true⟩ sh K ko vo lds)).m i))
      ((fwd_body ⟨Real.exp, fun x => (2 : ℝ) ^ x, lowest, true⟩ sh K V q_tile fv
        (scale * Real.logb 2 (Real.exp 1)) n)^[j]
        (fwd_init ⟨Real.exp, fun x => (2 : ℝ) ^ x, lowest, true⟩ sh K ko vo lds))
      ((fwd_body ⟨Real.exp, fun x => (2 : ℝ) ^ x, lowest, false⟩ sh K V q_tile fv scale n)^[j]
        (fwd_init ⟨Real.exp, fun x => (2 : ℝ) ^ x, lowest, false⟩ sh K ko vo lds)) := by
  induction j with
  | zero =>
    simp only [Function.iterate_zero, id_eq]
    refine ⟨?_, ?_, ?_, ?_, ?_, ?_, ?_⟩
    · simp only [fwd_init]
    · simp only [fwd_init]
    · simp only [fwd_init]
    · simp only [fwd_init]
    · simp only [fwd_init]
    · intro i d
      simp only [fwd_init, mul_zero]
    · intro i
      simp only [fwd_init, mul_zero]
  | succ j ih =>
    simp only [Function.iterate_succ_apply']
    exact modes_step lowest sh K V q_tile fv scale n _ _ ih

/-- C22: fast-exp2 mode equivalence over the reals. For every scale, shape, input and
`num_total_loop`, the pipeline built with `CK_FMHA_FWD_FAST_EXP2` and called with
`scale * log2(e)` returns the same tile as the standard build called with
`scale`. -/
theorem fast_exp2_equivalence (lowest : ℝ) (sh : FwdShape) (Q : Nat → Nat → ℝ)
    (qo : Nat × Nat) (fq : ℝ → ℝ) (K : Nat → Nat → ℝ) (ko : Nat × Nat) (fk : ℝ → ℝ)
    (V : Nat → Nat → ℝ) (vo : Nat × Nat) (fv : ℝ → ℝ) (scale : ℝ) (n nsub : Int)
    (lds : Nat → Nat → Nat → ℝ) (i d : Nat) :
    run ⟨Real.exp, fun x => (2 : ℝ) ^ x, lowest, true⟩ sh Q qo fq K ko fk V vo fv
        (scale * Real.logb 2 (Real.exp 1)) n nsub lds i d
      = run ⟨Real.exp, fun x => (2 : ℝ) ^ x, lowest, false⟩ sh Q qo fq K ko fk V vo fv
        scale n nsub lds i d := by
  have key := modes_iterate lowest sh K V (tile_elementwise_in fq (load_tile Q qo)) fv scale n
    ko vo lds
  have hf := fwd_loop_iterate ⟨Real.exp, fun x => (2 : ℝ) ^ x, lowest, true⟩ sh K V
    (tile_elementwise_in fq (load_tile Q qo)) fv (scale * Real.logb 2 (Real.exp 1)) n
    (n - 1).toNat (fwd_init ⟨Real.exp, fun x => (2 : ℝ) ^ x, lowest, true⟩ sh K ko vo lds)
    (by simp [fwd_init])
  have hs := fwd_loop_iterate ⟨Real.exp, fun x => (2 : ℝ) ^ x, lowest, false⟩ sh K V
    (tile_elementwise_in fq (load_tile Q qo)) fv scale n
    (n - 1).toNat (fwd_init ⟨Real.exp, fun x => (2 : ℝ) ^ x, lowest, false⟩ sh K ko vo lds)
    (by simp [fwd_init])
  obtain ⟨_, _, _, _, _, ho, hl⟩ := key ((n - 1).toNat + 1)
  simp only [run]
  rw [hf, hs, ho i d, hl i, mul_one_div, mul_one_div]
  exact mul_div_mul_left _ _ (ne_of_gt (Real.exp_pos _))

end Fwd

/-! ## Forward pipeline: the output as a convex combination -/

namespace Fwd

/-- Under the staging conditions and `kN0 = k1_loops * kK1`, row `i` of the returned
tile (either mode, exact reals) is a combination, with positive weights of sum
`1`, of the V columns consumed: for outer iteration `t` those at key offsets
`t * vAdvance .. t * vAdvance + kN0 - 1` from the caller's V origin, where
`vAdvance` is `kN0` when `k1_loops >= 2`. -/
theorem output_convex_combination (lowest : ℝ) (fast : Bool) (sh : FwdShape)
    (Q : Nat → Nat → ℝ) (qo : Nat × Nat) (fq : ℝ → ℝ) (K : Nat → Nat → ℝ) (ko : Nat × Nat)
    (fk : ℝ → ℝ) (V : Nat → Nat → ℝ) (vo : Nat × Nat) (fv : ℝ → ℝ) (scale : ℝ)
    (n nsub : Int) (lds : Nat → Nat → Nat → ℝ) (hs : Staged sh)
    (hdiv : k1_loops sh * sh.kK1 = sh.kN0) (i : Nat) :
    ∃ w : Nat → Nat → ℝ,
      (∀ t c, 0 < w t c) ∧
      (∑ t ∈ Finset.range (max 1 n).toNat, ∑ c ∈ Finset.range sh.kN0, w t c) = 1 ∧
      ∀ d, run ⟨Real.exp, fun x => (2 : ℝ) ^ x, lowest, fast⟩ sh Q qo fq K ko fk V vo fv
          scale n nsub lds i d
        = ∑ t ∈ Finset.range (max 1 n).toNat, ∑ c ∈ Finset.range sh.kN0,
            w t c * fv (V (vo.1 + d) (vo.2 + t * vAdvance sh + c)) := by
  have hN0 : 0 < sh.kN0 := by
    have h1 := hs.k1_pos
    unfold k1_loops at h1
    rcases Nat.eq_zero_or_pos sh.kN0 with h | h
    · rw [h, Nat.zero_div] at h1
      omega
    · exact h
  have hPpos : ∀ t c, 0 < pCompute ⟨Real.exp, fun x => (2 : ℝ) ^ x, lowest, fast⟩ scale
      (sIter ⟨Real.exp, fun x => (2 : ℝ) ^ x, lowest, fast⟩ sh K
        (tile_elementwise_in fq (load_tile Q qo)) scale ko t)
      (runMax ⟨Real.exp, fun x => (2 : ℝ) ^ x, lowest, fast⟩ sh
        (sIter ⟨Real.exp, fun x => (2 : ℝ) ^ x, lowest, fast⟩ sh K
          (tile_elementwise_in fq (load_tile Q qo)) scale ko) (max 1 n).toNat) i c := by
    intro t c
    cases fast
    · exact Real.exp_pos _
    · exact Real.rpow_pos_of_pos (by norm_num) _
  have hL : 0 < ∑ t ∈ Finset.range (max 1 n).toNat, ∑ c ∈ Finset.range sh.kN0,
      pCompute ⟨Real.exp, fun x => (2 : ℝ) ^ x, lowest, fast⟩ scale
        (sIter ⟨Real.exp, fun x => (2 : ℝ) ^ x, lowest, fast⟩ sh K
          (tile_elementwise_in fq (load_tile Q qo)) scale ko t)
        (runMax ⟨Real.exp, fun x => (2 : ℝ) ^ x, lowest, fast⟩ sh
          (sIter ⟨Real.exp, fun x => (2 : ℝ) ^ x, lowest, fast⟩ sh K
            (tile_elementwise_in fq (load_tile Q qo)) scale ko) (max 1 n).toNat) i c := by
    refine Finset.sum_pos (fun t _ => Finset.sum_pos (fun c _ => hPpos t c) ?_) ?_
    · exact ⟨0, Finset.mem_range.2 hN0⟩
    · exact ⟨0, Finset.mem_range.2 (by omega)⟩
  refine ⟨fun t c => pCompute ⟨Real.exp, fun x => (2 : ℝ) ^ x, lowest, fast⟩ scale
      (sIter ⟨Real.exp, fun x => (2 : ℝ) ^ x, lowest, fast⟩ sh K
        (tile_elementwise_in fq (load_tile Q qo)) scale ko t)
      (runMax ⟨Real.exp, fun x => (2 : ℝ) ^ x, lowest, fast⟩ sh
        (sIter ⟨Real.exp, fun x => (2 : ℝ) ^ x, lowest, fast⟩ sh K
          (tile_elementwise_in fq (load_tile Q qo)) scale ko) (max 1 n).toNat) i c
      / (∑ t ∈ Finset.range (max 1 n).toNat, ∑ c ∈ Finset.range sh.kN0,
        pCompute ⟨Real.exp, fun x => (2 : ℝ) ^ x, lowest, fast⟩ scale
          (sIter ⟨Real.exp, fun x => (2 : ℝ) ^ x, lowest, fast⟩ sh K
            (tile_elementwise_in fq (load_tile Q qo)) scale ko t)
          (runMax ⟨Real.exp, fun x => (2 : ℝ) ^ x, lowest, fast⟩ sh
            (sIter ⟨Real.exp, fun x => (2 : ℝ) ^ x, lowest, fast⟩ sh K
              (tile_elementwise_in fq (load_tile Q qo)) scale ko) (max 1 n).toNat) i c),
    fun t c => div_pos (hPpos t c) hL, ?_, ?_⟩
  · simp only [← Finset.sum_div]
    exact div_self (ne_of_gt hL)
  · intro d
    rw [run_closed_form _ sh Q qo fq K ko fk V vo fv scale n nsub lds hs
      (weightMul_real lowest scale fast)]
    rw [Finset.sum_mul]
    refine Finset.sum_congr rfl (fun t _ => ?_)
    unfold pvProduct
    rw [sum_blocks (fun k =>
      pCompute ⟨Real.exp, fun x => (2 : ℝ) ^ x, lowest, fast⟩ scale
        (sIter ⟨Real.exp, fun x => (2 : ℝ) ^ x, lowest, fast⟩ sh K
          (tile_elementwise_in fq (load_tile Q qo)) scale ko t)
        (runMax ⟨Real.exp, fun x => (2 : ℝ) ^ x, lowest, fast⟩ sh
          (sIter ⟨Real.exp, fun x => (2 : ℝ) ^ x, lowest, fast⟩ sh K
            (tile_elementwise_in fq (load_tile Q qo)) scale ko) (max 1 n).toNat) i k
        * fv (V (vo.1 + d) (vo.2 + t * vAdvance sh + k))) (k1_loops sh) sh.kK1, hdiv,
      Finset.sum_mul]
    refine Finset.sum_congr rfl (fun c _ => ?_)
    ring

/-- C23, the code at the failing input: `kN0 = kK1 = 1` (so `k1_loops = 1`), two key
tiles, all scores `0`, V columns `1` (key 0) and `3` (key 1). The returned
element is `1`, the V column of the first key: it is not `w0 * 1 + w1 * 3` for any
positive `w0`, `w1` of sum `1`. -/
theorem convex_combination_at_failing_input :
    runDefault ⟨Real.exp, fun x => (2 : ℝ) ^ x, -(2 ^ 128 - 2 ^ 104), false⟩ sampleShape
        (fun _ _ => 0) (0, 0) (fun _ _ => 0) (0, 0) (fun _ c => if c = 0 then 1 else 3) (0, 0)
        1 2 0 (fun _ _ _ => 0) 0 0 = 1 ∧
    ¬ ∃ w0 w1 : ℝ, 0 < w0 ∧ 0 < w1 ∧ w0 + w1 = 1 ∧
      runDefault ⟨Real.exp, fun x => (2 : ℝ) ^ x, -(2 ^ 128 - 2 ^ 104), false⟩ sampleShape
          (fun _ _ => 0) (0, 0) (fun _ _ => 0) (0, 0) (fun _ c => if c = 0 then 1 else 3)
          (0, 0) 1 2 0 (fun _ _ _ => 0) 0 0
        = w0 * (fun (_ c : Nat) => if c = 0 then (1 : ℝ) else 3) 0 0
          + w1 * (fun (_ c : Nat) => if c = 0 then (1 : ℝ) else 3) 0 1 := by
  have hrun : runDefault ⟨Real.exp, fun x => (2 : ℝ) ^ x, -(2 ^ 128 - 2 ^ 104), false⟩
      sampleShape (fun _ _ => 0) (0, 0) (fun _ _ => 0) (0, 0)
      (fun _ c => if c = 0 then 1 else 3) (0, 0) 1 2 0 (fun _ _ _ => 0) 0 0 = 1 := by
    unfold runDefault
    rw [run_closed_form _ _ _ _ _ _ _ _ _ _ _ _ _ _ _ Staged_sampleShape
      (weightMul_real _ _ false)]
    have h1 : k0_loops sampleShape = 1 := rfl
    have h2 : k1_loops sampleShape = 1 := rfl
    have h3 : (max 1 (2 : Int)).toNat = 2 := rfl
    have h4 : sampleShape.kN0 = 1 := rfl
    have h5 : sampleShape.kK0 = 1 := rfl
    have h6 : sampleShape.kK1 = 1 := rfl
    simp only [h3, Finset.sum_range_succ, Finset.sum_range_zero, pvProduct, pCompute, sIter,
      sTile, qkScore, runMax, mNext, rowMax, reduceRange, vAdvance, h1, h2, h4, h5, h6,
      tile_elementwise_in, load_tile]
    norm_num
  refine ⟨hrun, ?_⟩
  rintro ⟨w0, w1, _, h1, hsum, he⟩
  rw [hrun] at he
  norm_num at he
  linarith

end Fwd

/-! ## Forward pipeline: the recurrence and the freshness at their failing inputs -/

namespace Fwd

/-- With two or more P*V sub-GEMMs per iteration and `kN0 = k1_loops * kK1`, the V load
window advances by `kN0` per outer iteration. -/
theorem vAdvance_of_two_sub_gemms (sh : FwdShape) (hk1 : 2 ≤ k1_loops sh)
    (hdiv : k1_loops sh * sh.kK1 = sh.kN0) : vAdvance sh = sh.kN0 := by
  rw [vAdvance, if_pos (by omega), hdiv]

/-- C17, the code at the failing input: `kN0 = kK1 = 1` (so `k1_loops = 1`),
`num_total_loop = 2`, all scores `0`, V columns `1` (key tile 0) and `3` (key tile
1), standard mode. After iteration 0 the state has `m = 0`, `l = 1`, `o_acc = 1`;
iteration 1 keeps `m = 0` and sets `l = 2` as the recurrence says, but sets
`o_acc = 2`, where `exp(m_old - m) * o_acc + P_1 * V_1` with the V tile of key
tile 1 is `4`. -/
theorem recurrence_at_failing_input :
    k1_loops sampleShape = 1 ∧
    ((fwd_body ⟨Real.exp, fun x => (2 : ℝ) ^ x, -(2 ^ 128 - 2 ^ 104), false⟩ sampleShape
        (fun _ _ => 0) (fun _ c => if c = 0 then 1 else 3) (fun _ _ => 0) (fun x => x) 1 2)^[1]
      (fwd_init ⟨Real.exp, fun x => (2 : ℝ) ^ x, -(2 ^ 128 - 2 ^ 104), false⟩ sampleShape
        (fun _ _ => 0) (0, 0) (0, 0) (fun _ _ _ => 0))).m 0 = 0 ∧
    ((fwd_body ⟨Real.exp, fun x => (2 : ℝ) ^ x, -(2 ^ 128 - 2 ^ 104), false⟩ sampleShape
        (fun _ _ => 0) (fun _ c => if c = 0 then 1 else 3) (fun _ _ => 0) (fun x => x) 1 2)^[1]
      (fwd_init ⟨Real.exp, fun x => (2 : ℝ) ^ x, -(2 ^ 128 - 2 ^ 104), false⟩ sampleShape
        (fun _ _ => 0) (0, 0) (0, 0) (fun _ _ _ => 0))).l 0 = 1 ∧
    ((fwd_body ⟨Real.exp, fun x => (2 : ℝ) ^ x, -(2 ^ 128 - 2 ^ 104), false⟩ sampleShape
        (fun _ _ => 0) (fun _ c => if c = 0 then 1 else 3) (fun _ _ => 0) (fun x => x) 1 2)^[1]
      (fwd_init ⟨Real.exp, fun x => (2 : ℝ) ^ x, -(2 ^ 128 - 2 ^ 104), false⟩ sampleShape
        (fun _ _ => 0) (0, 0) (0, 0) (fun _ _ _ => 0))).o_acc 0 0 = 1 ∧
    ((fwd_body ⟨Real.exp, fun x => (2 : ℝ) ^ x, -(2 ^ 128 - 2 ^ 104), false⟩ sampleShape
        (fun _ _ => 0) (fun _ c => if c = 0 then 1 else 3) (fun _ _ => 0) (fun x => x) 1 2)^[2]
      (fwd_init ⟨Real.exp, fun x => (2 : ℝ) ^ x, -(2 ^ 128 - 2 ^ 104), false⟩ sampleShape
        (fun _ _ => 0) (0, 0) (0, 0) (fun _ _ _ => 0))).m 0 = 0 ∧
    ((fwd_body ⟨Real.exp, fun x => (2 : ℝ) ^ x, -(2 ^ 128 - 2 ^ 104), false⟩ sampleShape
        (fun _ _ => 0) (fun _ c => if c = 0 then 1 else 3) (fun _ _ => 0) (fun x => x) 1 2)^[2]
      (fwd_init ⟨Real.exp, fun x => (2 : ℝ) ^ x, -(2 ^ 128 - 2 ^ 104), false⟩ sampleShape
        (fun _ _ => 0) (0, 0) (0, 0) (fun _ _ _ => 0))).l 0 = 2 ∧
    ((fwd_body ⟨Real.exp, fun x => (2 : ℝ) ^ x, -(2 ^ 128 - 2 ^ 104), false⟩ sampleShape
        (fun _ _ => 0) (fun _ c => if c = 0 then 1 else 3) (fun _ _ => 0) (fun x => x) 1 2)^[2]
      (fwd_init ⟨Real.exp, fun x => (2 : ℝ) ^ x, -(2 ^ 128 - 2 ^ 104), false⟩ sampleShape
        (fun _ _ => 0) (0, 0) (0, 0) (fun _ _ _ => 0))).o_acc 0 0 = 2 ∧
    Real.exp ((0 : ℝ) - 0) * 1
      + pvProduct sampleShape (fun _ c => if c = 0 then (1 : ℝ) else 3) (fun x => x)
        (fun a c => Real.exp
          (sIter ⟨Real.exp, fun x => (2 : ℝ) ^ x, -(2 ^ 128 - 2 ^ 104), false⟩ sampleShape
            (fun _ _ => 0) (fun _ _ => 0) 1 (0, 0) 1 a c - 0))
        (0, 0 + 1 * sampleShape.kN0) 0 0 = 4 := by
  have h1 : k0_loops sampleShape = 1 := rfl
  have h2 : k1_loops sampleShape = 1 := rfl
  have h4 : sampleShape.kN0 = 1 := rfl
  have h5 : sampleShape.kK0 = 1 := rfl
  have h6 : sampleShape.kK1 = 1 := rfl
  obtain ⟨_, _, _, hm1, hl1, ho1⟩ := iterate_spec
    ⟨Real.exp, fun x => (2 : ℝ) ^ x, -(2 ^ 128 - 2 ^ 104), false⟩ sampleShape
    (fun _ _ => 0) (fun _ c => if c = 0 then 1 else 3) (fun _ _ => 0) (fun x => x) 1 2
    (0, 0) (0, 0) (fun _ _ _ => 0) Staged_sampleShape (weightMul_real _ _ false) 1
    (by decide)
  obtain ⟨_, _, _, hm2, hl2, ho2⟩ := iterate_spec
    ⟨Real.exp, fun x => (2 : ℝ) ^ x, -(2 ^ 128 - 2 ^ 104), false⟩ sampleShape
    (fun _ _ => 0) (fun _ c => if c = 0 then 1 else 3) (fun _ _ => 0) (fun x => x) 1 2
    (0, 0) (0, 0) (fun _ _ _ => 0) Staged_sampleShape (weightMul_real _ _ false) 2
    (by decide)
  refine ⟨rfl, ?_, ?_, ?_, ?_, ?_, ?_, ?_⟩
  · rw [hm1]
    simp only [sIter, sTile, qkScore, runMax, mNext, rowMax, reduceRange, h1, h4, h5,
      Finset.sum_range_succ, Finset.sum_range_zero]
    norm_num
  · rw [hl1 0]
    simp only [Finset.sum_range_succ, Finset.sum_range_zero, pCompute, sIter,
      sTile, qkScore, runMax, mNext, rowMax, reduceRange, h1, h4, h5]
    norm_num
  · rw [ho1 0 0]
    simp only [Finset.sum_range_succ, Finset.sum_range_zero, pvProduct, pCompute, sIter,
      sTile, qkScore, runMax, mNext, rowMax, reduceRange, vAdvance, h1, h2, h4, h5, h6]
    norm_num
  · rw [hm2]
    simp only [sIter, sTile, qkScore, runMax, mNext, rowMax, reduceRange, h1, h4, h5,
      Finset.sum_range_succ, Finset.sum_range_zero]
    norm_num
  · rw [hl2 0]
    simp only [Finset.sum_range_succ, Finset.sum_range_zero, pCompute, sIter,
      sTile, qkScore, runMax, mNext, rowMax, reduceRange, h1, h4, h5]
    norm_num
  · rw [ho2 0 0]
    simp only [Finset.sum_range_succ, Finset.sum_range_zero, pvProduct, pCompute, sIter,
      sTile, qkScore, runMax, mNext, rowMax, reduceRange, vAdvance, h1, h2, h4, h5, h6]
    norm_num
  · simp only [Finset.sum_range_succ, Finset.sum_range_zero, pvProduct, sIter,
      sTile, qkScore, h1, h2, h4, h5, h6]
    norm_num

/-- C20, the code at the failing input: `k0_loops = k1_loops = 2`, `LdsSeq = (0, 1, 2, 3)`,
a V layout other than `RowMajor`, `num_total_loop = 1`. The buffer sequence
satisfies both inequalities of the claim. The V stores go to `v_lds_window` itself
(slot 0), while `gemm_1` reads the slices `LdsSeq[2] = 2` and `LdsSeq[3] = 3`: when
the first `gemm_1` reads slot 2 nothing has been staged into it, the V sub-tile it
is to consume lies in slot 0, where it has replaced K sub-tile 0. -/
theorem staging_freshness_at_failing_input :
    sampleShape5.vRowMajor = false ∧
    (∀ i, i < k0_loops sampleShape5 - 1 →
      sampleShape5.LdsSeq i ≠ sampleShape5.LdsSeq (i + 1)) ∧
    sampleShape5.LdsSeq 0
      ≠ sampleShape5.LdsSeq (k0_loops sampleShape5 + k1_loops sampleShape5 - 1) ∧
    lds_trace sampleShape5 (0, 0) (0, 0) 1
      = [LdsEvent.stage Operand.K 0 0 0 (0, 0), LdsEvent.stage Operand.K 0 1 1 (0, 1),
          LdsEvent.read Operand.K 0 0 0 0, LdsEvent.read Operand.K 0 1 1 1,
          LdsEvent.stage Operand.V 0 0 0 (0, 0)]
        ++ LdsEvent.read Operand.V 0 0 2 0
          :: [LdsEvent.stage Operand.V 0 1 0 (0, 1), LdsEvent.read Operand.V 0 1 3 1] ∧
    slotsAfter (fun _ => none)
      [LdsEvent.stage Operand.K 0 0 0 (0, 0), LdsEvent.stage Operand.K 0 1 1 (0, 1),
        LdsEvent.read Operand.K 0 0 0 0, LdsEvent.read Operand.K 0 1 1 1,
        LdsEvent.stage Operand.V 0 0 0 (0, 0)] 2 = none ∧
    slotsAfter (fun _ => none)
      [LdsEvent.stage Operand.K 0 0 0 (0, 0), LdsEvent.stage Operand.K 0 1 1 (0, 1),
        LdsEvent.read Operand.K 0 0 0 0, LdsEvent.read Operand.K 0 1 1 1,
        LdsEvent.stage Operand.V 0 0 0 (0, 0)] 0 = some (Operand.V, 0, 0) := by
  refine ⟨rfl, ?_, by decide, ?_, by decide, by decide⟩
  · intro i hi
    have h2 : k0_loops sampleShape5 = 2 := rfl
    have hi0 : i = 0 := by omega
    subst hi0
    decide
  · rw [lds_trace_eq]
    decide

/-- In the fast (exp2) mode with a scale `<= 0`, in one iteration started from any loop
state every element of `p_compute` and the rescale factor `tmp` are `>= 1`. -/
theorem fast_mode_nonpositive_scale_ge_one (lowest : ℝ) (sh : FwdShape)
    (K V q_tile : Nat → Nat → ℝ) (fv : ℝ → ℝ) (scale : ℝ) (n : Int) (st : FwdState ℝ)
    (hscale : scale ≤ 0) (i j : Nat) (hj : j < sh.kN0) :
    1 ≤ pCompute ⟨Real.exp, fun x => (2 : ℝ) ^ x, lowest, true⟩ scale
        (scoreTile ⟨Real.exp, fun x => (2 : ℝ) ^ x, lowest, true⟩ sh K q_tile scale st)
        (fwd_body ⟨Real.exp, fun x => (2 : ℝ) ^ x, lowest, true⟩ sh K V q_tile fv scale n st).m
        i j ∧
    1 ≤ rescale ⟨Real.exp, fun x => (2 : ℝ) ^ x, lowest, true⟩ scale st.m
        (fwd_body ⟨Real.exp, fun x => (2 : ℝ) ^ x, lowest, true⟩ sh K V q_tile fv scale n st).m
        i := by
  have hm : (fwd_body ⟨Real.exp, fun x => (2 : ℝ) ^ x, lowest, true⟩ sh K V q_tile fv scale n
      st).m i = max (st.m i)
        (rowMax ⟨Real.exp, fun x => (2 : ℝ) ^ x, lowest, true⟩ sh
          (scoreTile ⟨Real.exp, fun x => (2 : ℝ) ^ x, lowest, true⟩ sh K q_tile scale st) i) :=
    rfl
  have hs := le_rowMax ⟨Real.exp, fun x => (2 : ℝ) ^ x, lowest, true⟩ sh
    (scoreTile ⟨Real.exp, fun x => (2 : ℝ) ^ x, lowest, true⟩ sh K q_tile scale st) i j hj
  have h1 : scoreTile ⟨Real.exp, fun x => (2 : ℝ) ^ x, lowest, true⟩ sh K q_tile scale st i j
      ≤ (fwd_body ⟨Real.exp, fun x => (2 : ℝ) ^ x, lowest, true⟩ sh K V q_tile fv scale n
        st).m i := by
    rw [hm]; exact le_trans hs (le_max_right _ _)
  have h2 : st.m i
      ≤ (fwd_body ⟨Real.exp, fun x => (2 : ℝ) ^ x, lowest, true⟩ sh K V q_tile fv scale n
        st).m i := by
    rw [hm]; exact le_max_left _ _
  constructor
  · refine Real.one_le_rpow (by norm_num) ?_
    have := mul_le_mul_of_nonpos_left h1 hscale
    linarith
  · refine Real.one_le_rpow (by norm_num) ?_
    have := mul_le_mul_of_nonpos_left h2 hscale
    linarith

end Fwd

end CK
